import Mathlib

/-!
# Parameter-file store of `src/gromacs/fileio/readinp.cpp`

A shallow embedding of the MDP parameter store: `read_inpfile`, `search_einp`,
`mark_einp_set`, `get_einp`, the typed accessors, `sort_inp`, `write_inpfile` and
`replace_inp_entry`.

Conventions of the embedding.

* A C string is a `List Char`; the end of the list plays the role of the
  terminating NUL.
* The array `t_inpfile inp[]` together with its length `ninp` is a
  `List t_inpfile`; the null pointer that `read_inpfile` returns for a file
  without entries is the empty list.
* A `char *` that may be null (`value`) is an `Option CStr`.
* `int` fields are `Int`; the counters only ever grow by one per call, so no
  wrap-around is modelled for them.  The conversion of the `long` returned by
  `strtol` to `int` is modelled explicitly.
* Memory obtained with `srenew` is not initialised.  Functions that grow the
  array take the previous content of the new slot as an argument (`junk`).
* A call whose behaviour is undefined in C (dereferencing a null `value`,
  reading `defs[0]` of an empty list) yields `none`.
* The fixed-size scratch buffers (`buf`, `lbuf`, `rbuf`, `warn_buf`) are taken to
  be large enough for the text formatted into them.
* The input file is the list of lines that `fgets2` returns.
* The output file is the list of texts produced by the `fprintf` calls of the
  entry loop; the banner printed before the loop is produced by other modules.
-/

namespace Readinp

/-- C strings. -/
abbrev CStr := List Char

/-! ## Helpers from other translation units -/

/-- Modelled from the spec: `COMMENTSIGN` (utility/cstringutil.h) is not part of the
source file; the spec fixes the comment introducer of the file format as `;`. -/
def COMMENTSIGN : Char := ';'

/-- The C library predicate `isspace` in the C locale. -/
def isspace (c : Char) : Bool :=
  c == ' ' || c == '\t' || c == '\n' || c == '\x0b' || c == '\x0c' || c == '\r'

/-- The C library predicate `isdigit`. -/
def isdigit (c : Char) : Bool := decide (48 ≤ c.toNat) && decide (c.toNat ≤ 57)

/-- The C library function `toupper` in the C locale. -/
def toupper (c : Char) : Char :=
  if 97 ≤ c.toNat ∧ c.toNat ≤ 122 then Char.ofNat (c.toNat - 32) else c

/-- Modelled from the spec: `ltrim` (utility/cstringutil) is not part of the source
file; it removes the leading whitespace of a string. -/
def ltrim (s : CStr) : CStr := s.dropWhile isspace

/-- Modelled from the spec: `rtrim` (utility/cstringutil) is not part of the source
file; it removes the trailing whitespace of a string. -/
def rtrim (s : CStr) : CStr := (s.reverse.dropWhile isspace).reverse

/-- Modelled from the spec: `trim` (utility/cstringutil) is not part of the source
file; it trims leading and trailing whitespace. -/
def trim (s : CStr) : CStr := rtrim (ltrim s)

/-- The characters of a string that `gmx_strcasecmp_min` looks at: the text up to the
terminator without the separators `-` and `_`. -/
def cstrip (s : CStr) : CStr :=
  (s.takeWhile (fun c => c != '\x00')).filter (fun c => !(c == '-' || c == '_'))

/-- The comparison loop of `gmx_strcasecmp_min` on the characters that are not
skipped: the difference of the first pair of upper-cased characters that differ, the
end of a string counting as character 0. -/
def strcasecmp_walk : CStr → CStr → Int
  | [], [] => 0
  | [], c2 :: _ => 0 - ((toupper c2).toNat : Int)
  | c1 :: _, [] => ((toupper c1).toNat : Int)
  | c1 :: r1, c2 :: r2 =>
    if toupper c1 ≠ toupper c2 then ((toupper c1).toNat : Int) - ((toupper c2).toNat : Int)
    else strcasecmp_walk r1 r2

/-- Modelled from the spec: `gmx_strcasecmp_min` (utility/cstringutil) is not part of
the source file; it compares two strings case-insensitively, ignoring the separator
characters `-` and `_`, and returns 0 exactly when they agree. -/
def gmx_strcasecmp_min (s1 s2 : CStr) : Int := strcasecmp_walk (cstrip s1) (cstrip s2)

/-- Modelled from the spec: the warning sink `warninp_t` (fileio/warninp) is not part
of the source file; it keeps the current line context and accumulates soft warnings
and hard errors. -/
structure warninp where
  lineno : Nat
  warnings : List CStr
  errors : List CStr
deriving DecidableEq, Repr

/-- Modelled from the spec: `set_warning_line` records the line context. -/
def set_warning_line (wi : warninp) (lc : Nat) : warninp := { wi with lineno := lc }

/-- Modelled from the spec: `warning` records a soft warning. -/
def warning (wi : warninp) (s : CStr) : warninp := { wi with warnings := wi.warnings ++ [s] }

/-- Modelled from the spec: `warning_error` records a hard error and lets the caller
continue. -/
def warning_error (wi : warninp) (s : CStr) : warninp := { wi with errors := wi.errors ++ [s] }

/-- Modelled from the spec: `check_warning_error` makes the operation fail fatally
exactly when a hard error has been recorded; `true` stands for the fatal exit. -/
def check_warning_error (wi : warninp) : Bool := !wi.errors.isEmpty

/-! ## The entry record -/

/-- The record `t_inpfile` (fileio/readinp.h). -/
structure t_inpfile where
  count : Int
  bObsolete : Bool
  bSet : Bool
  name : CStr
  value : Option CStr
  inp_count : Int
deriving DecidableEq, Repr

/-- Apply `f` to the entry at position `i` (an assignment through `inp[i]`). -/
def upd (inp : List t_inpfile) (i : Nat) (f : t_inpfile → t_inpfile) : List t_inpfile :=
  match inp, i with
  | [], _ => []
  | e :: r, 0 => f e :: r
  | e :: r, i + 1 => e :: upd r i f

/-! ## `search_einp` -/

/-- The scan of `search_einp`: the first position whose name compares equal. -/
def search_loop (name : CStr) : List t_inpfile → Option Nat
  | [] => none
  | e :: r =>
    if gmx_strcasecmp_min name e.name = 0 then some 0
    else (search_loop name r).map (fun i => i + 1)

/-- The function `search_einp`: the index found, or -1.  The argument `none` is the
null pointer, for which the function returns -1 before the scan. -/
def search_einp (inp : Option (List t_inpfile)) (name : CStr) : Int :=
  match inp with
  | none => -1
  | some l =>
    match search_loop name l with
    | some i => (i : Int)
    | none => -1

/-! ## `read_inpfile` -/

/-- The loop `for (j = 0; buf[j] != '=' && buf[j] != 0; j++)`. -/
def scan_eq : CStr → Nat
  | [] => 0
  | c :: r => if c = '=' then 0 else scan_eq r + 1

/-- The tokenizer part of the body of the read loop (lines 88 to 139): the pair
`(lbuf, rbuf)` with which the store is consulted, or `none` when the line is
ignored. -/
def split_line (line : CStr) : Option (CStr × CStr) :=
  let buf := trim (line.takeWhile (fun c => c != COMMENTSIGN))
  let j := scan_eq buf
  if buf.length ≤ j then none
  else
    let lbuf := trim (buf.take j)
    if lbuf = [] then none
    else
      let rbuf := trim (buf.drop (j + 1))
      if rbuf = [] then none
      else some (lbuf, rbuf)

/-- The text of the duplicate-key error. -/
def doubly_msg (lbuf : CStr) : CStr :=
  "Parameter \"".toList ++ lbuf ++ "\" doubly defined\n".toList

/-- The entry that `read_inpfile` appends. -/
def new_item (lbuf rbuf : CStr) : t_inpfile :=
  { inp_count := 1, count := 0, bObsolete := false, bSet := false,
    name := lbuf, value := some rbuf }

/-- The variables of the read loop. -/
structure read_state where
  inp : List t_inpfile
  lc : Nat
  wi : warninp
deriving DecidableEq, Repr

/-- One iteration of the read loop on a line returned by `fgets2`. -/
def read_step (st : read_state) (line : CStr) : read_state :=
  let lc := st.lc + 1
  let wi := set_warning_line st.wi lc
  match split_line line with
  | none => { inp := st.inp, lc := lc, wi := wi }
  | some (lbuf, rbuf) =>
    match search_loop lbuf st.inp with
    | none => { inp := st.inp ++ [new_item lbuf rbuf], lc := lc, wi := wi }
    | some _ => { inp := st.inp, lc := lc, wi := warning_error wi (doubly_msg lbuf) }

/-- The function `read_inpfile` on the lines of the file.  The last iteration, in
which `fgets2` reports the end of the file, still advances the line context. -/
def read_inpfile (lines : List CStr) (wi : warninp) : List t_inpfile × warninp :=
  let st := lines.foldl read_step { inp := [], lc := 0, wi := wi }
  (st.inp, set_warning_line st.wi (st.lc + 1))

/-! ## Touching entries: `mark_einp_set` and `get_einp` -/

/-- The two statements `inp[i].count = inp[0].inp_count++; inp[i].bSet = TRUE;`. -/
def touch (inp : List t_inpfile) (i : Nat) : List t_inpfile :=
  match inp with
  | [] => []
  | e0 :: _ =>
    let c := e0.inp_count
    let inp1 := upd inp 0 (fun e => { e with inp_count := c + 1 })
    let inp2 := upd inp1 i (fun e => { e with count := c })
    upd inp2 i (fun e => { e with bSet := true })

/-- The function `mark_einp_set`. -/
def mark_einp_set (inp : List t_inpfile) (name : CStr) : List t_inpfile :=
  match search_loop name inp with
  | some i => touch inp i
  | none => inp

/-- The function `get_einp`.  The result `none` stands for the return value -1 (the
name was not found and an entry was appended); `junk` is the content of the slot
that `srenew` adds, of which only `name` and `bSet` are assigned before the touch. -/
def get_einp (inp : List t_inpfile) (name : CStr) (junk : t_inpfile) :
    Option Nat × List t_inpfile :=
  match search_loop name inp with
  | none =>
    let i := inp.length
    let inp1 := inp ++ [{ junk with name := name, bSet := true }]
    (none, touch inp1 i)
  | some i => (some i, touch inp i)

/-! ## Typed accessors -/

/-- The text produced by `sprintf(buf, "%d", def)`. -/
def fmt_d (d : Int) : CStr :=
  if d < 0 then '-' :: Nat.toDigits 10 d.natAbs else Nat.toDigits 10 d.natAbs

/-- The number denoted by a run of decimal digits. -/
def digits_val (ds : CStr) : Nat := ds.foldl (fun acc c => 10 * acc + (c.toNat - 48)) 0

/-- The largest `long` (LP64). -/
def LONG_MAX : Int := 2 ^ 63 - 1

/-- The smallest `long` (LP64). -/
def LONG_MIN : Int := -(2 ^ 63)

/-- The C library function `strtol(s, &ptr, 10)`: the value and the text at `ptr`.
Leading whitespace is skipped, one sign is accepted, the longest run of digits is
converted and clamped to the range of `long`; without a digit nothing is consumed. -/
def strtol (s : CStr) : Int × CStr :=
  let s1 := s.dropWhile isspace
  let sg : Bool × CStr :=
    match s1 with
    | [] => (false, [])
    | c :: r => if c = '-' then (true, r) else if c = '+' then (false, r) else (false, c :: r)
  let ds := sg.2.takeWhile isdigit
  if ds = [] then (0, s)
  else
    let n : Int := (digits_val ds : Int)
    let v : Int := if sg.1 then -n else n
    (max LONG_MIN (min LONG_MAX v), sg.2.dropWhile isdigit)

/-- The conversion of a `long` to `int` in the assignment `ret = strtol(...)`. -/
def long_to_int (x : Int) : Int := (x + 2 ^ 31) % 2 ^ 32 - 2 ^ 31

/-- The text of the integer coercion error. -/
def not_int_msg (value name : CStr) : CStr :=
  "Right hand side '".toList ++ value ++ "' for parameter '".toList ++ name ++
    "' in parameter file is not an integer value\n".toList

/-- The function `get_eint`: the returned `int`, the store and the sink. -/
def get_eint (inp : List t_inpfile) (name : CStr) (dflt : Int) (wi : warninp)
    (junk : t_inpfile) : Option (Int × List t_inpfile × warninp) :=
  match get_einp inp name junk with
  | (none, inp1) =>
    some (dflt, upd inp1 (inp1.length - 1) (fun e => { e with value := some (fmt_d dflt) }), wi)
  | (some ii, inp1) =>
    match inp1[ii]? with
    | none => none
    | some e =>
      match e.value with
      | none => none
      | some v =>
        let r := strtol v
        some (long_to_int r.1, inp1,
          if r.2 ≠ [] then warning_error wi (not_int_msg v e.name) else wi)

/-- The function `get_estr`: the returned pointer and the store. -/
def get_estr (inp : List t_inpfile) (name : CStr) (dflt : Option CStr) (junk : t_inpfile) :
    Option CStr × List t_inpfile :=
  match get_einp inp name junk with
  | (none, inp1) => (dflt, upd inp1 (inp1.length - 1) (fun e => { e with value := dflt }))
  | (some ii, inp1) =>
    match inp1[ii]? with
    | none => (none, inp1)
    | some e => (e.value, inp1)

/-- The loop `for (i = 0; defs[i] != nullptr; i++)` of `get_eeenum`: the first
position of `defs` that compares equal to the value. -/
def enum_loop (value : CStr) : List CStr → Option Nat
  | [] => none
  | d :: ds =>
    if gmx_strcasecmp_min d value = 0 then some 0
    else (enum_loop value ds).map (fun i => i + 1)

/-- The text that `get_eeenum` builds for an invalid value. -/
def enum_msg (value name d0 : CStr) (defs : List CStr) : CStr :=
  "Invalid enum '".toList ++ value ++ "' for variable ".toList ++ name ++
    ", using '".toList ++ d0 ++ "'\n".toList ++ "Next time use one of:".toList ++
    (defs.map (fun d => " '".toList ++ d ++ "'".toList)).flatten

/-- The result of `get_eeenum`: the returned index, the store, the sink (when one was
passed) and the texts printed to the diagnostic stream. -/
structure enum_result where
  ret : Int
  inp : List t_inpfile
  wi : Option warninp
  err : List CStr
deriving DecidableEq, Repr

/-- The function `get_eeenum`; `defs` is the list terminated by a null pointer, `wi`
is `none` for a null sink. -/
def get_eeenum (inp : List t_inpfile) (name : CStr) (defs : List CStr) (wi : Option warninp)
    (junk : t_inpfile) : Option enum_result :=
  match get_einp inp name junk with
  | (none, inp1) =>
    match defs with
    | [] => none
    | d0 :: _ =>
      some { ret := 0, inp := upd inp1 (inp1.length - 1) (fun e => { e with value := some d0 }),
             wi := wi, err := [] }
  | (some ii, inp1) =>
    match inp1[ii]? with
    | none => none
    | some e =>
      match e.value with
      | none => none
      | some v =>
        match enum_loop v defs with
        | some i => some { ret := (i : Int), inp := inp1, wi := wi, err := [] }
        | none =>
          match defs with
          | [] => none
          | d0 :: _ =>
            let buf := enum_msg v name d0 defs
            some { ret := 0, inp := upd inp1 ii (fun e => { e with value := some d0 }),
                   wi := wi.map (fun w => warning_error w buf),
                   err := match wi with
                     | some _ => []
                     | none => [buf ++ "\n".toList] }

/-- Modelled from the spec: `str_to_int64_t` (utility/cstringutil) is not part of
the source file; it parses a leading decimal integer as `strtol` does, with a 64-bit
result. -/
def str_to_int64_t (s : CStr) : Int × CStr := strtol s

/-- The function `get_eint64`: the returned 64-bit integer, the store and the sink. -/
def get_eint64 (inp : List t_inpfile) (name : CStr) (dflt : Int) (wi : warninp)
    (junk : t_inpfile) : Option (Int × List t_inpfile × warninp) :=
  match get_einp inp name junk with
  | (none, inp1) =>
    some (dflt, upd inp1 (inp1.length - 1) (fun e => { e with value := some (fmt_d dflt) }), wi)
  | (some ii, inp1) =>
    match inp1[ii]? with
    | none => none
    | some e =>
      match e.value with
      | none => none
      | some v =>
        let r := str_to_int64_t v
        some (r.1, inp1,
          if r.2 ≠ [] then warning_error wi (not_int_msg v e.name) else wi)

/-! ## `sort_inp` and `write_inpfile` -/

/-- The comparison callback `inp_comp`. -/
def inp_comp (a b : t_inpfile) : Int := a.count - b.count

/-- The first loop of `sort_inp`: the running maximum of the counts. -/
def max_count (inp : List t_inpfile) : Int := inp.foldl (fun mm e => max mm e.count) (-1)

/-- The second loop of `sort_inp`: `if (inp[i].count == 0) inp[i].count = mm++`. -/
def renumber : Int → List t_inpfile → List t_inpfile
  | _, [] => []
  | mm, e :: r =>
    if e.count = 0 then { e with count := mm } :: renumber (mm + 1) r
    else e :: renumber mm r

/-- Modelled from the spec: `gmx_qsort` (utility/qsort_threadsafe) is not part of the
source file; the spec asks for a stable sort, ascending in the comparison callback. -/
def gmx_qsort (compar : t_inpfile → t_inpfile → Int) (inp : List t_inpfile) : List t_inpfile :=
  inp.insertionSort (fun a b => compar a b ≤ 0)

/-- The function `sort_inp`. -/
def sort_inp (inp : List t_inpfile) : List t_inpfile :=
  gmx_qsort inp_comp (renumber (max_count inp) inp)

/-- The text produced by the conversion `%-24s`. -/
def pad24 (s : CStr) : CStr := s ++ List.replicate (24 - s.length) ' '

/-- The text written for a set entry. -/
def entry_line (e : t_inpfile) : CStr :=
  if e.name[0]? = some ';' ∨ (2 < e.name.length ∧ e.name[1]? = some ';') then
    pad24 e.name ++ "\n".toList
  else
    pad24 e.name ++ " = ".toList ++ (match e.value with | some v => v | none => []) ++ "\n".toList

/-- The text of the unknown-key diagnostic. -/
def unknown_msg (name : CStr) : CStr :=
  "Unknown left-hand '".toList ++ name ++ "' in parameter file\n".toList

/-- One iteration of the entry loop of `write_inpfile` on the output text and the
sink. -/
def write_step (bHaltOnUnknown : Bool) (st : List CStr × warninp) (e : t_inpfile) :
    List CStr × warninp :=
  if e.bSet then (st.1 ++ [entry_line e], st.2)
  else if !e.bObsolete then
    if bHaltOnUnknown then (st.1, warning_error st.2 (unknown_msg e.name))
    else (st.1, warning st.2 (unknown_msg e.name))
  else st

/-- The effects of `write_inpfile`: the store as sorted in place, the texts written
by the entry loop, the sink, and whether `check_warning_error` ends the run. -/
structure write_result where
  inp : List t_inpfile
  out : List CStr
  wi : warninp
  fatal : Bool
deriving DecidableEq, Repr

/-- The function `write_inpfile`. -/
def write_inpfile (inp : List t_inpfile) (bHaltOnUnknown : Bool) (wi : warninp) : write_result :=
  let sorted := sort_inp inp
  let st := sorted.foldl (write_step bHaltOnUnknown) ([], wi)
  { inp := sorted, out := st.1, wi := st.2, fatal := check_warning_error st.2 }

/-! ## `replace_inp_entry` -/

/-- The text printed to the diagnostic stream for a renamed entry. -/
def replacing_msg (name new_entry : CStr) : CStr :=
  "Replacing old mdp entry '".toList ++ name ++ "' by '".toList ++ new_entry ++ "'\n".toList

/-- The text printed to the diagnostic stream for an obsolete entry. -/
def ignoring_msg (name : CStr) : CStr :=
  "Ignoring obsolete mdp entry '".toList ++ name ++ "'\n".toList

/-- One iteration of the loop of `replace_inp_entry`: the entry afterwards and the
texts printed; `new_entry` is `none` for a null pointer. -/
def replace_step (old_entry : CStr) (new_entry : Option CStr) (e : t_inpfile) :
    t_inpfile × List CStr :=
  if gmx_strcasecmp_min old_entry e.name = 0 then
    match new_entry with
    | some n => ({ e with name := n }, [replacing_msg e.name n])
    | none => ({ e with bObsolete := true }, [ignoring_msg e.name])
  else (e, [])

/-- The function `replace_inp_entry`: the store and the texts printed to the
diagnostic stream. -/
def replace_inp_entry (inp : List t_inpfile) (old_entry : CStr) (new_entry : Option CStr) :
    List t_inpfile × List CStr :=
  (inp.map (fun e => (replace_step old_entry new_entry e).1),
    (inp.map (fun e => (replace_step old_entry new_entry e).2)).flatten)

/-! ## Reference definitions that follow the wording of the specification -/

/-- Following the spec's words: the line cut at its first `;` and trimmed of leading
and trailing whitespace. -/
def spec_remainder (line : CStr) : CStr := trim (line.takeWhile (fun c => c != ';'))

/-- Following the spec's words: the trimmed text before the first `=`. -/
def spec_left (r : CStr) : CStr := trim (r.takeWhile (fun c => c != '='))

/-- Following the spec's words: the trimmed text after the first `=`. -/
def spec_right (r : CStr) : CStr := trim ((r.dropWhile (fun c => c != '=')).drop 1)

/-- The valid assignment lines of a file, as `(name, value)` pairs in file order. -/
def valid_pairs (lines : List CStr) : List (CStr × CStr) := lines.filterMap split_line

/-- Following the spec's words: the pairs whose name does not match the name of any
earlier pair; `seen` holds the pairs that came before. -/
def first_occ : List (CStr × CStr) → List (CStr × CStr) → List (CStr × CStr)
  | _, [] => []
  | seen, p :: r =>
    if seen.any (fun q => decide (gmx_strcasecmp_min p.1 q.1 = 0)) then first_occ (seen ++ [p]) r
    else p :: first_occ (seen ++ [p]) r

/-- The pairs whose name matches the name of an earlier pair: the complement of
`first_occ`. -/
def dup_occ : List (CStr × CStr) → List (CStr × CStr) → List (CStr × CStr)
  | _, [] => []
  | seen, p :: r =>
    if seen.any (fun q => decide (gmx_strcasecmp_min p.1 q.1 = 0)) then p :: dup_occ (seen ++ [p]) r
    else dup_occ (seen ++ [p]) r

/-- Following the spec's words: the value of the first pair whose name matches. -/
def first_value (name : CStr) (pairs : List (CStr × CStr)) : Option CStr :=
  (pairs.find? (fun q => decide (gmx_strcasecmp_min name q.1 = 0))).map (fun q => q.2)

/-- The entry found under a name: `inp[search_einp(ninp, inp, name)]`. -/
def lookup (inp : List t_inpfile) (name : CStr) : Option t_inpfile :=
  (search_loop name inp).bind (fun i => inp[i]?)

/-- The canonical form of a string under `gmx_strcasecmp_min`. -/
def canon (s : CStr) : CStr := (cstrip s).map toupper

/-! ## Auxiliary definitions used by the statements and proofs -/

/-- The store under construction holds a match for a name exactly when a pair seen so
far does. -/
def seen_ok (seen : List (CStr × CStr)) (inp : List t_inpfile) : Prop :=
  ∀ n, search_loop n inp = none ↔
    seen.any (fun q => decide (gmx_strcasecmp_min n q.1 = 0)) = false

/-- The head counter `inp[0].inp_count` of a store, 0 standing for the empty store. -/
def head_count (inp : List t_inpfile) : Int :=
  match inp with
  | [] => 0
  | e0 :: _ => e0.inp_count

/-- The effect of a touch of position `i` on the entry at position `j`. -/
def touched (c : Int) (i j : Nat) (e : t_inpfile) : t_inpfile :=
  { count := if j = i then c else e.count,
    bObsolete := e.bObsolete,
    bSet := if j = i then true else e.bSet,
    name := e.name,
    value := e.value,
    inp_count := if j = 0 then c + 1 else e.inp_count }

/-- An entry that the writer reports as unknown: neither set nor obsolete. -/
def unknown_entry (e : t_inpfile) : Bool := !e.bSet && !e.bObsolete

/-- The sink after a run of unknown-key diagnostics in the given mode. -/
def add_diags (halt : Bool) (wi : warninp) (msgs : List CStr) : warninp :=
  if halt then { wi with errors := wi.errors ++ msgs }
  else { wi with warnings := wi.warnings ++ msgs }

/-- The name makes the writer print a bare line: it begins with `;`, or it is longer
than two characters and has `;` in second place. -/
def comment_name (name : CStr) : Bool :=
  decide (name[0]? = some ';' ∨ (2 < name.length ∧ name[1]? = some ';'))

/-- An empty sink. -/
def wi0 : warninp := { lineno := 0, warnings := [], errors := [] }

/-- A content of fresh memory, used for concrete runs. -/
def junk0 : t_inpfile :=
  { count := 0, bObsolete := false, bSet := false, name := [], value := none, inp_count := 0 }

/-- Following the spec's words on the partial numeric parse: the longest leading
prefix of `v` of the form optional sign followed by decimal digits; the integer it
denotes (0 when there is no digit) and the characters of `v` that remain after it. -/
def spec_int_lead (v : CStr) : Int × CStr :=
  let sg : Bool × CStr :=
    match v with
    | [] => (false, [])
    | c :: r => if c = '-' then (true, r) else if c = '+' then (false, r) else (false, c :: r)
  let ds := sg.2.takeWhile isdigit
  if ds = [] then (0, v)
  else (if sg.1 then -(digits_val ds : Int) else (digits_val ds : Int), sg.2.dropWhile isdigit)

/-- The store is non-empty with its head counter one past the number of touched
names, no name matches an earlier name, the entry found under the `k`-th touched name
is set and has access order `k + 1`, and every set entry is found under a touched
name. -/
structure touched_in_order (inp : List t_inpfile) (ns : List CStr) : Prop where
  head : inp ≠ [] ∧ head_count inp = (ns.length : Int) + 1
  names : (inp.map (fun e => e.name)).Pairwise (fun a b => gmx_strcasecmp_min b a ≠ 0)
  hit : ∀ (k : Nat) (n : CStr), ns[k]? = some n →
    ∃ (i : Nat) (e : t_inpfile),
      search_loop n inp = some i ∧ inp[i]? = some e ∧ e.bSet = true ∧ e.count = (k : Int) + 1
  set : ∀ (i : Nat) (e : t_inpfile), inp[i]? = some e → e.bSet = true →
    ∃ (k : Nat) (n : CStr), ns[k]? = some n ∧ search_loop n inp = some i

/-- Every entry that is not set has a value. -/
def unset_have_value (inp : List t_inpfile) : Prop :=
  ∀ (i : Nat) (e : t_inpfile), inp[i]? = some e → e.bSet = false → e.value ≠ none

/-- The fields of an entry that the ordering invariant speaks about. -/
def skel (e : t_inpfile) : CStr × Bool × Int × Int := (e.name, e.bSet, e.count, e.inp_count)

/-- A call of a typed accessor: `get_eint`, `get_estr`, or `get_eeenum` with the
non-empty list `d0 :: ds` and either the sink of the session or a null sink.  Each
call carries the content of the memory that `srenew` may hand out. -/
inductive accessor_call where
  | eint (name : CStr) (dflt : Int) (junk : t_inpfile)
  | estr (name : CStr) (dflt : Option CStr) (junk : t_inpfile)
  | eeenum (name : CStr) (d0 : CStr) (ds : List CStr) (with_sink : Bool) (junk : t_inpfile)

/-- The name that a call asks for. -/
def call_name : accessor_call → CStr
  | .eint name _ _ => name
  | .estr name _ _ => name
  | .eeenum name _ _ _ _ => name

/-- The state that a sequence of calls works on: the store, the sink and the texts on
the diagnostic stream. -/
structure session where
  inp : List t_inpfile
  wi : warninp
  err : List CStr

/-- One accessor call on a session. -/
def run_call (s : session) : accessor_call → Option session
  | .eint name dflt junk =>
    (get_eint s.inp name dflt s.wi junk).map
      (fun r => { inp := r.2.1, wi := r.2.2, err := s.err })
  | .estr name dflt junk =>
    some { inp := (get_estr s.inp name dflt junk).2, wi := s.wi, err := s.err }
  | .eeenum name d0 ds with_sink junk =>
    (get_eeenum s.inp name (d0 :: ds) (if with_sink then some s.wi else none) junk).map
      (fun r => { inp := r.inp, wi := r.wi.getD s.wi, err := s.err ++ r.err })

/-- A sequence of accessor calls on a session. -/
def run_calls (s : session) : List accessor_call → Option session
  | [] => some s
  | c :: cs => (run_call s c).bind (fun s2 => run_calls s2 cs)

/-- An operation on the store: a call of `get_eint`, `get_estr` or `get_eeenum`, a
call of `get_eint64`, `mark_einp_set`, or `replace_inp_entry` with or without a
replacement name. -/
inductive store_op where
  | call (c : accessor_call)
  | eint64 (name : CStr) (dflt : Int) (junk : t_inpfile)
  | mark (name : CStr)
  | replace (old_entry : CStr) (new_entry : Option CStr)

/-- One operation on a session. -/
def run_op (s : session) : store_op → Option session
  | .call c => run_call s c
  | .eint64 name dflt junk =>
    (get_eint64 s.inp name dflt s.wi junk).map
      (fun r => { inp := r.2.1, wi := r.2.2, err := s.err })
  | .mark name => some { inp := mark_einp_set s.inp name, wi := s.wi, err := s.err }
  | .replace old_entry new_entry =>
    some { inp := (replace_inp_entry s.inp old_entry new_entry).1, wi := s.wi,
           err := s.err ++ (replace_inp_entry s.inp old_entry new_entry).2 }

/-- A sequence of operations on a session. -/
def run_ops (s : session) : List store_op → Option session
  | [] => some s
  | op :: ops => (run_op s op).bind (fun s2 => run_ops s2 ops)

/-- For an accessor call: the requested name, the memory that `srenew` may hand out,
the value that the accessor stores when it creates the entry, and whether it may
also store that value in an entry that it finds (the fallback of `get_eeenum`).
`mark_einp_set` and `replace_inp_entry` are not accessor calls. -/
def op_touch : store_op → Option (CStr × t_inpfile × Option CStr × Bool)
  | .call (.eint name dflt junk) => some (name, junk, some (fmt_d dflt), false)
  | .call (.estr name dflt junk) => some (name, junk, dflt, false)
  | .call (.eeenum name d0 _ _ junk) => some (name, junk, some d0, true)
  | .eint64 name dflt junk => some (name, junk, some (fmt_d dflt), false)
  | .mark _ => none
  | .replace _ _ => none

/-- The name that an operation works on. -/
def op_name : store_op → CStr
  | .call c => call_name c
  | .eint64 name _ _ => name
  | .mark name => name
  | .replace old_entry _ => old_entry

/-- The operation touches an entry of the store: every accessor call does, and
`mark_einp_set` does when the name is present. -/
def op_is_touch (inp : List t_inpfile) : store_op → Bool
  | .call _ => true
  | .eint64 _ _ _ => true
  | .mark name => (search_loop name inp).isSome
  | .replace _ _ => false

/-- The number of touches in a run of operations from a session. -/
def count_touches (s : session) : List store_op → Nat
  | [] => 0
  | op :: ops =>
    (if op_is_touch s.inp op then 1 else 0) +
      (match run_op s op with
       | some s2 => count_touches s2 ops
       | none => 0)

/-- A renaming is harmless on a store when the replacement name matches no entry other
than those that are renamed; every other operation is harmless. -/
def rename_ok (inp : List t_inpfile) : store_op → Bool
  | .replace old_entry (some new_entry) =>
    inp.all (fun e => decide (gmx_strcasecmp_min old_entry e.name = 0) ||
      decide (gmx_strcasecmp_min new_entry e.name ≠ 0))
  | _ => true

/-- Every renaming of a run of operations is harmless on the store it is applied
to. -/
def renames_ok (s : session) : List store_op → Bool
  | [] => true
  | op :: ops =>
    rename_ok s.inp op &&
      (match run_op s op with
       | some s2 => renames_ok s2 ops
       | none => true)

/-- The operation is not a call of `get_estr` with a null default. -/
def default_present : store_op → Bool
  | .call (.estr _ none _) => false
  | _ => true

/-- The operation is not a call of `get_eeenum` whose first allowed string is empty. -/
def enum_first_nonempty : store_op → Bool
  | .call (.eeenum _ d0 _ _ _) => !d0.isEmpty
  | _ => true

/-! ## Facts about the name comparison -/

theorem toupper_toNat_ne_zero (c : Char) (hc : c ≠ '\x00') : (toupper c).toNat ≠ 0 := by
  unfold toupper
  split_ifs with h
  · have h1 : c.toNat - 32 < 256 := by omega
    have h2 : 65 ≤ c.toNat - 32 := by omega
    generalize c.toNat - 32 = n at h1 h2
    interval_cases n <;> decide
  · intro h0
    apply hc
    have := Char.ofNat_toNat c
    rw [h0] at this
    exact this.symm

theorem char_toNat_inj (a b : Char) (h : a.toNat = b.toNat) : a = b := by
  rw [← Char.ofNat_toNat a, ← Char.ofNat_toNat b, h]

theorem cstrip_ne_nul (s : CStr) : ∀ c ∈ cstrip s, c ≠ '\x00' := by
  intro c hc
  unfold cstrip at hc
  have h1 := List.mem_takeWhile_imp (List.mem_of_mem_filter hc)
  simpa using h1

theorem strcasecmp_walk_eq_zero_iff (a b : CStr) (ha : ∀ c ∈ a, c ≠ '\x00')
    (hb : ∀ c ∈ b, c ≠ '\x00') :
    strcasecmp_walk a b = 0 ↔ a.map toupper = b.map toupper := by
  induction a generalizing b with
  | nil =>
    cases b with
    | nil => simp [strcasecmp_walk]
    | cons c2 r2 =>
      have := toupper_toNat_ne_zero c2 (hb c2 (List.mem_cons_self _ _))
      simp [strcasecmp_walk]
      omega
  | cons c1 r1 ih =>
    cases b with
    | nil =>
      have := toupper_toNat_ne_zero c1 (ha c1 (List.mem_cons_self _ _))
      simp [strcasecmp_walk]
      omega
    | cons c2 r2 =>
      have ih1 := ih r2 (fun c hc => ha c (List.mem_cons_of_mem _ hc))
        (fun c hc => hb c (List.mem_cons_of_mem _ hc))
      by_cases hne : toupper c1 = toupper c2
      · simp [strcasecmp_walk, hne, ih1]
      · have hn : (toupper c1).toNat ≠ (toupper c2).toNat := fun h => hne (char_toNat_inj _ _ h)
        simp [strcasecmp_walk, hne]
        omega

theorem cmp_eq_zero_iff (a b : CStr) : gmx_strcasecmp_min a b = 0 ↔ canon a = canon b :=
  strcasecmp_walk_eq_zero_iff _ _ (cstrip_ne_nul a) (cstrip_ne_nul b)

theorem cmp_refl (a : CStr) : gmx_strcasecmp_min a a = 0 := (cmp_eq_zero_iff a a).2 rfl

theorem cmp_symm {a b : CStr} (h : gmx_strcasecmp_min a b = 0) : gmx_strcasecmp_min b a = 0 :=
  (cmp_eq_zero_iff b a).2 ((cmp_eq_zero_iff a b).1 h).symm

theorem cmp_trans {a b c : CStr} (h1 : gmx_strcasecmp_min a b = 0)
    (h2 : gmx_strcasecmp_min b c = 0) : gmx_strcasecmp_min a c = 0 :=
  (cmp_eq_zero_iff a c).2 (((cmp_eq_zero_iff a b).1 h1).trans ((cmp_eq_zero_iff b c).1 h2))

/-! ## The line tokenizer -/

theorem scan_eq_spec (buf : CStr) :
    (buf.length ≤ scan_eq buf ↔ '=' ∉ buf) ∧
    buf.take (scan_eq buf) = buf.takeWhile (fun c => c != '=') ∧
    buf.drop (scan_eq buf + 1) = (buf.dropWhile (fun c => c != '=')).drop 1 := by
  induction buf with
  | nil => simp [scan_eq]
  | cons c r ih =>
    by_cases hc : c = '='
    · subst hc
      simp [scan_eq]
    · obtain ⟨h1, h2, h3⟩ := ih
      have hc2 : ¬ ('=' = c) := fun h => hc h.symm
      simp [scan_eq, hc, hc2, List.takeWhile_cons, List.dropWhile_cons, h1, h2, h3]

theorem split_line_eq (line : CStr) :
    split_line line =
      if '=' ∈ spec_remainder line ∧ spec_left (spec_remainder line) ≠ [] ∧
          spec_right (spec_remainder line) ≠ [] then
        some (spec_left (spec_remainder line), spec_right (spec_remainder line))
      else none := by
  obtain ⟨h1, h2, h3⟩ := scan_eq_spec (trim (line.takeWhile (fun c => c != COMMENTSIGN)))
  unfold split_line spec_left spec_right spec_remainder
  simp only [COMMENTSIGN] at h1 h2 h3 ⊢
  rw [h2, h3]
  by_cases hmem : '=' ∈ trim (line.takeWhile (fun c => c != ';'))
  · have : ¬ ((trim (line.takeWhile (fun c => c != ';'))).length ≤
        scan_eq (trim (line.takeWhile (fun c => c != ';')))) := fun h => (h1.1 h) hmem
    simp only [this, hmem, if_false, true_and]
    split_ifs <;> simp_all
  · have : (trim (line.takeWhile (fun c => c != ';'))).length ≤
        scan_eq (trim (line.takeWhile (fun c => c != ';'))) := h1.2 hmem
    simp [this, hmem]

/-- C3: a raw line yields a pair exactly when the remainder `r` (the line cut at its
first `;` and trimmed) contains `=` and the trimmed texts on both sides of the first
`=` are non-empty; the pair is then exactly these two texts, and every other line
leaves the store, the warnings and the errors as they were. -/
theorem C3_line_tokenizer (line : CStr) :
    ((∃ p, split_line line = some p) ↔
      ('=' ∈ spec_remainder line ∧ spec_left (spec_remainder line) ≠ [] ∧
        spec_right (spec_remainder line) ≠ [])) ∧
    (∀ p, split_line line = some p →
      p = (spec_left (spec_remainder line), spec_right (spec_remainder line))) ∧
    (split_line line = none → ∀ st : read_state,
      (read_step st line).inp = st.inp ∧
      (read_step st line).wi.warnings = st.wi.warnings ∧
      (read_step st line).wi.errors = st.wi.errors) := by
  refine ⟨?_, ?_, ?_⟩
  · rw [split_line_eq]
    split_ifs with h
    · exact ⟨fun _ => h, fun _ => ⟨_, rfl⟩⟩
    · constructor
      · rintro ⟨p, hp⟩
        exact absurd hp (by simp)
      · intro h2
        exact absurd h2 h
  · intro p hp
    rw [split_line_eq] at hp
    split_ifs at hp with h
    exact (Option.some.inj hp).symm
  · intro hnone st
    simp [read_step, hnone, set_warning_line]

/-! ## Lookup -/

theorem search_loop_none_iff (n : CStr) (inp : List t_inpfile) :
    search_loop n inp = none ↔ ∀ e ∈ inp, gmx_strcasecmp_min n e.name ≠ 0 := by
  induction inp with
  | nil => simp [search_loop]
  | cons e r ih =>
    by_cases h : gmx_strcasecmp_min n e.name = 0
    · simp [search_loop, h]
    · simp [search_loop, h, ih]

theorem lookup_cons (e : t_inpfile) (r : List t_inpfile) (n : CStr) :
    lookup (e :: r) n = if gmx_strcasecmp_min n e.name = 0 then some e else lookup r n := by
  unfold lookup
  by_cases h : gmx_strcasecmp_min n e.name = 0
  · simp [search_loop, h]
  · simp only [search_loop, h, if_false]
    cases search_loop n r <;> simp

theorem lookup_eq_find (inp : List t_inpfile) (n : CStr) :
    lookup inp n = inp.find? (fun e => decide (gmx_strcasecmp_min n e.name = 0)) := by
  induction inp with
  | nil => simp [lookup, search_loop]
  | cons e r ih =>
    rw [lookup_cons, List.find?_cons]
    by_cases h : gmx_strcasecmp_min n e.name = 0
    · simp [h]
    · simp [h, ih]

theorem search_loop_some {n : CStr} {inp : List t_inpfile} {i : Nat}
    (h : search_loop n inp = some i) :
    ∃ e, inp[i]? = some e ∧ gmx_strcasecmp_min n e.name = 0 ∧
      ∀ j e2, j < i → inp[j]? = some e2 → gmx_strcasecmp_min n e2.name ≠ 0 := by
  induction inp generalizing i with
  | nil => simp [search_loop] at h
  | cons e r ih =>
    by_cases hm : gmx_strcasecmp_min n e.name = 0
    · simp only [search_loop, hm, if_true, Option.some.injEq] at h
      subst h
      exact ⟨e, by simp, hm, fun j e2 hj => absurd hj (Nat.not_lt_zero j)⟩
    · simp only [search_loop, hm, if_false, Option.map_eq_some'] at h
      obtain ⟨k, hk, rfl⟩ := h
      obtain ⟨e1, he1, hm1, hlt⟩ := ih hk
      refine ⟨e1, by simpa using he1, hm1, ?_⟩
      intro j e2 hj hj2
      cases j with
      | zero =>
        simp only [List.getElem?_cons_zero, Option.some.injEq] at hj2
        subst hj2
        exact hm
      | succ j =>
        simp only [List.getElem?_cons_succ] at hj2
        exact hlt j e2 (by omega) hj2

theorem search_loop_append_of_some {n : CStr} {inp : List t_inpfile} {i : Nat}
    (h : search_loop n inp = some i) (l : List t_inpfile) : search_loop n (inp ++ l) = some i := by
  induction inp generalizing i with
  | nil => simp [search_loop] at h
  | cons e r ih =>
    by_cases hm : gmx_strcasecmp_min n e.name = 0
    · simpa [search_loop, hm] using h
    · simp only [search_loop, hm, if_false, Option.map_eq_some'] at h
      obtain ⟨k, hk, rfl⟩ := h
      simp [search_loop, hm, ih hk]

theorem search_loop_append_of_none {n : CStr} {inp : List t_inpfile}
    (h : search_loop n inp = none) (l : List t_inpfile) :
    search_loop n (inp ++ l) = (search_loop n l).map (fun i => inp.length + i) := by
  induction inp with
  | nil => simp
  | cons e r ih =>
    by_cases hm : gmx_strcasecmp_min n e.name = 0
    · simp [search_loop, hm] at h
    · simp only [search_loop, hm, if_false, Option.map_eq_none'] at h
      have ih2 := ih h
      rw [List.cons_append]
      simp only [search_loop, hm, if_false, List.length_cons]
      rw [ih2]
      cases search_loop n l with
      | none => rfl
      | some k =>
        simp only [Option.map_some', Option.some.injEq]
        omega

/-! ## The reader -/

theorem seen_ok_nil : seen_ok [] [] := by
  intro n
  simp [search_loop]

theorem seen_ok_new {seen : List (CStr × CStr)} {inp : List t_inpfile} (h : seen_ok seen inp)
    (l r : CStr) : seen_ok (seen ++ [(l, r)]) (inp ++ [new_item l r]) := by
  intro n
  have h1 := h n
  rw [search_loop_none_iff] at h1 ⊢
  simp only [List.any_append, List.mem_append, List.mem_singleton, Bool.or_eq_false_iff]
  rw [← h1]
  constructor
  · intro hall
    refine ⟨fun e he => hall e (Or.inl he), ?_⟩
    have := hall (new_item l r) (Or.inr rfl)
    simpa [new_item] using this
  · rintro ⟨ha, hb⟩ e (he | he)
    · exact ha e he
    · subst he
      simpa [new_item] using hb

theorem seen_ok_dup {seen : List (CStr × CStr)} {inp : List t_inpfile} (h : seen_ok seen inp)
    (l r : CStr) (hl : search_loop l inp ≠ none) : seen_ok (seen ++ [(l, r)]) inp := by
  intro n
  have h1 := h n
  simp only [List.any_append, Bool.or_eq_false_iff]
  rw [← h1]
  constructor
  · intro hn
    refine ⟨hn, ?_⟩
    simp only [List.any_cons, List.any_nil, Bool.or_false, decide_eq_false_iff_not]
    intro hnl
    apply hl
    rw [search_loop_none_iff] at hn ⊢
    intro e he hle
    exact hn e he (cmp_trans hnl hle)
  · exact fun hh => hh.1

theorem read_fold (lines : List CStr) : ∀ (st : read_state) (seen : List (CStr × CStr)),
    seen_ok seen st.inp →
    (lines.foldl read_step st).inp =
      st.inp ++ (first_occ seen (valid_pairs lines)).map (fun p => new_item p.1 p.2) ∧
    (lines.foldl read_step st).wi.warnings = st.wi.warnings ∧
    (lines.foldl read_step st).wi.errors =
      st.wi.errors ++ (dup_occ seen (valid_pairs lines)).map (fun p => doubly_msg p.1) := by
  induction lines with
  | nil => intro st seen _; simp [valid_pairs, first_occ, dup_occ]
  | cons line rest ih =>
    intro st seen hok
    simp only [List.foldl_cons]
    cases hs : split_line line with
    | none =>
      have hv : valid_pairs (line :: rest) = valid_pairs rest := by
        simp [valid_pairs, List.filterMap_cons, hs]
      have hst : read_step st line =
          { inp := st.inp, lc := st.lc + 1, wi := set_warning_line st.wi (st.lc + 1) } := by
        simp [read_step, hs]
      rw [hv, hst]
      exact ih _ seen hok
    | some p =>
      obtain ⟨l, r⟩ := p
      have hv : valid_pairs (line :: rest) = (l, r) :: valid_pairs rest := by
        simp [valid_pairs, List.filterMap_cons, hs]
      rw [hv]
      cases hsrch : search_loop l st.inp with
      | none =>
        have hany := (hok l).1 hsrch
        have hst : read_step st line =
            { inp := st.inp ++ [new_item l r], lc := st.lc + 1,
              wi := set_warning_line st.wi (st.lc + 1) } := by
          simp [read_step, hs, hsrch]
        rw [hst]
        obtain ⟨h1, h2, h3⟩ := ih ⟨st.inp ++ [new_item l r], st.lc + 1,
          set_warning_line st.wi (st.lc + 1)⟩ (seen ++ [(l, r)]) (seen_ok_new hok l r)
        refine ⟨?_, ?_, ?_⟩
        · rw [h1]; simp [first_occ, hany]
        · rw [h2]; simp [set_warning_line]
        · rw [h3]; simp [dup_occ, hany, set_warning_line]
      | some k =>
        have hany : seen.any (fun q => decide (gmx_strcasecmp_min l q.1 = 0)) = true := by
          by_contra hc
          have := (hok l).2 (by simpa using hc)
          rw [hsrch] at this
          exact absurd this (by simp)
        have hst : read_step st line =
            { inp := st.inp, lc := st.lc + 1,
              wi := warning_error (set_warning_line st.wi (st.lc + 1)) (doubly_msg l) } := by
          simp [read_step, hs, hsrch]
        rw [hst]
        obtain ⟨h1, h2, h3⟩ := ih ⟨st.inp, st.lc + 1,
          warning_error (set_warning_line st.wi (st.lc + 1)) (doubly_msg l)⟩
          (seen ++ [(l, r)]) (seen_ok_dup hok l r (by rw [hsrch]; simp))
        refine ⟨?_, ?_, ?_⟩
        · rw [h1]; simp [first_occ, hany]
        · rw [h2]; simp [set_warning_line, warning_error]
        · rw [h3]; simp [dup_occ, hany, set_warning_line, warning_error]

theorem read_inpfile_spec (lines : List CStr) (wi : warninp) :
    (read_inpfile lines wi).1 =
      (first_occ [] (valid_pairs lines)).map (fun p => new_item p.1 p.2) ∧
    (read_inpfile lines wi).2.warnings = wi.warnings ∧
    (read_inpfile lines wi).2.errors =
      wi.errors ++ (dup_occ [] (valid_pairs lines)).map (fun p => doubly_msg p.1) := by
  obtain ⟨h1, h2, h3⟩ := read_fold lines { inp := [], lc := 0, wi := wi } [] seen_ok_nil
  simp only [read_inpfile, set_warning_line]
  exact ⟨by simpa using h1, h2, h3⟩

theorem occ_length (ps : List (CStr × CStr)) : ∀ seen,
    (dup_occ seen ps).length + (first_occ seen ps).length = ps.length := by
  induction ps with
  | nil => intro seen; simp [dup_occ, first_occ]
  | cons p r ih =>
    intro seen
    have := ih (seen ++ [p])
    by_cases h : seen.any (fun q => decide (gmx_strcasecmp_min p.1 q.1 = 0)) = true
    · simp only [dup_occ, first_occ, h, if_true, List.length_cons]; omega
    · simp only [dup_occ, first_occ, h, List.length_cons]; simp; omega

/-- C4: the store returned by `read_inpfile` consists, in file order, of exactly the
valid assignment lines whose name matches no earlier valid line, each as an entry
that is neither set nor obsolete and has access order 0; the number of entries is the
length of that list. -/
theorem C4_store_built_by_reader (lines : List CStr) (wi : warninp) :
    (read_inpfile lines wi).1 =
      (first_occ [] (valid_pairs lines)).map (fun p => new_item p.1 p.2) ∧
    (read_inpfile lines wi).1.map (fun e => (e.name, e.value)) =
      (first_occ [] (valid_pairs lines)).map (fun p => (p.1, some p.2)) ∧
    (∀ e ∈ (read_inpfile lines wi).1,
      e.bSet = false ∧ e.bObsolete = false ∧ e.count = 0) ∧
    (read_inpfile lines wi).1.length = (first_occ [] (valid_pairs lines)).length := by
  have h := (read_inpfile_spec lines wi).1
  refine ⟨h, ?_, ?_, ?_⟩
  · rw [h]; simp [new_item, Function.comp]
  · intro e he
    rw [h] at he
    obtain ⟨p, _, rfl⟩ := List.mem_map.1 he
    simp [new_item]
  · rw [h]; simp

theorem first_occ_find (n : CStr) (ps : List (CStr × CStr)) : ∀ seen : List (CStr × CStr),
    (∀ q ∈ seen, gmx_strcasecmp_min n q.1 ≠ 0) →
    (first_occ seen ps).find? (fun q => decide (gmx_strcasecmp_min n q.1 = 0)) =
      ps.find? (fun q => decide (gmx_strcasecmp_min n q.1 = 0)) := by
  induction ps with
  | nil => intro seen _; simp [first_occ]
  | cons p r ih =>
    intro seen hseen
    by_cases hp : gmx_strcasecmp_min n p.1 = 0
    · have hkeep : seen.any (fun q => decide (gmx_strcasecmp_min p.1 q.1 = 0)) = false := by
        rw [List.any_eq_false]
        intro q hq
        simp only [decide_eq_true_eq]
        exact fun hpq => hseen q hq (cmp_trans hp hpq)
      simp [first_occ, hkeep, hp]
    · have hseen2 : ∀ q ∈ seen ++ [p], gmx_strcasecmp_min n q.1 ≠ 0 := by
        intro q hq
        rcases List.mem_append.1 hq with h | h
        · exact hseen q h
        · rw [List.mem_singleton.1 h]; exact hp
      have := ih (seen ++ [p]) hseen2
      by_cases hany : seen.any (fun q => decide (gmx_strcasecmp_min p.1 q.1 = 0)) = true
      · simp only [first_occ, hany, if_true, this]
        simp [List.find?_cons, hp]
      · simp only [first_occ, hany]
        simp [List.find?_cons, hp, this]

theorem lookup_read (lines : List CStr) (wi : warninp) (n : CStr) :
    lookup (read_inpfile lines wi).1 n =
      ((valid_pairs lines).find? (fun q => decide (gmx_strcasecmp_min n q.1 = 0))).map
        (fun p => new_item p.1 p.2) := by
  rw [(read_inpfile_spec lines wi).1, lookup_eq_find, List.find?_map,
    ← first_occ_find n (valid_pairs lines) [] (by simp)]
  rfl

/-- C2: a valid line whose name matches a stored entry records exactly one
`doubly defined` hard error and leaves the store as it was; over a whole file the
errors recorded are those of the repeated lines, their number is the number of valid
lines minus the number of stored entries, the entry found under the name of any valid
line carries the value of the first valid line with a matching name, and a file whose
valid lines are two lines with matching names stores the first and records one
error. -/
theorem C2_duplicate_detection :
    (∀ (st : read_state) (line l r : CStr), split_line line = some (l, r) →
      (∃ e ∈ st.inp, gmx_strcasecmp_min l e.name = 0) →
      (read_step st line).inp = st.inp ∧
      (read_step st line).wi.errors = st.wi.errors ++ [doubly_msg l] ∧
      (read_step st line).wi.warnings = st.wi.warnings) ∧
    (∀ (lines : List CStr) (wi : warninp),
      (read_inpfile lines wi).2.errors =
        wi.errors ++ (dup_occ [] (valid_pairs lines)).map (fun p => doubly_msg p.1) ∧
      (dup_occ [] (valid_pairs lines)).length =
        (valid_pairs lines).length - (read_inpfile lines wi).1.length ∧
      (read_inpfile lines wi).1.length ≤ (valid_pairs lines).length) ∧
    (∀ (lines : List CStr) (wi : warninp) (l v : CStr), (l, v) ∈ valid_pairs lines →
      ∃ e, lookup (read_inpfile lines wi).1 l = some e ∧
        e.value = first_value l (valid_pairs lines)) ∧
    (∀ (lines : List CStr) (wi : warninp) (n1 v1 n2 v2 : CStr),
      valid_pairs lines = [(n1, v1), (n2, v2)] → gmx_strcasecmp_min n2 n1 = 0 →
      (read_inpfile lines wi).1 = [new_item n1 v1] ∧
      (read_inpfile lines wi).2.errors = wi.errors ++ [doubly_msg n2]) := by
  refine ⟨?_, ?_, ?_, ?_⟩
  · rintro st line l r hs ⟨e, he, hm⟩
    cases hsrch : search_loop l st.inp with
    | none => exact absurd hm ((search_loop_none_iff l st.inp).1 hsrch e he)
    | some k => simp [read_step, hs, hsrch, warning_error, set_warning_line]
  · intro lines wi
    obtain ⟨h1, _, h3⟩ := read_inpfile_spec lines wi
    have hl := occ_length (valid_pairs lines) []
    have hlen : (read_inpfile lines wi).1.length = (first_occ [] (valid_pairs lines)).length := by
      rw [h1]; simp
    exact ⟨h3, by omega, by omega⟩
  · intro lines wi l v hmem
    rw [lookup_read]
    cases hf : (valid_pairs lines).find? (fun q => decide (gmx_strcasecmp_min l q.1 = 0)) with
    | none =>
      have := List.find?_eq_none.1 hf (l, v) hmem
      simp [cmp_refl] at this
    | some q => exact ⟨new_item q.1 q.2, rfl, by simp [first_value, hf, new_item]⟩
  · intro lines wi n1 v1 n2 v2 hv hm
    obtain ⟨h1, _, h3⟩ := read_inpfile_spec lines wi
    rw [h1, h3, hv]
    simp [first_occ, dup_occ, hm]

/-! ## Assignments through an index -/

theorem length_upd (inp : List t_inpfile) (i : Nat) (f : t_inpfile → t_inpfile) :
    (upd inp i f).length = inp.length := by
  induction inp generalizing i with
  | nil => simp [upd]
  | cons e r ih => cases i <;> simp [upd, ih]

theorem getElem?_upd (inp : List t_inpfile) (i j : Nat) (f : t_inpfile → t_inpfile) :
    (upd inp i f)[j]? = if j = i then (inp[j]?).map f else inp[j]? := by
  induction inp generalizing i j with
  | nil => simp [upd]
  | cons e r ih =>
    cases i with
    | zero =>
      cases j with
      | zero => simp [upd]
      | succ j => simp [upd]
    | succ i =>
      cases j with
      | zero => simp [upd]
      | succ j => simp [upd, ih]

theorem map_upd {β : Type} (g : t_inpfile → β) (f : t_inpfile → t_inpfile)
    (hf : ∀ e, g (f e) = g e) (inp : List t_inpfile) (i : Nat) :
    (upd inp i f).map g = inp.map g := by
  induction inp generalizing i with
  | nil => simp [upd]
  | cons e r ih => cases i <;> simp [upd, ih, hf]

theorem search_loop_congr (n : CStr) : ∀ (l1 l2 : List t_inpfile),
    l1.map (fun e => e.name) = l2.map (fun e => e.name) → search_loop n l1 = search_loop n l2 := by
  intro l1
  induction l1 with
  | nil =>
    intro l2 h
    cases l2 with
    | nil => rfl
    | cons _ _ => simp at h
  | cons e r ih =>
    intro l2 h
    cases l2 with
    | nil => simp at h
    | cons e2 r2 =>
      simp only [List.map_cons, List.cons.injEq] at h
      simp only [search_loop, h.1, ih r2 h.2]

theorem getElem?_touch (inp : List t_inpfile) (i j : Nat) :
    (touch inp i)[j]? = (inp[j]?).map (touched (head_count inp) i j) := by
  cases inp with
  | nil => simp [touch]
  | cons e0 r =>
    simp only [touch, head_count, getElem?_upd]
    cases h : (e0 :: r)[j]? with
    | none => simp
    | some e =>
      by_cases hi : j = i <;> by_cases h0 : j = 0 <;> simp [hi, h0, touched]
      all_goals simp_all

theorem length_touch (inp : List t_inpfile) (i : Nat) : (touch inp i).length = inp.length := by
  cases inp with
  | nil => simp [touch]
  | cons e0 r => simp [touch, length_upd]

theorem map_touch {β : Type} (g : t_inpfile → β)
    (hg : ∀ (e : t_inpfile) (c : Int) (b : Bool) (k : Int),
      g { e with count := c, bSet := b, inp_count := k } = g e)
    (inp : List t_inpfile) (i : Nat) : (touch inp i).map g = inp.map g := by
  apply List.ext_getElem?
  intro j
  rw [List.getElem?_map, getElem?_touch, List.getElem?_map]
  cases inp[j]? with
  | none => rfl
  | some e => simp only [Option.map_some', touched]; rw [hg]

theorem head_count_touch (inp : List t_inpfile) (i : Nat) (h : inp ≠ []) :
    head_count (touch inp i) = head_count inp + 1 := by
  have h0 := getElem?_touch inp i 0
  cases inp with
  | nil => exact absurd rfl h
  | cons e0 r =>
    cases ht : touch (e0 :: r) i with
    | nil =>
      have := length_touch (e0 :: r) i
      rw [ht] at this
      simp at this
    | cons t0 tr =>
      rw [ht] at h0
      simp only [List.getElem?_cons_zero, Option.map_some', Option.some.injEq] at h0
      simp [head_count, h0, touched]

/-! ## The writer -/

theorem write_fold (halt : Bool) (l : List t_inpfile) : ∀ st : List CStr × warninp,
    l.foldl (write_step halt) st =
      (st.1 ++ (l.filter (fun e => e.bSet)).map entry_line,
        add_diags halt st.2 ((l.filter unknown_entry).map (fun e => unknown_msg e.name))) := by
  induction l with
  | nil => intro st; cases halt <;> simp [add_diags]
  | cons e r ih =>
    intro st
    rw [List.foldl_cons, ih]
    cases hs : e.bSet <;> cases ho : e.bObsolete <;> cases halt <;>
      simp [write_step, hs, ho, unknown_entry, add_diags, warning, warning_error]

theorem renumber_filter_map {β : Type} (p : t_inpfile → Bool) (g : t_inpfile → β)
    (hp : ∀ (e : t_inpfile) (c : Int), p { e with count := c } = p e)
    (hg : ∀ (e : t_inpfile) (c : Int), g { e with count := c } = g e)
    (l : List t_inpfile) : ∀ mm, ((renumber mm l).filter p).map g = (l.filter p).map g := by
  induction l with
  | nil => intro mm; simp [renumber]
  | cons e r ih =>
    intro mm
    by_cases h0 : e.count = 0
    · simp only [renumber, h0, if_true, List.filter_cons, hp]
      split_ifs <;> simp [ih, hg]
    · simp only [renumber, h0, if_false, List.filter_cons]
      split_ifs <;> simp [ih]

theorem sort_inp_perm (inp : List t_inpfile) :
    (sort_inp inp).Perm (renumber (max_count inp) inp) :=
  List.perm_insertionSort _ _

theorem write_out_eq (inp : List t_inpfile) (halt : Bool) (wi : warninp) :
    (write_inpfile inp halt wi).out = ((sort_inp inp).filter (fun e => e.bSet)).map entry_line := by
  simp [write_inpfile, write_fold]

theorem write_wi_eq (inp : List t_inpfile) (halt : Bool) (wi : warninp) :
    (write_inpfile inp halt wi).wi =
      add_diags halt wi (((sort_inp inp).filter unknown_entry).map (fun e => unknown_msg e.name)) := by
  simp [write_inpfile, write_fold]

theorem unknown_msgs_perm (inp : List t_inpfile) :
    (((sort_inp inp).filter unknown_entry).map (fun e => unknown_msg e.name)).Perm
      ((inp.filter unknown_entry).map (fun e => unknown_msg e.name)) := by
  have h1 := ((sort_inp_perm inp).filter unknown_entry).map (fun e => unknown_msg e.name)
  have h2 := renumber_filter_map unknown_entry (fun e => unknown_msg e.name)
    (fun _ _ => rfl) (fun _ _ => rfl) inp (max_count inp)
  rw [h2] at h1
  exact h1

/-- C10: `write_inpfile` records one `Unknown left-hand` diagnostic for each entry
that is neither set nor obsolete and none for any other entry.  In the strict mode
they are hard errors, the warnings stay as they were, and on a sink without earlier
errors the run ends fatally exactly when such an entry exists; in the lenient mode
they are soft warnings, the errors stay as they were, and on a sink without earlier
errors the run does not end fatally.  Both modes write the same text. -/
theorem C10_unknown_key_escalation (inp : List t_inpfile) (wi : warninp) :
    (∃ msgs : List CStr,
      msgs.Perm ((inp.filter (fun e => !e.bSet && !e.bObsolete)).map
        (fun e => unknown_msg e.name)) ∧
      (write_inpfile inp true wi).wi.errors = wi.errors ++ msgs ∧
      (write_inpfile inp true wi).wi.warnings = wi.warnings ∧
      (write_inpfile inp false wi).wi.warnings = wi.warnings ++ msgs ∧
      (write_inpfile inp false wi).wi.errors = wi.errors) ∧
    (wi.errors = [] →
      ((write_inpfile inp true wi).fatal = true ↔
        ∃ e ∈ inp, e.bSet = false ∧ e.bObsolete = false) ∧
      (write_inpfile inp false wi).fatal = false) ∧
    (write_inpfile inp true wi).out = (write_inpfile inp false wi).out := by
  have hperm := unknown_msgs_perm inp
  have hfatal : ∀ halt, (write_inpfile inp halt wi).fatal =
      check_warning_error (write_inpfile inp halt wi).wi := fun _ => rfl
  refine ⟨⟨_, hperm, ?_, ?_, ?_, ?_⟩, ?_, ?_⟩
  · rw [write_wi_eq]; simp [add_diags]
  · rw [write_wi_eq]; simp [add_diags]
  · rw [write_wi_eq]; simp [add_diags]
  · rw [write_wi_eq]; simp [add_diags]
  · intro hE
    constructor
    · rw [hfatal, write_wi_eq]
      simp only [check_warning_error, add_diags, if_true, hE, List.nil_append]
      constructor
      · intro h
        have hne : ((sort_inp inp).filter unknown_entry).map (fun e => unknown_msg e.name) ≠ [] := by
          intro h0
          rw [h0] at h
          simp at h
        have hne2 : (inp.filter unknown_entry).map (fun e => unknown_msg e.name) ≠ [] := by
          intro h0
          rw [h0] at hperm
          exact hne (List.Perm.eq_nil hperm)
        have hne3 : inp.filter unknown_entry ≠ [] := fun h0 => hne2 (by rw [h0]; rfl)
        obtain ⟨e, he⟩ := List.exists_mem_of_ne_nil _ hne3
        rw [List.mem_filter] at he
        refine ⟨e, he.1, ?_⟩
        simpa [unknown_entry] using he.2
      · rintro ⟨e, he, hs, ho⟩
        have hmem : unknown_msg e.name ∈ (inp.filter unknown_entry).map (fun e => unknown_msg e.name) :=
          List.mem_map.2 ⟨e, List.mem_filter.2 ⟨he, by simp [unknown_entry, hs, ho]⟩, rfl⟩
        have hmem2 := hperm.symm.subset hmem
        cases hl : ((sort_inp inp).filter unknown_entry).map (fun e => unknown_msg e.name) with
        | nil => rw [hl] at hmem2; simp at hmem2
        | cons _ _ => simp
    · rw [hfatal, write_wi_eq]
      simp [check_warning_error, add_diags, hE]
  · rw [write_out_eq, write_out_eq]

theorem write_out_perm (inp : List t_inpfile) (halt : Bool) (wi : warninp) :
    (write_inpfile inp halt wi).out.Perm ((inp.filter (fun e => e.bSet)).map entry_line) := by
  rw [write_out_eq]
  have h1 := ((sort_inp_perm inp).filter (fun e => e.bSet)).map entry_line
  have h2 := renumber_filter_map (fun e => e.bSet) entry_line
    (fun _ _ => rfl) (fun _ _ => rfl) inp (max_count inp)
  rw [h2] at h1
  exact h1

theorem mem_write_out {inp : List t_inpfile} {e : t_inpfile} (he : e ∈ inp)
    (hs : e.bSet = true) (halt : Bool) (wi : warninp) :
    entry_line e ∈ (write_inpfile inp halt wi).out :=
  (write_out_perm inp halt wi).symm.subset
    (List.mem_map.2 ⟨e, List.mem_filter.2 ⟨he, hs⟩, rfl⟩)

/-! ## `get_einp` -/

theorem upd_append_last (l : List t_inpfile) (x : t_inpfile) (f : t_inpfile → t_inpfile) :
    upd (l ++ [x]) l.length f = l ++ [f x] := by
  induction l with
  | nil => simp [upd]
  | cons e r ih => simp [upd, ih]

theorem touch_append_last (e0 : t_inpfile) (r : List t_inpfile) (x : t_inpfile) :
    touch ((e0 :: r) ++ [x]) (e0 :: r).length =
      ({ e0 with inp_count := e0.inp_count + 1 } :: r) ++
        [{ x with count := e0.inp_count, bSet := true }] := by
  simp [touch, upd, upd_append_last]

theorem get_einp_miss {inp : List t_inpfile} {name : CStr} (h : search_loop name inp = none)
    (junk : t_inpfile) :
    get_einp inp name junk =
      (none, touch (inp ++ [{ junk with name := name, bSet := true }]) inp.length) := by
  simp [get_einp, h]

theorem get_einp_hit {inp : List t_inpfile} {name : CStr} {i : Nat}
    (h : search_loop name inp = some i) (junk : t_inpfile) :
    get_einp inp name junk = (some i, touch inp i) := by
  simp [get_einp, h]

/-- C5 (amended): on a non-empty store without a match for the name, `get_eint`
returns the default, leaves the sink as it was, keeps name, value, flags and access
order of every old entry and appends one entry with the requested name, the decimal
rendering of the default as value and `bSet` true.  A following `write_inpfile` writes
the line of that entry: `name = value`, or the bare name when the name is a
comment name. -/
theorem C5_default_injection (inp : List t_inpfile) (name : CStr) (dflt : Int) (wi : warninp)
    (junk : t_inpfile) (hne : inp ≠ [])
    (hmiss : ∀ e ∈ inp, gmx_strcasecmp_min name e.name ≠ 0) :
    ∃ (old : List t_inpfile) (e : t_inpfile),
      get_eint inp name dflt wi junk = some (dflt, old ++ [e], wi) ∧
      old.map (fun x => (x.name, x.value, x.bSet, x.bObsolete, x.count)) =
        inp.map (fun x => (x.name, x.value, x.bSet, x.bObsolete, x.count)) ∧
      e.name = name ∧ e.value = some (fmt_d dflt) ∧ e.bSet = true ∧
      ∀ (halt : Bool) (wi2 : warninp),
        (if comment_name name then pad24 name ++ "\n".toList
          else pad24 name ++ " = ".toList ++ fmt_d dflt ++ "\n".toList) ∈
          (write_inpfile (old ++ [e]) halt wi2).out := by
  have hs := (search_loop_none_iff name inp).2 hmiss
  cases inp with
  | nil => exact absurd rfl hne
  | cons e0 r =>
    refine ⟨{ e0 with inp_count := e0.inp_count + 1 } :: r,
      { junk with name := name, bSet := true, count := e0.inp_count,
                  value := some (fmt_d dflt) }, ?_, ?_, rfl, rfl, rfl, ?_⟩
    · simp only [get_eint, get_einp_miss hs, touch_append_last]
      have hlen : (({ e0 with inp_count := e0.inp_count + 1 } :: r) ++
          [{ junk with name := name, bSet := true, count := e0.inp_count }]).length - 1 =
          ({ e0 with inp_count := e0.inp_count + 1 } :: r).length := by simp
      rw [hlen, upd_append_last]
    · simp
    · intro halt wi2
      have hm : entry_line { junk with name := name, bSet := true, count := e0.inp_count,
                                       value := some (fmt_d dflt) } ∈
          (write_inpfile (({ e0 with inp_count := e0.inp_count + 1 } :: r) ++
            [{ junk with name := name, bSet := true, count := e0.inp_count,
                         value := some (fmt_d dflt) }]) halt wi2).out :=
        mem_write_out (by simp) rfl halt wi2
      simpa [entry_line, comment_name] using hm

/-- C5, instance of the theorem: the store read from `a = 1`, asked for the absent
name `b` with default 7. -/
theorem C5_default_injection_witness :
    [new_item "a".toList "1".toList] ≠ [] ∧
    (∀ e ∈ [new_item "a".toList "1".toList], gmx_strcasecmp_min "b".toList e.name ≠ 0) ∧
    ∃ (old : List t_inpfile) (e : t_inpfile),
      get_eint [new_item "a".toList "1".toList] "b".toList 7 wi0 junk0 =
        some (7, old ++ [e], wi0) ∧
      e.name = "b".toList ∧ e.value = some "7".toList ∧ e.bSet = true ∧
      "b                        = 7\n".toList ∈ (write_inpfile (old ++ [e]) true wi0).out := by
  refine ⟨by decide, by decide, ?_⟩
  obtain ⟨old, e, h1, _, h3, h4, h5, h6⟩ :=
    C5_default_injection [new_item "a".toList "1".toList] "b".toList 7 wi0 junk0
      (by decide) (by decide)
  exact ⟨old, e, h1, h3, h4, h5, h6 true wi0⟩

/-- C5, the claim as stated fails: asked for the absent name `;x` with default 5,
`get_eint` returns 5 and the following `write_inpfile` writes the bare name; no line
carries the value 5. -/
theorem C5_counterexample :
    search_loop ";x".toList [new_item "a".toList "1".toList] = none ∧
    (get_eint [new_item "a".toList "1".toList] ";x".toList 5 wi0 junk0).map
        (fun r => (r.1, (write_inpfile r.2.1 false wi0).out)) =
      some (5, [";x                      \n".toList]) ∧
    fmt_d 5 = "5".toList ∧
    ¬ ("5".toList <:+: ";x                      \n".toList) := by
  decide

/-- C3, instance of the theorem: a line with a comment and a second `=`. -/
theorem C3_line_tokenizer_witness :
    split_line " a-b = 1 = 2 ; c = 3".toList = some ("a-b".toList, "1 = 2".toList) ∧
    ("a-b".toList, "1 = 2".toList) =
      (spec_left (spec_remainder " a-b = 1 = 2 ; c = 3".toList),
        spec_right (spec_remainder " a-b = 1 = 2 ; c = 3".toList)) ∧
    split_line "no assignment here".toList = none ∧
    (read_step { inp := [], lc := 0, wi := wi0 } "no assignment here".toList).inp = [] :=
  ⟨by decide,
    (C3_line_tokenizer " a-b = 1 = 2 ; c = 3".toList).2.1 _ (by decide),
    by decide,
    ((C3_line_tokenizer "no assignment here".toList).2.2 (by decide)
      { inp := [], lc := 0, wi := wi0 }).1⟩

/-- C2, instance of the theorem: a file with the lines `dt = 1` and `DT = 2`. -/
theorem C2_duplicate_detection_witness :
    valid_pairs ["dt = 1".toList, "DT = 2".toList] =
      [("dt".toList, "1".toList), ("DT".toList, "2".toList)] ∧
    gmx_strcasecmp_min "DT".toList "dt".toList = 0 ∧
    (read_inpfile ["dt = 1".toList, "DT = 2".toList] wi0).1 = [new_item "dt".toList "1".toList] ∧
    (read_inpfile ["dt = 1".toList, "DT = 2".toList] wi0).2.errors =
      wi0.errors ++ [doubly_msg "DT".toList] :=
  ⟨by decide, by decide,
    C2_duplicate_detection.2.2.2 ["dt = 1".toList, "DT = 2".toList] wi0
      "dt".toList "1".toList "DT".toList "2".toList (by decide) (by decide)⟩

/-- C4, instance of the theorem: a file with a repeated name and a line without a
value. -/
theorem C4_store_built_by_reader_witness :
    (read_inpfile ["a = 1".toList, "A = 2".toList, "b =".toList, "c = 3".toList] wi0).1.length = 2 :=
  (C4_store_built_by_reader _ wi0).2.2.2.trans (by decide)

/-! ## `strtol` and `get_eint` -/

theorem isdigit_facts {c : Char} (h : isdigit c = true) :
    isspace c = false ∧ c ≠ '-' ∧ c ≠ '+' := by
  simp only [isdigit, Bool.and_eq_true, decide_eq_true_eq] at h
  refine ⟨?_, ?_, ?_⟩
  · by_contra hs
    simp only [Bool.not_eq_false, isspace, Bool.or_eq_true, beq_iff_eq] at hs
    rcases hs with ((((rfl | rfl) | rfl) | rfl) | rfl) | rfl <;> revert h <;> decide
  · rintro rfl; revert h; decide
  · rintro rfl; revert h; decide

theorem dropWhile_ws (ws t : CStr) (hws : ∀ c ∈ ws, isspace c = true)
    (ht : ∀ c, t.head? = some c → isspace c = false) : (ws ++ t).dropWhile isspace = t := by
  induction ws with
  | nil =>
    cases t with
    | nil => rfl
    | cons c r => simp [List.dropWhile_cons, ht c rfl]
  | cons w ws ih =>
    have hw := hws w (List.mem_cons_self _ _)
    simp only [List.cons_append, List.dropWhile_cons, hw, if_true]
    exact ih (fun c hc => hws c (List.mem_cons_of_mem _ hc))

theorem span_digits (ds rest : CStr) (hds : ∀ c ∈ ds, isdigit c = true)
    (hr : ∀ c, rest.head? = some c → isdigit c = false) :
    (ds ++ rest).takeWhile isdigit = ds ∧ (ds ++ rest).dropWhile isdigit = rest := by
  induction ds with
  | nil =>
    cases rest with
    | nil => simp
    | cons c r => simp [List.takeWhile_cons, List.dropWhile_cons, hr c rfl]
  | cons d ds ih =>
    have hd := hds d (List.mem_cons_self _ _)
    obtain ⟨h1, h2⟩ := ih (fun c hc => hds c (List.mem_cons_of_mem _ hc))
    simp [List.takeWhile_cons, List.dropWhile_cons, hd, h1, h2]

theorem strtol_digits (ws sg ds rest : CStr) (hws : ∀ c ∈ ws, isspace c = true)
    (hsg : sg = [] ∨ sg = ['+'] ∨ sg = ['-']) (hne : ds ≠ [])
    (hds : ∀ c ∈ ds, isdigit c = true) (hr : ∀ c, rest.head? = some c → isdigit c = false) :
    strtol (ws ++ (sg ++ (ds ++ rest))) =
      (max LONG_MIN (min LONG_MAX
        (if sg = ['-'] then -(digits_val ds : Int) else (digits_val ds : Int))), rest) := by
  obtain ⟨h1, h2⟩ := span_digits ds rest hds hr
  cases ds with
  | nil => exact absurd rfl hne
  | cons d ds' =>
    obtain ⟨hd1, hd2, hd3⟩ := isdigit_facts (hds d (List.mem_cons_self _ _))
    have hdrop : (ws ++ (sg ++ (d :: ds' ++ rest))).dropWhile isspace = sg ++ (d :: ds' ++ rest) := by
      apply dropWhile_ws _ _ hws
      rcases hsg with rfl | rfl | rfl
      · intro c hc
        simp only [List.nil_append, List.cons_append, List.head?_cons, Option.some.injEq] at hc
        rw [← hc]; exact hd1
      · intro c hc
        simp only [List.cons_append, List.head?_cons, Option.some.injEq] at hc
        rw [← hc]; decide
      · intro c hc
        simp only [List.cons_append, List.head?_cons, Option.some.injEq] at hc
        rw [← hc]; decide
    unfold strtol
    simp only [hdrop]
    rcases hsg with rfl | rfl | rfl
    · simp only [List.nil_append, List.cons_append, hd2, hd3, if_false]
      rw [← List.cons_append, h1, h2]
      simp
    · simp only [List.cons_append, List.nil_append]
      rw [← List.cons_append]
      simp only [show ('+' : Char) ≠ '-' by decide, if_false, if_true, h1, h2]
      simp
    · simp only [List.cons_append, List.nil_append]
      rw [← List.cons_append]
      simp only [if_true, h1, h2]
      simp

theorem strtol_no_digit (ws sg rest : CStr) (hws : ∀ c ∈ ws, isspace c = true)
    (hsg : sg = [] ∨ sg = ['+'] ∨ sg = ['-'])
    (hr : ∀ c, rest.head? = some c → isdigit c = false)
    (hr2 : sg = [] → ∀ c, rest.head? = some c → isspace c = false ∧ c ≠ '-' ∧ c ≠ '+') :
    strtol (ws ++ (sg ++ rest)) = (0, ws ++ (sg ++ rest)) := by
  have hdrop : (ws ++ (sg ++ rest)).dropWhile isspace = sg ++ rest := by
    apply dropWhile_ws _ _ hws
    rcases hsg with rfl | rfl | rfl
    · intro c hc
      exact (hr2 rfl c (by simpa using hc)).1
    · intro c hc
      simp only [List.cons_append, List.head?_cons, Option.some.injEq] at hc
      rw [← hc]; decide
    · intro c hc
      simp only [List.cons_append, List.head?_cons, Option.some.injEq] at hc
      rw [← hc]; decide
  have htake : rest.takeWhile isdigit = [] := by
    cases rest with
    | nil => rfl
    | cons c r => simp [List.takeWhile_cons, hr c rfl]
  unfold strtol
  simp only [hdrop]
  rcases hsg with rfl | rfl | rfl
  · cases rest with
    | nil => simp
    | cons c r =>
      obtain ⟨_, h2, h3⟩ := hr2 rfl c rfl
      simp only [List.nil_append, h2, h3, if_false, htake]
      simp
  · simp only [List.cons_append, List.nil_append,
      show ('+' : Char) ≠ '-' by decide, if_false, if_true, htake]
  · simp only [List.cons_append, List.nil_append, if_true, htake]

theorem long_to_int_fits (x : Int) (h1 : -(2 ^ 31) ≤ x) (h2 : x ≤ 2 ^ 31 - 1) :
    long_to_int (max LONG_MIN (min LONG_MAX x)) = x := by
  have e1 : min LONG_MAX x = x := by
    apply min_eq_right
    simp only [LONG_MAX]
    omega
  have e2 : max LONG_MIN x = x := by
    apply max_eq_right
    simp only [LONG_MIN]
    omega
  rw [e1, e2]
  unfold long_to_int
  omega

theorem get_eint_hit {inp : List t_inpfile} {name : CStr} {i : Nat} {e : t_inpfile} {v : CStr}
    (h : search_loop name inp = some i) (he : inp[i]? = some e) (hv : e.value = some v)
    (dflt : Int) (wi : warninp) (junk : t_inpfile) :
    get_eint inp name dflt wi junk =
      some (long_to_int (strtol v).1, touch inp i,
        if (strtol v).2 ≠ [] then warning_error wi (not_int_msg v e.name) else wi) := by
  simp only [get_eint, get_einp_hit h, getElem?_touch, he, Option.map_some', touched, hv]

/-- C6 (amended): for an entry found under the name with a present value `v`,
`get_eint` converts `v` with `strtol`, touches the entry and changes no name and no
value.  If `v` is whitespace, an optional sign, a non-empty run of digits and a rest
that does not start with a digit, the result is the signed number of the digits when
it fits in 32 bits, and one `not an integer value` error is recorded exactly when the
rest is non-empty.  If no digit follows the whitespace and the sign, the result is 0
and one error is recorded exactly when `v` is non-empty.  For `10abc` the result is
10 with one error. -/
theorem C6_partial_numeric_parse :
    (∀ (inp : List t_inpfile) (name : CStr) (dflt : Int) (wi : warninp) (junk : t_inpfile)
        (i : Nat) (e : t_inpfile) (v : CStr),
      search_loop name inp = some i → inp[i]? = some e → e.value = some v →
      get_eint inp name dflt wi junk =
        some (long_to_int (strtol v).1, touch inp i,
          if (strtol v).2 ≠ [] then warning_error wi (not_int_msg v e.name) else wi) ∧
      (touch inp i).map (fun x => (x.name, x.value)) = inp.map (fun x => (x.name, x.value))) ∧
    (∀ (ws sg ds rest : CStr), (∀ c ∈ ws, isspace c = true) →
      (sg = [] ∨ sg = ['+'] ∨ sg = ['-']) → ds ≠ [] → (∀ c ∈ ds, isdigit c = true) →
      (∀ c, rest.head? = some c → isdigit c = false) →
      -(2 ^ 31) ≤ (if sg = ['-'] then -(digits_val ds : Int) else (digits_val ds : Int)) →
      (if sg = ['-'] then -(digits_val ds : Int) else (digits_val ds : Int)) ≤ 2 ^ 31 - 1 →
      long_to_int (strtol (ws ++ (sg ++ (ds ++ rest)))).1 =
        (if sg = ['-'] then -(digits_val ds : Int) else (digits_val ds : Int)) ∧
      (strtol (ws ++ (sg ++ (ds ++ rest)))).2 = rest) ∧
    (∀ (ws sg rest : CStr), (∀ c ∈ ws, isspace c = true) →
      (sg = [] ∨ sg = ['+'] ∨ sg = ['-']) →
      (∀ c, rest.head? = some c → isdigit c = false) →
      (sg = [] → ∀ c, rest.head? = some c → isspace c = false ∧ c ≠ '-' ∧ c ≠ '+') →
      long_to_int (strtol (ws ++ (sg ++ rest))).1 = 0 ∧
      (strtol (ws ++ (sg ++ rest))).2 = ws ++ (sg ++ rest)) ∧
    (get_eint [new_item "nsteps".toList "10abc".toList] "nsteps".toList 0 wi0 junk0).map
        (fun r => (r.1, r.2.1.map (fun x => x.value), r.2.2.errors)) =
      some (10, [some "10abc".toList], [not_int_msg "10abc".toList "nsteps".toList]) := by
  refine ⟨?_, ?_, ?_, by decide⟩
  · intro inp name dflt wi junk i e v h he hv
    refine ⟨get_eint_hit h he hv dflt wi junk, ?_⟩
    exact map_touch (fun x => (x.name, x.value)) (fun _ _ _ _ => rfl) inp i
  · intro ws sg ds rest hws hsg hne hds hr hlo hhi
    rw [strtol_digits ws sg ds rest hws hsg hne hds hr]
    exact ⟨long_to_int_fits _ hlo hhi, rfl⟩
  · intro ws sg rest hws hsg hr hr2
    rw [strtol_no_digit ws sg rest hws hsg hr hr2]
    exact ⟨rfl, rfl⟩

/-- C6, instance of the theorem: the value ` -12 ns` of the entry `tinit`. -/
theorem C6_partial_numeric_parse_witness :
    search_loop "tinit".toList [new_item "tinit".toList " -12 ns".toList] = some 0 ∧
    (get_eint [new_item "tinit".toList " -12 ns".toList] "tinit".toList 0 wi0 junk0).map
        (fun r => r.1) = some (-12) ∧
    (strtol (" ".toList ++ ("-".toList ++ ("12".toList ++ " ns".toList)))).2 = " ns".toList := by
  refine ⟨by decide, ?_, ?_⟩
  · rw [(C6_partial_numeric_parse.1 [new_item "tinit".toList " -12 ns".toList] "tinit".toList
      0 wi0 junk0 0 (new_item "tinit".toList " -12 ns".toList) " -12 ns".toList
      (by decide) (by decide) (by decide)).1]
    decide
  · exact (C6_partial_numeric_parse.2.1 " ".toList "-".toList "12".toList " ns".toList
      (by decide) (by decide) (by decide) (by decide) (by decide) (by decide) (by decide)).2

/-- C6, the claim as stated fails: the value ` 10`, stored by `get_estr` as the
default of an absent name, has no leading prefix of the form sign and digits, so the
stated rule gives 0 and one error; `get_eint` returns 10 and records no error. -/
theorem C6_counterexample :
    spec_int_lead " 10".toList = (0, " 10".toList) ∧
    lookup (get_estr (read_inpfile ["a = 1".toList] wi0).1 "n".toList (some " 10".toList) junk0).2
        "n".toList =
      some { count := 1, bObsolete := false, bSet := true, name := "n".toList,
             value := some " 10".toList, inp_count := 0 } ∧
    (get_eint
        (get_estr (read_inpfile ["a = 1".toList] wi0).1 "n".toList (some " 10".toList) junk0).2
        "n".toList 0 wi0 junk0).map (fun r => (r.1, r.2.2.errors)) = some (10, []) := by
  decide

/-! ## `get_eeenum` -/

theorem enum_loop_none_iff (v : CStr) (defs : List CStr) :
    enum_loop v defs = none ↔ ∀ d ∈ defs, gmx_strcasecmp_min d v ≠ 0 := by
  induction defs with
  | nil => simp [enum_loop]
  | cons d r ih =>
    by_cases h : gmx_strcasecmp_min d v = 0
    · simp [enum_loop, h]
    · simp [enum_loop, h, ih]

theorem enum_loop_some {v : CStr} {defs : List CStr} {k : Nat} (h : enum_loop v defs = some k) :
    ∃ d, defs[k]? = some d ∧ gmx_strcasecmp_min d v = 0 ∧
      ∀ j d2, j < k → defs[j]? = some d2 → gmx_strcasecmp_min d2 v ≠ 0 := by
  induction defs generalizing k with
  | nil => simp [enum_loop] at h
  | cons d r ih =>
    by_cases hm : gmx_strcasecmp_min d v = 0
    · simp only [enum_loop, hm, if_true, Option.some.injEq] at h
      subst h
      exact ⟨d, by simp, hm, fun j d2 hj => absurd hj (Nat.not_lt_zero j)⟩
    · simp only [enum_loop, hm, if_false, Option.map_eq_some'] at h
      obtain ⟨k2, hk, rfl⟩ := h
      obtain ⟨d1, hd1, hm1, hlt⟩ := ih hk
      refine ⟨d1, by simpa using hd1, hm1, ?_⟩
      intro j d2 hj hj2
      cases j with
      | zero =>
        simp only [List.getElem?_cons_zero, Option.some.injEq] at hj2
        subst hj2
        exact hm
      | succ j =>
        simp only [List.getElem?_cons_succ] at hj2
        exact hlt j d2 (by omega) hj2

theorem enum_msg_contains (v name d0 : CStr) (defs : List CStr) :
    v <:+: enum_msg v name d0 defs ∧ name <:+: enum_msg v name d0 defs ∧
    d0 <:+: enum_msg v name d0 defs ∧ ∀ d ∈ defs, d <:+: enum_msg v name d0 defs := by
  refine ⟨?_, ?_, ?_, ?_⟩
  · exact ⟨"Invalid enum '".toList, "' for variable ".toList ++ name ++
      ", using '".toList ++ d0 ++ "'\n".toList ++ "Next time use one of:".toList ++
      (defs.map (fun d => " '".toList ++ d ++ "'".toList)).flatten,
      by simp only [enum_msg, List.append_assoc]⟩
  · exact ⟨"Invalid enum '".toList ++ v ++ "' for variable ".toList,
      ", using '".toList ++ d0 ++ "'\n".toList ++ "Next time use one of:".toList ++
      (defs.map (fun d => " '".toList ++ d ++ "'".toList)).flatten,
      by simp only [enum_msg, List.append_assoc]⟩
  · exact ⟨"Invalid enum '".toList ++ v ++ "' for variable ".toList ++ name ++
      ", using '".toList, "'\n".toList ++ "Next time use one of:".toList ++
      (defs.map (fun d => " '".toList ++ d ++ "'".toList)).flatten,
      by simp only [enum_msg, List.append_assoc]⟩
  · intro d hd
    have h1 : d <:+: " '".toList ++ d ++ "'".toList := List.infix_append _ _ _
    have h2 : (" '".toList ++ d ++ "'".toList) <:+:
        (defs.map (fun d => " '".toList ++ d ++ "'".toList)).flatten :=
      List.infix_of_mem_flatten (List.mem_map.2 ⟨d, hd, rfl⟩)
    have h3 : (defs.map (fun d => " '".toList ++ d ++ "'".toList)).flatten <:+:
        enum_msg v name d0 defs :=
      ⟨"Invalid enum '".toList ++ v ++ "' for variable ".toList ++ name ++
        ", using '".toList ++ d0 ++ "'\n".toList ++ "Next time use one of:".toList, [],
        by simp only [enum_msg, List.append_assoc, List.append_nil]⟩
    exact (h1.trans h2).trans h3

/-- C7: for a non-empty list `d0 :: ds` and an entry found under the name with a
present value `v`: when some element of the list matches `v`, `get_eeenum` returns the
smallest matching index, records nothing and changes no name and no value; when none
matches it returns 0, stores `d0` as the value of the entry and emits one diagnostic,
through the sink as a hard error or else on the diagnostic stream, whose text contains
`v`, the name, `d0` and every element of the list.  With value `Foo` and the list
`bar`, `baz` the result is 0 and the stored value becomes `bar`. -/
theorem C7_enum_accessor :
    (∀ (inp : List t_inpfile) (name d0 : CStr) (ds : List CStr) (wi : Option warninp)
        (junk : t_inpfile) (i : Nat) (e : t_inpfile) (v : CStr),
      search_loop name inp = some i → inp[i]? = some e → e.value = some v →
      (∃ d ∈ d0 :: ds, gmx_strcasecmp_min d v = 0) →
      ∃ (k : Nat) (d : CStr),
        get_eeenum inp name (d0 :: ds) wi junk =
          some { ret := (k : Int), inp := touch inp i, wi := wi, err := [] } ∧
        (d0 :: ds)[k]? = some d ∧ gmx_strcasecmp_min d v = 0 ∧
        (∀ j d2, j < k → (d0 :: ds)[j]? = some d2 → gmx_strcasecmp_min d2 v ≠ 0) ∧
        (touch inp i).map (fun x => (x.name, x.value)) =
          inp.map (fun x => (x.name, x.value))) ∧
    (∀ (inp : List t_inpfile) (name d0 : CStr) (ds : List CStr) (wi : Option warninp)
        (junk : t_inpfile) (i : Nat) (e : t_inpfile) (v : CStr),
      search_loop name inp = some i → inp[i]? = some e → e.value = some v →
      (∀ d ∈ d0 :: ds, gmx_strcasecmp_min d v ≠ 0) →
      get_eeenum inp name (d0 :: ds) wi junk =
        some { ret := 0,
               inp := upd (touch inp i) i (fun x => { x with value := some d0 }),
               wi := wi.map (fun w => warning_error w (enum_msg v name d0 (d0 :: ds))),
               err := match wi with
                 | some _ => []
                 | none => [enum_msg v name d0 (d0 :: ds) ++ "\n".toList] } ∧
      (upd (touch inp i) i (fun x => { x with value := some d0 }))[i]?.map (fun x => x.value) =
        some (some d0) ∧
      (upd (touch inp i) i (fun x => { x with value := some d0 })).map (fun x => x.name) =
        inp.map (fun x => x.name) ∧
      v <:+: enum_msg v name d0 (d0 :: ds) ∧ name <:+: enum_msg v name d0 (d0 :: ds) ∧
      d0 <:+: enum_msg v name d0 (d0 :: ds) ∧
      ∀ d ∈ d0 :: ds, d <:+: enum_msg v name d0 (d0 :: ds)) ∧
    (get_eeenum [new_item "integrator".toList "Foo".toList] "integrator".toList
        ["bar".toList, "baz".toList] (some wi0) junk0).map
        (fun r => (r.ret, r.inp.map (fun x => x.value), r.wi.map (fun w => w.errors.length),
          r.err)) =
      some (0, [some "bar".toList], some 1, []) := by
  refine ⟨?_, ?_, by decide⟩
  · intro inp name d0 ds wi junk i e v h he hv hex
    cases hloop : enum_loop v (d0 :: ds) with
    | none =>
      obtain ⟨d, hd, hm⟩ := hex
      exact absurd hm ((enum_loop_none_iff v (d0 :: ds)).1 hloop d hd)
    | some k =>
      obtain ⟨d, hd, hm, hlt⟩ := enum_loop_some hloop
      refine ⟨k, d, ?_, hd, hm, hlt, ?_⟩
      · simp only [get_eeenum, get_einp_hit h, getElem?_touch, he, Option.map_some', touched,
          hv, hloop]
      · exact map_touch (fun x => (x.name, x.value)) (fun _ _ _ _ => rfl) inp i
  · intro inp name d0 ds wi junk i e v h he hv hall
    have hloop := (enum_loop_none_iff v (d0 :: ds)).2 hall
    obtain ⟨c1, c2, c3, c4⟩ := enum_msg_contains v name d0 (d0 :: ds)
    refine ⟨?_, ?_, ?_, c1, c2, c3, c4⟩
    · simp only [get_eeenum, get_einp_hit h, getElem?_touch, he, Option.map_some', touched,
        hv, hloop]
    · rw [getElem?_upd, getElem?_touch, he]
      simp
    · exact (map_upd (fun x => x.name) (fun x => { x with value := some d0 })
        (fun _ => rfl) (touch inp i) i).trans
        (map_touch (fun x => x.name) (fun _ _ _ _ => rfl) inp i)

/-- C7, instance of the theorem: the value `Foo` of the entry `integrator` against
the list `bar`, `baz` with a null sink. -/
theorem C7_enum_accessor_witness :
    search_loop "integrator".toList [new_item "integrator".toList "Foo".toList] = some 0 ∧
    (∀ d ∈ ["bar".toList, "baz".toList], gmx_strcasecmp_min d "Foo".toList ≠ 0) ∧
    (get_eeenum [new_item "integrator".toList "Foo".toList] "integrator".toList
        ["bar".toList, "baz".toList] none junk0).map (fun r => (r.ret, r.err.length)) =
      some (0, 1) := by
  refine ⟨by decide, by decide, ?_⟩
  rw [(C7_enum_accessor.2.1 [new_item "integrator".toList "Foo".toList] "integrator".toList
    "bar".toList ["baz".toList] none junk0 0 (new_item "integrator".toList "Foo".toList)
    "Foo".toList (by decide) (by decide) (by decide) (by decide)).1]
  rfl

/-! ## Stores in which a list of names has been touched in order -/

theorem search_touch (n : CStr) (inp : List t_inpfile) (i : Nat) :
    search_loop n (touch inp i) = search_loop n inp :=
  search_loop_congr n _ _ (map_touch (fun e => e.name) (fun _ _ _ _ => rfl) inp i)

theorem touch_ne_nil {inp : List t_inpfile} (h : inp ≠ []) (i : Nat) : touch inp i ≠ [] := by
  intro h0
  have := length_touch inp i
  rw [h0] at this
  exact h (List.length_eq_zero.1 this.symm)

theorem inv_touch {inp : List t_inpfile} {ns : List CStr} {n : CStr} {i : Nat}
    (h : touched_in_order inp ns) (hs : search_loop n inp = some i)
    (hn : ∀ m ∈ ns, gmx_strcasecmp_min n m ≠ 0) :
    touched_in_order (touch inp i) (ns ++ [n]) := by
  obtain ⟨e, he, hme, _⟩ := search_loop_some hs
  refine ⟨⟨touch_ne_nil h.head.1 i, ?_⟩, ?_, ?_, ?_⟩
  · rw [head_count_touch inp i h.head.1, h.head.2]
    simp
  · rw [map_touch (fun e => e.name) (fun _ _ _ _ => rfl)]
    exact h.names
  · intro k m hk
    by_cases hlt : k < ns.length
    · rw [List.getElem?_append_left hlt] at hk
      obtain ⟨i2, e2, hs2, he2, hb2, hc2⟩ := h.hit k m hk
      have hne : i2 ≠ i := by
        rintro rfl
        rw [he] at he2
        cases he2
        obtain ⟨_, he3, hm3, _⟩ := search_loop_some hs2
        rw [he] at he3
        cases he3
        exact hn m (List.getElem?_mem hk) (cmp_trans hme (cmp_symm hm3))
      refine ⟨i2, touched (head_count inp) i i2 e2, ?_, ?_, ?_, ?_⟩
      · rw [search_touch]; exact hs2
      · rw [getElem?_touch, he2]; rfl
      · simp [touched, hne, hb2]
      · simp [touched, hne, hc2]
    · have hk2 : k = ns.length := by
        by_contra hne
        have : (ns ++ [n])[k]? = none := by
          apply List.getElem?_eq_none
          simp only [List.length_append, List.length_singleton]
          omega
        rw [this] at hk
        cases hk
      subst hk2
      simp only [List.getElem?_concat_length, Option.some.injEq] at hk
      subst hk
      refine ⟨i, touched (head_count inp) i i e, ?_, ?_, ?_, ?_⟩
      · rw [search_touch]; exact hs
      · rw [getElem?_touch, he]; rfl
      · simp [touched]
      · simp [touched, h.head.2]
  · intro i2 e2 he2 hb2
    rw [getElem?_touch] at he2
    cases hold : inp[i2]? with
    | none => rw [hold] at he2; cases he2
    | some e0 =>
      rw [hold] at he2
      simp only [Option.map_some', Option.some.injEq] at he2
      by_cases hi : i2 = i
      · subst hi
        exact ⟨ns.length, n, by simp, by rw [search_touch]; exact hs⟩
      · have hb0 : e0.bSet = true := by
          rw [← he2] at hb2
          simpa [touched, hi] using hb2
        obtain ⟨k, m, hk, hsm⟩ := h.set i2 e0 hold hb0
        refine ⟨k, m, ?_, by rw [search_touch]; exact hsm⟩
        have hlt : k < ns.length := (List.getElem?_eq_some.1 hk).1
        rw [List.getElem?_append_left hlt]
        exact hk

theorem head_count_append {inp : List t_inpfile} (h : inp ≠ []) (l : List t_inpfile) :
    head_count (inp ++ l) = head_count inp := by
  cases inp with
  | nil => exact absurd rfl h
  | cons e r => rfl

theorem inv_append_unset {inp : List t_inpfile} {ns : List CStr} {n : CStr}
    (h : touched_in_order inp ns) (hs : search_loop n inp = none) (x : t_inpfile)
    (hx : x.name = n) (hb : x.bSet = false) : touched_in_order (inp ++ [x]) ns := by
  refine ⟨⟨by simp, ?_⟩, ?_, ?_, ?_⟩
  · rw [head_count_append h.head.1]; exact h.head.2
  · rw [List.map_append, List.pairwise_append]
    refine ⟨h.names, by simp, ?_⟩
    intro a ha b hb2
    simp only [List.map_cons, List.map_nil, List.mem_singleton] at hb2
    obtain ⟨e, he, rfl⟩ := List.mem_map.1 ha
    rw [hb2, hx]
    exact (search_loop_none_iff n inp).1 hs e he
  · intro k m hk
    obtain ⟨i, e, hs2, he, hb2, hc⟩ := h.hit k m hk
    refine ⟨i, e, search_loop_append_of_some hs2 _, ?_, hb2, hc⟩
    rw [List.getElem?_append_left (List.getElem?_eq_some.1 he).1]
    exact he
  · intro i e he hb2
    by_cases hlt : i < inp.length
    · rw [List.getElem?_append_left hlt] at he
      obtain ⟨k, m, hk, hsm⟩ := h.set i e he hb2
      exact ⟨k, m, hk, search_loop_append_of_some hsm _⟩
    · rw [List.getElem?_append_right (by omega)] at he
      cases hi : i - inp.length with
      | zero =>
        rw [hi] at he
        simp only [List.getElem?_cons_zero, Option.some.injEq] at he
        rw [← he, hb] at hb2
        cases hb2
      | succ j =>
        rw [hi] at he
        simp at he

theorem touch_append_flag {inp : List t_inpfile} (h : inp ≠ []) (junk : t_inpfile) (n : CStr) :
    touch (inp ++ [{ junk with name := n, bSet := true }]) inp.length =
      touch (inp ++ [{ junk with name := n, bSet := false }]) inp.length := by
  apply List.ext_getElem?
  intro j
  rw [getElem?_touch, getElem?_touch, head_count_append h, head_count_append h]
  by_cases hlt : j < inp.length
  · rw [List.getElem?_append_left hlt, List.getElem?_append_left hlt]
  · rw [List.getElem?_append_right (by omega), List.getElem?_append_right (by omega)]
    cases hj : j - inp.length with
    | zero =>
      have : j = inp.length := by omega
      subst this
      simp [touched]
    | succ k => simp

theorem search_append_self {inp : List t_inpfile} {n : CStr} (hs : search_loop n inp = none)
    (x : t_inpfile) (hx : x.name = n) : search_loop n (inp ++ [x]) = some inp.length := by
  rw [search_loop_append_of_none hs]
  simp [search_loop, hx, cmp_refl]

theorem inv_get_einp {inp : List t_inpfile} {ns : List CStr} (n : CStr)
    (h : touched_in_order inp ns) (hn : ∀ m ∈ ns, gmx_strcasecmp_min n m ≠ 0)
    (junk : t_inpfile) : touched_in_order (get_einp inp n junk).2 (ns ++ [n]) := by
  cases hs : search_loop n inp with
  | some i =>
    rw [get_einp_hit hs]
    exact inv_touch h hs hn
  | none =>
    rw [get_einp_miss hs, touch_append_flag h.head.1]
    exact inv_touch (inv_append_unset h hs _ rfl rfl) (search_append_self hs _ rfl) hn

theorem skel_getElem? {inp inp2 : List t_inpfile} (h : inp2.map skel = inp.map skel) (i : Nat) :
    (inp2[i]?).map skel = (inp[i]?).map skel := by
  rw [← List.getElem?_map, ← List.getElem?_map, h]

theorem inv_congr {inp inp2 : List t_inpfile} {ns : List CStr} (h : touched_in_order inp ns)
    (hsk : inp2.map skel = inp.map skel) : touched_in_order inp2 ns := by
  have hnames : inp2.map (fun e => e.name) = inp.map (fun e => e.name) := by
    have := congrArg (List.map (fun t : CStr × Bool × Int × Int => t.1)) hsk
    simpa [List.map_map, Function.comp, skel] using this
  have hsearch : ∀ m, search_loop m inp2 = search_loop m inp :=
    fun m => search_loop_congr m _ _ hnames
  have hidx : ∀ (i : Nat) (e : t_inpfile), inp[i]? = some e →
      ∃ e2, inp2[i]? = some e2 ∧ skel e2 = skel e := by
    intro i e he
    have := skel_getElem? hsk i
    rw [he] at this
    cases h2 : inp2[i]? with
    | none => rw [h2] at this; cases this
    | some e2 =>
      rw [h2] at this
      exact ⟨e2, rfl, by simpa using this⟩
  have hidx2 : ∀ (i : Nat) (e2 : t_inpfile), inp2[i]? = some e2 →
      ∃ e, inp[i]? = some e ∧ skel e2 = skel e := by
    intro i e2 he2
    have := skel_getElem? hsk i
    rw [he2] at this
    cases h1 : inp[i]? with
    | none => rw [h1] at this; cases this
    | some e =>
      rw [h1] at this
      exact ⟨e, rfl, by simpa using this⟩
  refine ⟨⟨?_, ?_⟩, ?_, ?_, ?_⟩
  · intro h0
    rw [h0] at hsk
    exact h.head.1 (List.map_eq_nil_iff.1 hsk.symm)
  · rw [← h.head.2]
    cases inp with
    | nil => exact absurd rfl h.head.1
    | cons e r =>
      cases inp2 with
      | nil => simp at hsk
      | cons e2 r2 =>
        simp only [List.map_cons, List.cons.injEq, skel, Prod.mk.injEq] at hsk
        simp [head_count, hsk.1.2.2.2]
  · rw [hnames]; exact h.names
  · intro k m hk
    obtain ⟨i, e, hs, he, hb, hc⟩ := h.hit k m hk
    obtain ⟨e2, he2, hsk2⟩ := hidx i e he
    simp only [skel, Prod.mk.injEq] at hsk2
    exact ⟨i, e2, by rw [hsearch]; exact hs, he2, by rw [hsk2.2.1]; exact hb,
      by rw [hsk2.2.2.1]; exact hc⟩
  · intro i e2 he2 hb2
    obtain ⟨e, he, hsk2⟩ := hidx2 i e2 he2
    simp only [skel, Prod.mk.injEq] at hsk2
    obtain ⟨k, m, hk, hs⟩ := h.set i e he (by rw [← hsk2.2.1]; exact hb2)
    exact ⟨k, m, hk, by rw [hsearch]; exact hs⟩

theorem vals_touch {inp : List t_inpfile} (h : unset_have_value inp) (i : Nat) :
    unset_have_value (touch inp i) := by
  intro j e he hb
  rw [getElem?_touch] at he
  cases hold : inp[j]? with
  | none => rw [hold] at he; cases he
  | some e0 =>
    rw [hold] at he
    simp only [Option.map_some', Option.some.injEq] at he
    subst he
    by_cases hj : j = i
    · simp [touched, hj] at hb
    · simp only [touched, hj, if_false] at hb
      simpa [touched] using h j e0 hold hb

theorem vals_get_einp {inp : List t_inpfile} (h : unset_have_value inp) (n : CStr)
    (junk : t_inpfile) : unset_have_value (get_einp inp n junk).2 := by
  cases hs : search_loop n inp with
  | some i => rw [get_einp_hit hs]; exact vals_touch h i
  | none =>
    rw [get_einp_miss hs]
    intro j e he hb
    rw [getElem?_touch] at he
    by_cases hlt : j < inp.length
    · rw [List.getElem?_append_left hlt] at he
      cases hold : inp[j]? with
      | none => rw [hold] at he; cases he
      | some e0 =>
        rw [hold] at he
        simp only [Option.map_some', Option.some.injEq] at he
        subst he
        have hj : j ≠ inp.length := by omega
        simp only [touched, hj, if_false] at hb
        simpa [touched] using h j e0 hold hb
    · rw [List.getElem?_append_right (by omega)] at he
      cases hj : j - inp.length with
      | zero =>
        have : j = inp.length := by omega
        subst this
        rw [hj] at he
        simp only [List.getElem?_cons_zero, Option.map_some', Option.some.injEq] at he
        subst he
        simp [touched] at hb
      | succ k => rw [hj] at he; simp at he

theorem vals_upd {inp : List t_inpfile} (h : unset_have_value inp) (i : Nat)
    (f : t_inpfile → t_inpfile) (hf : ∀ e, (f e).bSet = e.bSet)
    (hi : ∀ e, inp[i]? = some e → e.bSet = true) : unset_have_value (upd inp i f) := by
  intro j e he hb
  rw [getElem?_upd] at he
  by_cases hj : j = i
  · subst hj
    simp only [if_true] at he
    cases hold : inp[j]? with
    | none => rw [hold] at he; cases he
    | some e0 =>
      rw [hold] at he
      simp only [Option.map_some', Option.some.injEq] at he
      subst he
      rw [hf, hi e0 hold] at hb
      cases hb
  · simp only [hj, if_false] at he
    exact h j e he hb

/-! ## The order of the written lines -/

theorem renumber_filter_set (l : List t_inpfile)
    (h : ∀ e ∈ l, e.bSet = true → e.count ≠ 0) : ∀ mm,
    (renumber mm l).filter (fun e => e.bSet) = l.filter (fun e => e.bSet) := by
  induction l with
  | nil => intro mm; simp [renumber]
  | cons e r ih =>
    intro mm
    have ih2 := ih (fun x hx => h x (List.mem_cons_of_mem _ hx))
    by_cases h0 : e.count = 0
    · have hb : e.bSet = false := by
        cases hb : e.bSet with
        | false => rfl
        | true => exact absurd h0 (h e (List.mem_cons_self _ _) hb)
      simp [renumber, h0, List.filter_cons, hb, ih2]
    · simp [renumber, h0, List.filter_cons, ih2]

theorem sort_inp_sorted (inp : List t_inpfile) :
    (sort_inp inp).Pairwise (fun a b => a.count ≤ b.count) := by
  haveI : IsTotal t_inpfile (fun a b => inp_comp a b ≤ 0) :=
    ⟨fun a b => by simp only [inp_comp]; omega⟩
  haveI : IsTrans t_inpfile (fun a b => inp_comp a b ≤ 0) :=
    ⟨fun a b c h1 h2 => by simp only [inp_comp] at h1 h2 ⊢; omega⟩
  have h := List.sorted_insertionSort (fun a b => inp_comp a b ≤ 0)
    (renumber (max_count inp) inp)
  refine List.Pairwise.imp ?_ h
  intro a b hab
  simp only [inp_comp] at hab
  omega

theorem exists_map_some {α β : Type} (f : α → Option β) (l : List α)
    (h : ∀ a ∈ l, ∃ b, f a = some b) : ∃ t : List β, l.map f = t.map some := by
  induction l with
  | nil => exact ⟨[], rfl⟩
  | cons a r ih =>
    obtain ⟨b, hb⟩ := h a (List.mem_cons_self _ _)
    obtain ⟨t, ht⟩ := ih (fun x hx => h x (List.mem_cons_of_mem _ hx))
    exact ⟨b :: t, by simp [hb, ht]⟩

theorem lookup_of_search {inp : List t_inpfile} {n : CStr} {i : Nat} {e : t_inpfile}
    (hs : search_loop n inp = some i) (he : inp[i]? = some e) : lookup inp n = some e := by
  simp [lookup, hs, he]

theorem strict_of_sorted_nodup (l : List t_inpfile)
    (h1 : l.Pairwise (fun a b => a.count ≤ b.count))
    (h2 : (l.map (fun e => e.count)).Nodup) : l.Pairwise (fun a b => a.count < b.count) := by
  have h3 : l.Pairwise (fun a b => a.count ≠ b.count) := by
    have := List.pairwise_map.1 h2
    exact this
  refine List.Pairwise.imp ?_ (h1.and h3)
  intro a b hab
  have := hab.1
  have := hab.2
  omega

theorem store_nodup {inp : List t_inpfile}
    (h : (inp.map (fun e => e.name)).Pairwise (fun a b => gmx_strcasecmp_min b a ≠ 0)) :
    inp.Nodup := by
  have h2 := List.pairwise_map.1 h
  refine List.Pairwise.imp ?_ h2
  intro a b hab hEq
  rw [hEq] at hab
  exact hab (cmp_refl _)

theorem write_in_order {inp : List t_inpfile} {ns : List CStr} (h : touched_in_order inp ns)
    (halt : Bool) (wi : warninp) :
    (write_inpfile inp halt wi).out.map some =
      ns.map (fun n => (lookup inp n).map entry_line) := by
  have hit2 : ∀ (k : Nat) (n : CStr), ns[k]? = some n →
      ∃ e, lookup inp n = some e ∧ e ∈ inp ∧ e.bSet = true ∧ e.count = (k : Int) + 1 := by
    intro k n hk
    obtain ⟨i, e, hs, he, hb, hc⟩ := h.hit k n hk
    exact ⟨e, lookup_of_search hs he, List.getElem?_mem he, hb, hc⟩
  obtain ⟨t, ht⟩ := exists_map_some (lookup inp) ns (by
    intro n hn
    obtain ⟨k, hk⟩ := List.mem_iff_getElem?.1 hn
    obtain ⟨e, he, _⟩ := hit2 k n hk
    exact ⟨e, he⟩)
  have htk : ∀ (k : Nat) (e : t_inpfile), t[k]? = some e →
      ∃ n, ns[k]? = some n ∧ lookup inp n = some e := by
    intro k e hke
    have h1 : (ns.map (lookup inp))[k]? = some (some e) := by
      rw [ht, List.getElem?_map, hke]; rfl
    rw [List.getElem?_map] at h1
    cases hn : ns[k]? with
    | none => rw [hn] at h1; cases h1
    | some n =>
      rw [hn] at h1
      exact ⟨n, rfl, by simpa using h1⟩
  have htcount : ∀ (k : Nat) (e : t_inpfile), t[k]? = some e →
      e ∈ inp ∧ e.bSet = true ∧ e.count = (k : Int) + 1 := by
    intro k e hke
    obtain ⟨n, hn, hl⟩ := htk k e hke
    obtain ⟨e2, hl2, hm, hb, hc⟩ := hit2 k n hn
    rw [hl] at hl2
    cases hl2
    exact ⟨hm, hb, hc⟩
  have htsorted : t.Pairwise (fun a b => a.count < b.count) := by
    rw [List.pairwise_iff_getElem]
    intro i j hi hj hij
    have h1 := (htcount i t[i] (List.getElem?_eq_getElem hi)).2.2
    have h2 := (htcount j t[j] (List.getElem?_eq_getElem hj)).2.2
    rw [h1, h2]
    omega
  have hsetmem : ∀ e ∈ inp, e.bSet = true → e ∈ t := by
    intro e he hb
    obtain ⟨i, hi⟩ := List.mem_iff_getElem?.1 he
    obtain ⟨k, n, hk, hs⟩ := h.set i e hi hb
    have hl : lookup inp n = some e := lookup_of_search hs hi
    have h1 : some e ∈ ns.map (lookup inp) := List.mem_map.2 ⟨n, List.getElem?_mem hk, hl⟩
    rw [ht] at h1
    obtain ⟨e2, he2, heq⟩ := List.mem_map.1 h1
    cases heq
    exact he2
  have hcount0 : ∀ e ∈ inp, e.bSet = true → e.count ≠ 0 := by
    intro e he hb
    obtain ⟨k, hk⟩ := List.mem_iff_getElem?.1 (hsetmem e he hb)
    rw [(htcount k e hk).2.2]
    omega
  have htnodup : t.Nodup := by
    refine List.Pairwise.imp ?_ htsorted
    intro a b hab hEq
    rw [hEq] at hab
    omega
  have hperm_t : t.Perm (inp.filter (fun e => e.bSet)) := by
    rw [List.perm_ext_iff_of_nodup htnodup ((store_nodup h.names).filter _)]
    intro e
    constructor
    · intro het
      obtain ⟨k, hk⟩ := List.mem_iff_getElem?.1 het
      obtain ⟨hm, hb, _⟩ := htcount k e hk
      exact List.mem_filter.2 ⟨hm, hb⟩
    · intro hef
      obtain ⟨hm, hb⟩ := List.mem_filter.1 hef
      exact hsetmem e hm hb
  have hperm_s : ((sort_inp inp).filter (fun e => e.bSet)).Perm (inp.filter (fun e => e.bSet)) := by
    have h1 := (sort_inp_perm inp).filter (fun e => e.bSet)
    rw [renumber_filter_set inp hcount0] at h1
    exact h1
  have hperm : ((sort_inp inp).filter (fun e => e.bSet)).Perm t := hperm_s.trans hperm_t.symm
  have hs_sorted : ((sort_inp inp).filter (fun e => e.bSet)).Pairwise
      (fun a b => a.count < b.count) := by
    apply strict_of_sorted_nodup _ ((sort_inp_sorted inp).filter _)
    have hn : (t.map (fun e => e.count)).Nodup := by
      rw [List.Nodup, List.pairwise_map]
      refine List.Pairwise.imp ?_ htsorted
      intro a b hab
      omega
    exact (List.Perm.nodup_iff (hperm.map _)).2 hn
  haveI : IsAntisymm t_inpfile (fun a b => a.count < b.count) :=
    ⟨fun a b h1 h2 => absurd h1 (by omega)⟩
  have heq : (sort_inp inp).filter (fun e => e.bSet) = t :=
    List.eq_of_perm_of_sorted hperm hs_sorted htsorted
  rw [write_out_eq, heq]
  have : ns.map (fun n => (lookup inp n).map entry_line) =
      (ns.map (lookup inp)).map (Option.map entry_line) := by
    rw [List.map_map]; rfl
  rw [this, ht, List.map_map, List.map_map]
  rfl

/-! ## Sequences of accessor calls -/

theorem miss_last {inp : List t_inpfile} {n : CStr} (hs : search_loop n inp = none)
    (junk : t_inpfile) :
    ∀ e, (get_einp inp n junk).2[(get_einp inp n junk).2.length - 1]? = some e →
      e.bSet = true := by
  intro e he
  rw [get_einp_miss hs] at he
  simp only [length_touch, List.length_append, List.length_singleton, Nat.add_sub_cancel] at he
  rw [getElem?_touch, List.getElem?_concat_length] at he
  simp only [Option.map_some', Option.some.injEq] at he
  rw [← he]
  simp [touched]

theorem hit_unset {inp : List t_inpfile} {ns : List CStr} {n : CStr} {i : Nat} {e : t_inpfile}
    (h : touched_in_order inp ns) (hn : ∀ m ∈ ns, gmx_strcasecmp_min n m ≠ 0)
    (hs : search_loop n inp = some i) (he : inp[i]? = some e) : e.bSet = false := by
  cases hb : e.bSet with
  | false => rfl
  | true =>
    obtain ⟨k, m, hk, hsm⟩ := h.set i e he hb
    obtain ⟨e1, he1, hm1, _⟩ := search_loop_some hs
    obtain ⟨e2, he2, hm2, _⟩ := search_loop_some hsm
    rw [he] at he1 he2
    cases he1
    cases he2
    exact absurd (cmp_trans hm1 (cmp_symm hm2)) (hn m (List.getElem?_mem hk))

theorem after_upd {t : List t_inpfile} {ns : List CStr} (h : touched_in_order t ns)
    (hv : unset_have_value t) (i : Nat) (w : Option CStr)
    (hi : ∀ e, t[i]? = some e → e.bSet = true) :
    touched_in_order (upd t i (fun x => { x with value := w })) ns ∧
    unset_have_value (upd t i (fun x => { x with value := w })) :=
  ⟨inv_congr h (map_upd skel (fun x => { x with value := w }) (fun _ => rfl) t i),
    vals_upd hv i (fun x => { x with value := w }) (fun _ => rfl) hi⟩

theorem touch_set_at {inp : List t_inpfile} (i : Nat) :
    ∀ e, (touch inp i)[i]? = some e → e.bSet = true := by
  intro e he
  rw [getElem?_touch] at he
  cases hold : inp[i]? with
  | none => rw [hold] at he; cases he
  | some e0 =>
    rw [hold] at he
    simp only [Option.map_some', Option.some.injEq] at he
    rw [← he]
    simp [touched]

theorem run_call_inv (s : session) (c : accessor_call) (ns : List CStr)
    (h : touched_in_order s.inp ns) (hv : unset_have_value s.inp)
    (hn : ∀ m ∈ ns, gmx_strcasecmp_min (call_name c) m ≠ 0) :
    ∃ s2, run_call s c = some s2 ∧ touched_in_order s2.inp (ns ++ [call_name c]) ∧
      unset_have_value s2.inp := by
  cases c with
  | eint name dflt junk =>
    simp only [call_name] at hn ⊢
    have hT := inv_get_einp name h hn junk
    have hvT := vals_get_einp hv name junk
    cases hs : search_loop name s.inp with
    | none =>
      have hlast := miss_last hs junk
      obtain ⟨a1, a2⟩ := after_upd hT hvT _ (some (fmt_d dflt)) hlast
      refine ⟨⟨_, s.wi, s.err⟩, ?_, a1, a2⟩
      simp [run_call, get_eint, get_einp_miss hs]
    | some i =>
      obtain ⟨e, he, _, _⟩ := search_loop_some hs
      have hb := hit_unset h hn hs he
      cases hval : e.value with
      | none => exact absurd hval (hv i e he hb)
      | some v =>
        rw [get_einp_hit hs] at hT hvT
        cases hr : run_call s (accessor_call.eint name dflt junk) with
        | none =>
          simp only [run_call, get_eint_hit hs he hval, Option.map_some'] at hr
          cases hr
        | some s2 =>
          simp only [run_call, get_eint_hit hs he hval, Option.map_some'] at hr
          cases hr
          exact ⟨_, rfl, hT, hvT⟩
  | estr name dflt junk =>
    simp only [call_name] at hn ⊢
    have hT := inv_get_einp name h hn junk
    have hvT := vals_get_einp hv name junk
    cases hs : search_loop name s.inp with
    | none =>
      have hlast := miss_last hs junk
      obtain ⟨a1, a2⟩ := after_upd hT hvT _ dflt hlast
      refine ⟨⟨_, s.wi, s.err⟩, ?_, a1, a2⟩
      simp [run_call, get_estr, get_einp_miss hs]
    | some i =>
      rw [get_einp_hit hs] at hT hvT
      refine ⟨⟨_, s.wi, s.err⟩, ?_, hT, hvT⟩
      simp only [run_call, get_estr, get_einp_hit hs]
      cases (touch s.inp i)[i]? <;> rfl
  | eeenum name d0 ds with_sink junk =>
    simp only [call_name] at hn ⊢
    have hT := inv_get_einp name h hn junk
    have hvT := vals_get_einp hv name junk
    cases hs : search_loop name s.inp with
    | none =>
      have hlast := miss_last hs junk
      rw [get_einp_miss hs] at hT hvT hlast
      obtain ⟨a1, a2⟩ := after_upd hT hvT _ (some d0) hlast
      cases hr : run_call s (accessor_call.eeenum name d0 ds with_sink junk) with
      | none =>
        simp only [run_call, get_eeenum, get_einp_miss hs, Option.map_some'] at hr
        cases hr
      | some s2 =>
        simp only [run_call, get_eeenum, get_einp_miss hs, Option.map_some'] at hr
        cases hr
        exact ⟨_, rfl, a1, a2⟩
    | some i =>
      obtain ⟨e, he, _, _⟩ := search_loop_some hs
      have hb := hit_unset h hn hs he
      cases hval : e.value with
      | none => exact absurd hval (hv i e he hb)
      | some v =>
        rw [get_einp_hit hs] at hT hvT
        cases hloop : enum_loop v (d0 :: ds) with
        | some k =>
          cases hr : run_call s (accessor_call.eeenum name d0 ds with_sink junk) with
          | none =>
            simp only [run_call, get_eeenum, get_einp_hit hs, getElem?_touch, he,
              Option.map_some', touched, hval, hloop] at hr
            cases hr
          | some s2 =>
            simp only [run_call, get_eeenum, get_einp_hit hs, getElem?_touch, he,
              Option.map_some', touched, hval, hloop] at hr
            cases hr
            exact ⟨_, rfl, hT, hvT⟩
        | none =>
          obtain ⟨a1, a2⟩ := after_upd hT hvT i (some d0) (touch_set_at i)
          cases hr : run_call s (accessor_call.eeenum name d0 ds with_sink junk) with
          | none =>
            simp only [run_call, get_eeenum, get_einp_hit hs, getElem?_touch, he,
              Option.map_some', touched, hval, hloop] at hr
            cases hr
          | some s2 =>
            simp only [run_call, get_eeenum, get_einp_hit hs, getElem?_touch, he,
              Option.map_some', touched, hval, hloop] at hr
            cases hr
            exact ⟨_, rfl, a1, a2⟩

theorem run_calls_inv (cs : List accessor_call) : ∀ (s : session) (ns : List CStr),
    touched_in_order s.inp ns → unset_have_value s.inp →
    (ns ++ cs.map call_name).Pairwise (fun a b => gmx_strcasecmp_min a b ≠ 0) →
    ∃ s2, run_calls s cs = some s2 ∧ touched_in_order s2.inp (ns ++ cs.map call_name) ∧
      unset_have_value s2.inp := by
  induction cs with
  | nil =>
    intro s ns h hv _
    exact ⟨s, rfl, by simpa using h, hv⟩
  | cons c cs ih =>
    intro s ns h hv hp
    have hp2 : (ns ++ [call_name c] ++ cs.map call_name).Pairwise
        (fun a b => gmx_strcasecmp_min a b ≠ 0) := by
      simpa using hp
    have hn : ∀ m ∈ ns, gmx_strcasecmp_min (call_name c) m ≠ 0 := by
      intro m hm hc
      have h1 := (List.pairwise_append.1 (List.pairwise_append.1 hp2).1).2.2 m hm
        (call_name c) (List.mem_singleton_self _)
      exact h1 (cmp_symm hc)
    obtain ⟨s1, hr1, h1, hv1⟩ := run_call_inv s c ns h hv hn
    obtain ⟨s2, hr2, h2, hv2⟩ := ih s1 (ns ++ [call_name c]) h1 hv1 hp2
    refine ⟨s2, ?_, ?_, hv2⟩
    · simp [run_calls, hr1, hr2]
    · simpa using h2

/-! ## The store after reading -/

theorem read_step_names (st : read_state) (line : CStr)
    (h : (st.inp.map (fun e => e.name)).Pairwise (fun a b => gmx_strcasecmp_min b a ≠ 0)) :
    ((read_step st line).inp.map (fun e => e.name)).Pairwise
      (fun a b => gmx_strcasecmp_min b a ≠ 0) := by
  cases hs : split_line line with
  | none => simpa [read_step, hs] using h
  | some p =>
    obtain ⟨l, r⟩ := p
    cases hsrch : search_loop l st.inp with
    | some k => simpa [read_step, hs, hsrch] using h
    | none =>
      have hst : (read_step st line).inp = st.inp ++ [new_item l r] := by
        simp [read_step, hs, hsrch]
      rw [hst, List.map_append, List.pairwise_append]
      refine ⟨h, by simp, ?_⟩
      intro a ha b hb
      simp only [List.map_cons, List.map_nil, List.mem_singleton] at hb
      obtain ⟨e, he, rfl⟩ := List.mem_map.1 ha
      rw [hb]
      exact (search_loop_none_iff l st.inp).1 hsrch e he

theorem read_fold_names (lines : List CStr) : ∀ st : read_state,
    (st.inp.map (fun e => e.name)).Pairwise (fun a b => gmx_strcasecmp_min b a ≠ 0) →
    ((lines.foldl read_step st).inp.map (fun e => e.name)).Pairwise
      (fun a b => gmx_strcasecmp_min b a ≠ 0) := by
  induction lines with
  | nil => intro st h; exact h
  | cons line rest ih =>
    intro st h
    exact ih _ (read_step_names st line h)

theorem read_inv (lines : List CStr) (wi : warninp) (hne : (read_inpfile lines wi).1 ≠ []) :
    touched_in_order (read_inpfile lines wi).1 [] ∧ unset_have_value (read_inpfile lines wi).1 := by
  have hspec := (read_inpfile_spec lines wi).1
  have hall : ∀ e ∈ (read_inpfile lines wi).1,
      e.bSet = false ∧ e.value ≠ none ∧ e.inp_count = 1 := by
    intro e he
    rw [hspec] at he
    obtain ⟨p, _, rfl⟩ := List.mem_map.1 he
    simp [new_item]
  refine ⟨⟨⟨hne, ?_⟩, ?_, ?_, ?_⟩, ?_⟩
  · cases hl : (read_inpfile lines wi).1 with
    | nil => exact absurd hl hne
    | cons e r =>
      have := (hall e (by rw [hl]; exact List.mem_cons_self _ _)).2.2
      simp [head_count, this]
  · exact read_fold_names lines _ (by simp)
  · intro k n hk
    simp at hk
  · intro i e he hb
    rw [(hall e (List.getElem?_mem he)).1] at hb
    cases hb
  · intro i e he _
    exact (hall e (List.getElem?_mem he)).2.1

/-- C8: on a non-empty store returned by `read_inpfile`, every sequence of calls of
`get_eint`, `get_estr` and `get_eeenum` for pairwise non-matching names runs to the
end; each requested name then has a set entry that matches it, and `write_inpfile`
writes exactly the lines of these entries, in the order of the calls, and no other
line. -/
theorem C8_output_order_of_touched (lines : List CStr) (wi : warninp)
    (cs : List accessor_call) (halt : Bool)
    (hne : (read_inpfile lines wi).1 ≠ [])
    (hnames : (cs.map call_name).Pairwise (fun a b => gmx_strcasecmp_min a b ≠ 0)) :
    ∃ s, run_calls ⟨(read_inpfile lines wi).1, (read_inpfile lines wi).2, []⟩ cs = some s ∧
      (∀ c ∈ cs, ∃ e, lookup s.inp (call_name c) = some e ∧
        gmx_strcasecmp_min (call_name c) e.name = 0 ∧ e.bSet = true) ∧
      (write_inpfile s.inp halt s.wi).out.map some =
        cs.map (fun c => (lookup s.inp (call_name c)).map entry_line) ∧
      (write_inpfile s.inp halt s.wi).out.length = cs.length := by
  obtain ⟨h0, hv0⟩ := read_inv lines wi hne
  obtain ⟨s, hr, hinv, _⟩ := run_calls_inv cs
    ⟨(read_inpfile lines wi).1, (read_inpfile lines wi).2, []⟩ [] h0 hv0 (by simpa using hnames)
  simp only [List.nil_append] at hinv
  have hout := write_in_order hinv halt s.wi
  refine ⟨s, hr, ?_, ?_, ?_⟩
  · intro c hc
    obtain ⟨k, hk⟩ := List.mem_iff_getElem?.1 (List.mem_map.2 ⟨c, hc, rfl⟩)
    obtain ⟨i, e, hs, he, hb, _⟩ := hinv.hit k (call_name c) hk
    obtain ⟨e2, he2, hm, _⟩ := search_loop_some hs
    rw [he] at he2
    cases he2
    exact ⟨e, lookup_of_search hs he, hm, hb⟩
  · rw [hout, List.map_map]
    rfl
  · have := congrArg List.length hout
    simpa using this

/-! ## The round trip -/

theorem mem_trim {s : CStr} {c : Char} (h : c ∈ trim s) : c ∈ s := by
  unfold trim rtrim ltrim at h
  have h1 := (List.dropWhile_sublist isspace).subset (List.mem_reverse.1 h)
  exact (List.dropWhile_sublist isspace).subset (List.mem_reverse.1 h1)

theorem split_line_no_comment {line l r : CStr} (h : split_line line = some (l, r)) :
    COMMENTSIGN ∉ l := by
  intro hc
  unfold split_line at h
  simp only at h
  split_ifs at h with h1 h2 h3
  simp only [Option.some.injEq, Prod.mk.injEq] at h
  rw [← h.1] at hc
  have h4 := List.mem_of_mem_take (mem_trim hc)
  have h5 := List.mem_takeWhile_imp (mem_trim h4)
  simp at h5

theorem valid_pairs_no_comment {lines : List CStr} {p : CStr × CStr}
    (h : p ∈ valid_pairs lines) : COMMENTSIGN ∉ p.1 := by
  unfold valid_pairs at h
  obtain ⟨line, _, hl⟩ := List.mem_filterMap.1 h
  exact @split_line_no_comment line p.1 p.2 hl

theorem first_occ_subset (ps : List (CStr × CStr)) : ∀ (seen : List (CStr × CStr)) (p : CStr × CStr),
    p ∈ first_occ seen ps → p ∈ ps := by
  induction ps with
  | nil => intro seen p h; simp [first_occ] at h
  | cons q r ih =>
    intro seen p h
    by_cases hany : seen.any (fun x => decide (gmx_strcasecmp_min q.1 x.1 = 0)) = true
    · simp only [first_occ, hany, if_true] at h
      exact List.mem_cons_of_mem _ (ih _ p h)
    · simp only [first_occ, hany] at h
      rcases List.mem_cons.1 h with h | h
      · rw [h]; exact List.mem_cons_self _ _
      · exact List.mem_cons_of_mem _ (ih _ p h)

theorem first_occ_eq_self (ps : List (CStr × CStr)) : ∀ seen : List (CStr × CStr),
    (∀ p ∈ ps, ∀ q ∈ seen, gmx_strcasecmp_min p.1 q.1 ≠ 0) →
    ps.Pairwise (fun q p => gmx_strcasecmp_min p.1 q.1 ≠ 0) → first_occ seen ps = ps := by
  induction ps with
  | nil => intro seen _ _; rfl
  | cons p r ih =>
    intro seen hseen hp
    obtain ⟨hp1, hp2⟩ := List.pairwise_cons.1 hp
    have hany : seen.any (fun q => decide (gmx_strcasecmp_min p.1 q.1 = 0)) = false := by
      rw [List.any_eq_false]
      intro q hq
      simpa using hseen p (List.mem_cons_self _ _) q hq
    have hrec : first_occ (seen ++ [p]) r = r := by
      apply ih _ _ hp2
      intro x hx q hq
      rcases List.mem_append.1 hq with h | h
      · exact hseen x (List.mem_cons_of_mem _ hx) q h
      · rw [List.mem_singleton.1 h]
        exact hp1 x hx
    simp [first_occ, hany, hrec]

theorem entry_line_assign (name value : CStr) (h : COMMENTSIGN ∉ name) :
    entry_line (new_item name value) =
      pad24 name ++ " = ".toList ++ value ++ "\n".toList := by
  have h0 : ¬ (name[0]? = some ';') := fun hc => h (List.getElem?_mem hc)
  have h1 : ¬ (name[1]? = some ';') := fun hc => h (List.getElem?_mem hc)
  simp [entry_line, new_item, h0, h1]

theorem entry_line_congr {e1 e2 : t_inpfile} (h : (e1.name, e1.value) = (e2.name, e2.value)) :
    entry_line e1 = entry_line e2 := by
  simp only [Prod.mk.injEq] at h
  simp only [entry_line, h.1, h.2]

theorem lookup_self {inp : List t_inpfile}
    (h : (inp.map (fun e => e.name)).Pairwise (fun a b => gmx_strcasecmp_min b a ≠ 0))
    {e : t_inpfile} (he : e ∈ inp) : lookup inp e.name = some e := by
  induction inp with
  | nil => cases he
  | cons a r ih =>
    simp only [List.map_cons, List.pairwise_cons] at h
    rw [lookup_cons]
    rcases List.mem_cons.1 he with rfl | her
    · simp [cmp_refl]
    · have hne : gmx_strcasecmp_min e.name a.name ≠ 0 :=
        h.1 e.name (List.mem_map.2 ⟨e, her, rfl⟩)
      simp only [hne, if_false]
      exact ih h.2 her

theorem lookup_map_nv (inp : List t_inpfile) (n : CStr) :
    (lookup inp n).map (fun e => (e.name, e.value)) =
      (inp.map (fun e => (e.name, e.value))).find?
        (fun q => decide (gmx_strcasecmp_min n q.1 = 0)) := by
  rw [lookup_eq_find, List.find?_map]
  rfl

theorem marks_inv (ms : List CStr) : ∀ (inp : List t_inpfile) (ns : List CStr),
    touched_in_order inp ns →
    (ns ++ ms).Pairwise (fun a b => gmx_strcasecmp_min a b ≠ 0) →
    (∀ m ∈ ms, search_loop m inp ≠ none) →
    touched_in_order (ms.foldl mark_einp_set inp) (ns ++ ms) ∧
    (ms.foldl mark_einp_set inp).map (fun e => (e.name, e.value)) =
      inp.map (fun e => (e.name, e.value)) := by
  induction ms with
  | nil => intro inp ns h _ _; exact ⟨by simpa using h, rfl⟩
  | cons m r ih =>
    intro inp ns h hp hfound
    have hp2 : (ns ++ [m] ++ r).Pairwise (fun a b => gmx_strcasecmp_min a b ≠ 0) := by
      simpa using hp
    have hn : ∀ x ∈ ns, gmx_strcasecmp_min m x ≠ 0 := by
      intro x hx hc
      have h1 := (List.pairwise_append.1 (List.pairwise_append.1 hp2).1).2.2 x hx
        m (List.mem_singleton_self _)
      exact h1 (cmp_symm hc)
    cases hs : search_loop m inp with
    | none => exact absurd hs (hfound m (List.mem_cons_self _ _))
    | some i =>
      have hmark : mark_einp_set inp m = touch inp i := by simp [mark_einp_set, hs]
      have h1 := inv_touch h hs hn
      obtain ⟨a1, a2⟩ := ih (touch inp i) (ns ++ [m]) h1 hp2 (by
        intro x hx
        rw [search_touch]
        exact hfound x (List.mem_cons_of_mem _ hx))
      rw [List.foldl_cons, hmark]
      refine ⟨by simpa using a1, ?_⟩
      rw [a2]
      exact map_touch (fun e => (e.name, e.value)) (fun _ _ _ _ => rfl) inp i

theorem write_nil (halt : Bool) (wi : warninp) :
    (write_inpfile [] halt wi).out = [] ∧ (write_inpfile [] halt wi).wi = wi := by
  cases halt <;> simp [write_inpfile, sort_inp, gmx_qsort, renumber, max_count]

theorem add_diags_nil (halt : Bool) (wi : warninp) : add_diags halt wi [] = wi := by
  cases halt <;> simp [add_diags]

/-- C1: reading a file, marking every stored name once in file order with
`mark_einp_set` and writing the store emits exactly one line per stored entry, in
file order, made of the padded name, ` = ` and the value as read, and leaves the sink
as it was, so no unknown-key diagnostic is recorded.  When the names of the valid
lines are pairwise distinct, the stored entries are exactly the valid lines. -/
theorem C1_round_trip (lines : List CStr) (wi : warninp) (halt : Bool) :
    (write_inpfile
        (((read_inpfile lines wi).1.map (fun e => e.name)).foldl mark_einp_set
          (read_inpfile lines wi).1) halt (read_inpfile lines wi).2).out =
      (first_occ [] (valid_pairs lines)).map
        (fun p => pad24 p.1 ++ " = ".toList ++ p.2 ++ "\n".toList) ∧
    (write_inpfile
        (((read_inpfile lines wi).1.map (fun e => e.name)).foldl mark_einp_set
          (read_inpfile lines wi).1) halt (read_inpfile lines wi).2).wi =
      (read_inpfile lines wi).2 ∧
    ((valid_pairs lines).Pairwise (fun a b => gmx_strcasecmp_min a.1 b.1 ≠ 0) →
      first_occ [] (valid_pairs lines) = valid_pairs lines) := by
  have hspec := (read_inpfile_spec lines wi).1
  have hthird : (valid_pairs lines).Pairwise (fun a b => gmx_strcasecmp_min a.1 b.1 ≠ 0) →
      first_occ [] (valid_pairs lines) = valid_pairs lines := by
    intro hp
    apply first_occ_eq_self _ [] (by simp)
    exact List.Pairwise.imp (fun hab hc => hab (cmp_symm hc)) hp
  by_cases hne : (read_inpfile lines wi).1 = []
  · have hfo : first_occ [] (valid_pairs lines) = [] := by
      rw [hne] at hspec
      exact List.map_eq_nil_iff.1 hspec.symm
    refine ⟨?_, ?_, hthird⟩
    · rw [hne, hfo]
      exact (write_nil halt _).1
    · rw [hne]
      exact (write_nil halt _).2
  · obtain ⟨h0, _⟩ := read_inv lines wi hne
    have hpw : (([] : List CStr) ++ (read_inpfile lines wi).1.map (fun e => e.name)).Pairwise
        (fun a b => gmx_strcasecmp_min a b ≠ 0) := by
      rw [List.nil_append]
      exact List.Pairwise.imp (fun hab hc => hab (cmp_symm hc)) h0.names
    have hfound : ∀ m ∈ (read_inpfile lines wi).1.map (fun e => e.name),
        search_loop m (read_inpfile lines wi).1 ≠ none := by
      intro m hm hnone
      obtain ⟨e, he, rfl⟩ := List.mem_map.1 hm
      exact (search_loop_none_iff _ _).1 hnone e he (cmp_refl _)
    obtain ⟨hinv, hnv⟩ := marks_inv _ _ [] h0 hpw hfound
    rw [List.nil_append] at hinv
    generalize hmk : ((read_inpfile lines wi).1.map (fun e => e.name)).foldl mark_einp_set
      (read_inpfile lines wi).1 = marked at hinv hnv
    have hout := write_in_order hinv halt (read_inpfile lines wi).2
    have hline : ∀ e ∈ (read_inpfile lines wi).1,
        (lookup marked e.name).map entry_line = some (entry_line e) := by
      intro e he
      have h1 := lookup_map_nv marked e.name
      rw [hnv, ← lookup_map_nv, lookup_self h0.names he] at h1
      cases hl : lookup marked e.name with
      | none => rw [hl] at h1; cases h1
      | some e2 =>
        rw [hl] at h1
        simp only [Option.map_some', Option.some.injEq] at h1
        simp only [Option.map_some', Option.some.injEq]
        exact entry_line_congr h1
    have hout2 : (write_inpfile marked halt (read_inpfile lines wi).2).out.map some =
        ((read_inpfile lines wi).1.map entry_line).map some := by
      rw [hout, List.map_map, List.map_map]
      apply List.map_congr_left
      intro e he
      exact hline e he
    have hout3 := (Option.some_injective _).list_map hout2
    have hset : ∀ e ∈ marked, e.bSet = true := by
      intro e he
      obtain ⟨i, hi⟩ := List.mem_iff_getElem?.1 he
      have hnm : marked.map (fun e => e.name) =
          (read_inpfile lines wi).1.map (fun e => e.name) := by
        have := congrArg (List.map (fun q : CStr × Option CStr => q.1)) hnv
        simpa [List.map_map, Function.comp] using this
      have hk : ((read_inpfile lines wi).1.map (fun e => e.name))[i]? = some e.name := by
        rw [← hnm, List.getElem?_map, hi]; rfl
      obtain ⟨i2, e2, hs2, he2, hb2, _⟩ := hinv.hit i e.name hk
      have hl := lookup_of_search hs2 he2
      rw [lookup_self hinv.names he] at hl
      cases hl
      exact hb2
    refine ⟨?_, ?_, hthird⟩
    · rw [hout3, hspec, List.map_map]
      apply List.map_congr_left
      intro p hp
      exact entry_line_assign p.1 p.2 (valid_pairs_no_comment (first_occ_subset _ _ p hp))
    · rw [write_wi_eq]
      have hperm := unknown_msgs_perm marked
      have hnil : marked.filter unknown_entry = [] := by
        rw [List.filter_eq_nil_iff]
        intro e he
        simp [unknown_entry, hset e he]
      rw [hnil] at hperm
      rw [List.Perm.eq_nil hperm]
      exact add_diags_nil halt _

/-! ## Concrete runs -/

/-- C1, instance of the theorem: a file with a comment line, two assignments and a
line without a value. -/
theorem C1_round_trip_witness :
    (valid_pairs ["; header".toList, "dt = 0.002 ; ps".toList, "nsteps=".toList,
        " tinit  =  0".toList]).Pairwise (fun a b => gmx_strcasecmp_min a.1 b.1 ≠ 0) ∧
    (write_inpfile
        (((read_inpfile ["; header".toList, "dt = 0.002 ; ps".toList, "nsteps=".toList,
            " tinit  =  0".toList] wi0).1.map (fun e => e.name)).foldl mark_einp_set
          (read_inpfile ["; header".toList, "dt = 0.002 ; ps".toList, "nsteps=".toList,
            " tinit  =  0".toList] wi0).1) true
        (read_inpfile ["; header".toList, "dt = 0.002 ; ps".toList, "nsteps=".toList,
            " tinit  =  0".toList] wi0).2).out =
      ["dt                       = 0.002\n".toList, "tinit                    = 0\n".toList] :=
  ⟨by decide,
    (C1_round_trip ["; header".toList, "dt = 0.002 ; ps".toList, "nsteps=".toList,
      " tinit  =  0".toList] wi0 true).1.trans (by decide)⟩

/-- C8, instance of the theorem: the file `a = 1`, `b = 2`, `c = 3` and the calls
`get_eint` for `c`, `get_estr` for the absent `x`, `get_eeenum` for `a`. -/
theorem C8_output_order_of_touched_witness :
    (read_inpfile ["a = 1".toList, "b = 2".toList, "c = 3".toList] wi0).1 ≠ [] ∧
    ([accessor_call.eint "c".toList 0 junk0, accessor_call.estr "x".toList (some "y".toList) junk0,
        accessor_call.eeenum "a".toList "1".toList ["2".toList] true junk0].map call_name).Pairwise
      (fun a b => gmx_strcasecmp_min a b ≠ 0) ∧
    (∃ s, run_calls ⟨(read_inpfile ["a = 1".toList, "b = 2".toList, "c = 3".toList] wi0).1,
          (read_inpfile ["a = 1".toList, "b = 2".toList, "c = 3".toList] wi0).2, []⟩
        [accessor_call.eint "c".toList 0 junk0, accessor_call.estr "x".toList (some "y".toList) junk0,
          accessor_call.eeenum "a".toList "1".toList ["2".toList] true junk0] = some s ∧
      (write_inpfile s.inp false s.wi).out.length = 3) ∧
    (run_calls ⟨(read_inpfile ["a = 1".toList, "b = 2".toList, "c = 3".toList] wi0).1,
          (read_inpfile ["a = 1".toList, "b = 2".toList, "c = 3".toList] wi0).2, []⟩
        [accessor_call.eint "c".toList 0 junk0, accessor_call.estr "x".toList (some "y".toList) junk0,
          accessor_call.eeenum "a".toList "1".toList ["2".toList] true junk0]).map
        (fun s => (write_inpfile s.inp false s.wi).out) =
      some ["c                        = 3\n".toList, "x                        = y\n".toList,
        "a                        = 1\n".toList] := by
  refine ⟨by decide, by decide, ?_, by decide⟩
  obtain ⟨s, h1, _, _, h4⟩ := C8_output_order_of_touched
    ["a = 1".toList, "b = 2".toList, "c = 3".toList] wi0
    [accessor_call.eint "c".toList 0 junk0, accessor_call.estr "x".toList (some "y".toList) junk0,
      accessor_call.eeenum "a".toList "1".toList ["2".toList] true junk0] false
    (by decide) (by decide)
  exact ⟨s, h1, h4⟩

/-- C10, instance of the theorem: the store read from `nstlog = 5`, never touched. -/
theorem C10_unknown_key_escalation_witness :
    wi0.errors = [] ∧
    (write_inpfile [new_item "nstlog".toList "5".toList] true wi0).fatal = true ∧
    (write_inpfile [new_item "nstlog".toList "5".toList] false wi0).fatal = false :=
  ⟨rfl,
    ((C10_unknown_key_escalation [new_item "nstlog".toList "5".toList] wi0).2.1 rfl).1.2
      ⟨new_item "nstlog".toList "5".toList, List.mem_singleton_self _, rfl, rfl⟩,
    ((C10_unknown_key_escalation [new_item "nstlog".toList "5".toList] wi0).2.1 rfl).2⟩

/-- C9, the code at the failing input: after reading `a = 1`, `b = 2` and one
`get_eint` for `b`, the entry `a` has access order 0 and `b` has 1; `sort_inp` gives
`a` the synthetic order 1, which is not greater than the access order of `b`, and the
sorted store keeps the never-accessed `a` in front of the accessed `b`. -/
theorem C9_sort_inp_seeds_at_max :
    (get_eint (read_inpfile ["a = 1".toList, "b = 2".toList] wi0).1 "b".toList 0 wi0 junk0).map
        (fun r => r.2.1.map (fun e => (e.name, e.count))) =
      some [("a".toList, 0), ("b".toList, 1)] ∧
    (get_eint (read_inpfile ["a = 1".toList, "b = 2".toList] wi0).1 "b".toList 0 wi0 junk0).map
        (fun r => (max_count r.2.1,
          (renumber (max_count r.2.1) r.2.1).map (fun e => (e.name, e.count)))) =
      some (1, [("a".toList, 1), ("b".toList, 1)]) ∧
    (get_eint (read_inpfile ["a = 1".toList, "b = 2".toList] wi0).1 "b".toList 0 wi0 junk0).map
        (fun r => (sort_inp r.2.1).map (fun e => (e.name, e.bSet, e.count))) =
      some [("a".toList, false, 1), ("b".toList, true, 1)] := by
  decide

/-! ## `search_einp` as a function -/

theorem search_loop_eq_some_iff (n : CStr) (inp : List t_inpfile) (i : Nat) :
    search_loop n inp = some i ↔
      ∃ e, inp[i]? = some e ∧ gmx_strcasecmp_min n e.name = 0 ∧
        ∀ (j : Nat) (e2 : t_inpfile), j < i → inp[j]? = some e2 →
          gmx_strcasecmp_min n e2.name ≠ 0 := by
  constructor
  · exact search_loop_some
  · rintro ⟨e, he, hm, hlt⟩
    cases hs : search_loop n inp with
    | none => exact absurd hm ((search_loop_none_iff n inp).1 hs e (List.getElem?_mem he))
    | some k =>
      obtain ⟨e1, he1, hm1, hlt1⟩ := search_loop_some hs
      rcases Nat.lt_trichotomy k i with h | h | h
      · exact absurd hm1 (hlt k e1 h he1)
      · rw [h]
      · exact absurd hm (hlt1 i e h he)

/-- C15: `search_einp` returns -1 for a null or empty store; on a store it returns -1
exactly when no entry name matches the requested name, and otherwise the smallest
index whose entry name matches.  The function only reads the store. -/
theorem C15_search_einp (inp : List t_inpfile) (name : CStr) :
    search_einp none name = -1 ∧ search_einp (some []) name = -1 ∧
    (search_einp (some inp) name = -1 ↔ ∀ e ∈ inp, gmx_strcasecmp_min name e.name ≠ 0) ∧
    (∀ i : Nat, search_einp (some inp) name = (i : Int) ↔
      ∃ e, inp[i]? = some e ∧ gmx_strcasecmp_min name e.name = 0 ∧
        ∀ (j : Nat) (e2 : t_inpfile), j < i → inp[j]? = some e2 →
          gmx_strcasecmp_min name e2.name ≠ 0) ∧
    (search_einp (some inp) name = -1 ∨
      ∃ i : Nat, i < inp.length ∧ search_einp (some inp) name = (i : Int)) := by
  refine ⟨rfl, rfl, ?_, ?_, ?_⟩
  · rw [← search_loop_none_iff]
    cases hs : search_loop name inp with
    | none => simp [search_einp, hs]
    | some k =>
      simp only [search_einp, hs]
      constructor
      · intro h; omega
      · intro h; cases h
  · intro i
    rw [← search_loop_eq_some_iff]
    cases hs : search_loop name inp with
    | none =>
      simp only [search_einp, hs]
      constructor
      · intro h; omega
      · intro h; cases h
    | some k =>
      simp only [search_einp, hs, Option.some.injEq]
      constructor
      · intro h; omega
      · intro h; rw [h]
  · cases hs : search_loop name inp with
    | none => left; simp [search_einp, hs]
    | some k =>
      right
      obtain ⟨e, he, _, _⟩ := search_loop_some hs
      exact ⟨k, (List.getElem?_eq_some.1 he).1, by simp [search_einp, hs]⟩

/-- C15, instance of the theorem: the name `B` in a store with the names `a`, `b`,
`B`. -/
theorem C15_search_einp_witness :
    search_einp (some [new_item "a".toList "1".toList, new_item "b".toList "2".toList,
      new_item "B".toList "3".toList]) "B".toList = 1 ∧
    search_einp (some [new_item "a".toList "1".toList]) "z".toList = -1 :=
  ⟨((C15_search_einp [new_item "a".toList "1".toList, new_item "b".toList "2".toList,
      new_item "B".toList "3".toList] "B".toList).2.2.2.1 1).2
      ⟨new_item "b".toList "2".toList, by decide, by decide, fun j e2 hj h => by
        have hj0 : j = 0 := by omega
        subst hj0
        simp only [List.getElem?_cons_zero, Option.some.injEq] at h
        subst h
        decide⟩,
    (C15_search_einp [new_item "a".toList "1".toList] "z".toList).2.2.1.2 (by decide)⟩

/-! ## `replace_inp_entry` -/

theorem replace_getElem? (inp : List t_inpfile) (old_entry : CStr) (new_entry : Option CStr)
    (i : Nat) :
    (replace_inp_entry inp old_entry new_entry).1[i]? =
      (inp[i]?).map (fun e => (replace_step old_entry new_entry e).1) := by
  simp [replace_inp_entry]

/-- C12: `replace_inp_entry` keeps the number and the order of the entries.  With a
replacement name every entry whose name matches the old name gets exactly that name
and keeps all other fields, and every other entry is unchanged; without one every
matching entry gets `bObsolete` true and keeps all other fields, and every other entry
is unchanged. -/
theorem C12_frame_of_replace (inp : List t_inpfile) (old_entry new_entry : CStr) :
    (replace_inp_entry inp old_entry (some new_entry)).1.length = inp.length ∧
    (∀ (i : Nat) (e : t_inpfile), inp[i]? = some e → gmx_strcasecmp_min old_entry e.name = 0 →
      (replace_inp_entry inp old_entry (some new_entry)).1[i]? =
        some { e with name := new_entry }) ∧
    (∀ (i : Nat) (e : t_inpfile), inp[i]? = some e → gmx_strcasecmp_min old_entry e.name ≠ 0 →
      (replace_inp_entry inp old_entry (some new_entry)).1[i]? = some e) ∧
    (replace_inp_entry inp old_entry none).1.length = inp.length ∧
    (∀ (i : Nat) (e : t_inpfile), inp[i]? = some e → gmx_strcasecmp_min old_entry e.name = 0 →
      (replace_inp_entry inp old_entry none).1[i]? = some { e with bObsolete := true }) ∧
    (∀ (i : Nat) (e : t_inpfile), inp[i]? = some e → gmx_strcasecmp_min old_entry e.name ≠ 0 →
      (replace_inp_entry inp old_entry none).1[i]? = some e) := by
  refine ⟨by simp [replace_inp_entry], ?_, ?_, by simp [replace_inp_entry], ?_, ?_⟩
  · intro i e he hm
    rw [replace_getElem?, he]
    simp [replace_step, hm]
  · intro i e he hm
    rw [replace_getElem?, he]
    simp [replace_step, hm]
  · intro i e he hm
    rw [replace_getElem?, he]
    simp [replace_step, hm]
  · intro i e he hm
    rw [replace_getElem?, he]
    simp [replace_step, hm]

/-- C12, instance of the theorem: renaming `nstcheckpoint` in a store of two
entries, of which the second was set with access order 4. -/
theorem C12_frame_of_replace_witness :
    (replace_inp_entry [new_item "title".toList "x".toList,
        { new_item "NstCheckpoint".toList "5".toList with bSet := true, count := 4 }]
        "nstcheckpoint".toList (some "nstcalc".toList)).1 =
      [new_item "title".toList "x".toList,
        { new_item "nstcalc".toList "5".toList with bSet := true, count := 4 }] := by
  have h := C12_frame_of_replace [new_item "title".toList "x".toList,
    { new_item "NstCheckpoint".toList "5".toList with bSet := true, count := 4 }]
    "nstcheckpoint".toList "nstcalc".toList
  apply List.ext_getElem?
  intro i
  match i with
  | 0 => exact (h.2.2.1 0 _ rfl (by decide)).trans rfl
  | 1 => exact (h.2.1 1 _ rfl (by decide)).trans rfl
  | k + 2 => simp [replace_inp_entry]

theorem unknown_msg_inj {a b : CStr} (h : unknown_msg a = unknown_msg b) : a = b := by
  unfold unknown_msg at h
  rw [List.append_assoc, List.append_assoc] at h
  exact List.append_cancel_right (List.append_cancel_left h)

theorem mem_replace_none {inp : List t_inpfile} {name : CStr} {e : t_inpfile}
    (h : e ∈ (replace_inp_entry inp name none).1) :
    ∃ e0 ∈ inp, (gmx_strcasecmp_min name e0.name = 0 ∧ e = { e0 with bObsolete := true }) ∨
      (gmx_strcasecmp_min name e0.name ≠ 0 ∧ e = e0) := by
  simp only [replace_inp_entry, List.mem_map] at h
  obtain ⟨e0, he0, rfl⟩ := h
  refine ⟨e0, he0, ?_⟩
  by_cases hm : gmx_strcasecmp_min name e0.name = 0
  · left; simp [replace_step, hm]
  · right; simp [replace_step, hm]

theorem replace_none_unknown (inp : List t_inpfile) (name : CStr) :
    (((replace_inp_entry inp name none).1.filter unknown_entry).map
        (fun e => unknown_msg e.name)) =
      (inp.filter (fun e => unknown_entry e && decide (gmx_strcasecmp_min name e.name ≠ 0))).map
        (fun e => unknown_msg e.name) := by
  induction inp with
  | nil => simp [replace_inp_entry]
  | cons e r ih =>
    simp only [replace_inp_entry, List.map_cons] at ih ⊢
    by_cases hm : gmx_strcasecmp_min name e.name = 0
    · simp only [replace_step, hm, if_true, List.filter_cons, unknown_entry, Bool.not_true,
        Bool.and_false, ne_eq, not_true_eq_false, decide_False]
      exact ih
    · simp only [replace_step, hm, if_false, List.filter_cons, ne_eq, not_false_eq_true,
        decide_True, Bool.and_true]
      split_ifs
      · simp only [List.map_cons, List.cons.injEq, true_and]; exact ih
      · exact ih

theorem replace_none_set (inp : List t_inpfile) (name : CStr) :
    (((replace_inp_entry inp name none).1.filter (fun e => e.bSet)).map entry_line) =
      (inp.filter (fun e => e.bSet)).map entry_line := by
  induction inp with
  | nil => simp [replace_inp_entry]
  | cons e r ih =>
    simp only [replace_inp_entry, List.map_cons] at ih ⊢
    by_cases hm : gmx_strcasecmp_min name e.name = 0
    · simp only [replace_step, hm, if_true, List.filter_cons]
      split_ifs
      · simp only [List.map_cons, List.cons.injEq]; exact ⟨rfl, ih⟩
      · exact ih
    · simp only [replace_step, hm, if_false, List.filter_cons]
      split_ifs
      · simp only [List.map_cons, List.cons.injEq, true_and]; exact ih
      · exact ih

/-- C11: after `replace_inp_entry` without a replacement name every entry matching
the name is obsolete; for such an entry the entry loop of `write_inpfile` leaves the
sink as it was and, when the entry is not set, writes nothing.  The diagnostics that
the following `write_inpfile` records are, up to order, those of the entries that are
neither set nor obsolete and do not match the name, so none of them is the diagnostic
of a matching entry; the lines written are, up to order, those of the set entries. -/
theorem C11_obsolete_migration (inp : List t_inpfile) (name : CStr) (halt : Bool)
    (wi : warninp) :
    (∀ e ∈ (replace_inp_entry inp name none).1, gmx_strcasecmp_min name e.name = 0 →
      e.bObsolete = true ∧
      (∀ st : List CStr × warninp, (write_step halt st e).2 = st.2) ∧
      (e.bSet = false → ∀ st : List CStr × warninp, write_step halt st e = st)) ∧
    (∃ msgs : List CStr,
      (write_inpfile (replace_inp_entry inp name none).1 halt wi).wi = add_diags halt wi msgs ∧
      msgs.Perm ((inp.filter (fun e => !e.bSet && !e.bObsolete &&
        decide (gmx_strcasecmp_min name e.name ≠ 0))).map (fun e => unknown_msg e.name)) ∧
      ∀ e ∈ (replace_inp_entry inp name none).1, gmx_strcasecmp_min name e.name = 0 →
        unknown_msg e.name ∉ msgs) ∧
    (write_inpfile (replace_inp_entry inp name none).1 halt wi).out.Perm
      ((inp.filter (fun e => e.bSet)).map entry_line) := by
  have hobs : ∀ e ∈ (replace_inp_entry inp name none).1,
      gmx_strcasecmp_min name e.name = 0 → e.bObsolete = true := by
    intro e he hm
    obtain ⟨e0, _, h | h⟩ := mem_replace_none he
    · rw [h.2]
    · rw [h.2] at hm; exact absurd hm h.1
  have hperm : (((sort_inp (replace_inp_entry inp name none).1).filter unknown_entry).map
      (fun e => unknown_msg e.name)).Perm
      ((inp.filter (fun e => !e.bSet && !e.bObsolete &&
        decide (gmx_strcasecmp_min name e.name ≠ 0))).map (fun e => unknown_msg e.name)) := by
    have h := unknown_msgs_perm (replace_inp_entry inp name none).1
    rw [replace_none_unknown] at h
    exact h
  refine ⟨?_, ⟨_, write_wi_eq _ halt wi, hperm, ?_⟩, ?_⟩
  · intro e he hm
    have ho := hobs e he hm
    refine ⟨ho, ?_, ?_⟩
    · intro st
      cases hb : e.bSet <;> simp [write_step, hb, ho]
    · intro hb st
      simp [write_step, hb, ho]
  · intro e he hm hmem
    have h2 := hperm.subset hmem
    obtain ⟨e2, he2, heq⟩ := List.mem_map.1 h2
    have hname := unknown_msg_inj heq
    have hf := (List.mem_filter.1 he2).2
    simp only [Bool.and_eq_true, decide_eq_true_eq] at hf
    rw [hname] at hf
    exact hf.2 hm
  · have h := write_out_perm (replace_inp_entry inp name none).1 halt wi
    rw [replace_none_set] at h
    exact h

/-- C11, instance of the theorem: the store read from `cpp = x` and `dt = 1`, with
`cpp` made obsolete, written in the strict mode. -/
theorem C11_obsolete_migration_witness :
    (replace_inp_entry (read_inpfile ["cpp = x".toList, "dt = 1".toList] wi0).1
      "CPP".toList none).1.map (fun e => (e.name, e.bObsolete)) =
      [("cpp".toList, true), ("dt".toList, false)] ∧
    (write_inpfile (replace_inp_entry (read_inpfile ["cpp = x".toList, "dt = 1".toList] wi0).1
      "CPP".toList none).1 true wi0).wi.errors = [unknown_msg "dt".toList] ∧
    (write_inpfile (replace_inp_entry (read_inpfile ["cpp = x".toList, "dt = 1".toList] wi0).1
      "CPP".toList none).1 true wi0).out.Perm [] :=
  ⟨by decide, by decide,
    (C11_obsolete_migration (read_inpfile ["cpp = x".toList, "dt = 1".toList] wi0).1
      "CPP".toList true wi0).2.2.trans (by decide)⟩

/-! ## The comment rule of the writer -/

theorem comment_name_iff (name : CStr) :
    comment_name name = true ↔
      name[0]? = some ';' ∨ (2 < name.length ∧ name[1]? = some ';') := by
  simp [comment_name]

/-- C14 (amended): for a set entry the entry loop of `write_inpfile` writes exactly one
text and records nothing.  The text is the bare padded name exactly when the name
begins with `;` or is longer than two characters and has `;` in second place;
otherwise it is the padded name, ` = ` and the value, an absent value printed as the
empty string.  The two forms never coincide, and `write_inpfile` writes the text of
every set entry of a store. -/
theorem C14_comment_as_key (e : t_inpfile) (hs : e.bSet = true) :
    (∀ (halt : Bool) (st : List CStr × warninp),
      write_step halt st e = (st.1 ++ [entry_line e], st.2)) ∧
    ((e.name[0]? = some ';' ∨ (2 < e.name.length ∧ e.name[1]? = some ';')) →
      entry_line e = pad24 e.name ++ "\n".toList) ∧
    (¬ (e.name[0]? = some ';' ∨ (2 < e.name.length ∧ e.name[1]? = some ';')) →
      entry_line e = pad24 e.name ++ " = ".toList ++ e.value.getD [] ++ "\n".toList) ∧
    (∀ v : CStr, pad24 e.name ++ "\n".toList ≠
      pad24 e.name ++ " = ".toList ++ v ++ "\n".toList) ∧
    (∀ (inp : List t_inpfile) (halt : Bool) (wi : warninp), e ∈ inp →
      entry_line e ∈ (write_inpfile inp halt wi).out) := by
  refine ⟨?_, ?_, ?_, ?_, ?_⟩
  · intro halt st
    simp [write_step, hs]
  · intro h
    simp only [entry_line, h, if_true]
  · intro h
    simp only [entry_line, h, if_false]
    cases e.value <;> rfl
  · intro v h
    rw [List.append_assoc, List.append_assoc] at h
    have h2 := List.append_cancel_left h
    simp at h2
  · intro inp halt wi he
    exact mem_write_out he hs halt wi

/-- C14, instance of the theorem: the set entry `a;b`, whose name does not begin with
`;`, is written as the bare name. -/
theorem C14_comment_as_key_witness :
    entry_line { new_item "a;b".toList "v".toList with bSet := true } =
      "a;b                     \n".toList :=
  ((C14_comment_as_key { new_item "a;b".toList "v".toList with bSet := true } rfl).2.1
    (by decide)).trans (by decide)

/-- C14, the claim as stated fails: `get_estr` for the absent name `a;b` with the
default `v` creates a set entry whose name does not begin with `;`; `write_inpfile`
writes it as the bare name, not as `name = value`. -/
theorem C14_counterexample :
    "a;b".toList[0]? ≠ some ';' ∧
    lookup (get_estr (read_inpfile ["x = 1".toList] wi0).1 "a;b".toList (some "v".toList)
        junk0).2 "a;b".toList =
      some { count := 1, bObsolete := false, bSet := true, name := "a;b".toList,
             value := some "v".toList, inp_count := 0 } ∧
    (write_inpfile (get_estr (read_inpfile ["x = 1".toList] wi0).1 "a;b".toList
        (some "v".toList) junk0).2 false wi0).out = ["a;b                     \n".toList] := by
  decide

/-! ## Decimal rendering and parsing back -/

theorem digitChar_facts (m : Nat) (h : m < 10) :
    isdigit (Nat.digitChar m) = true ∧ (Nat.digitChar m).toNat - 48 = m := by
  interval_cases m <;> decide

theorem digits_val_append (l : CStr) (d : Char) :
    digits_val (l ++ [d]) = 10 * digits_val l + (d.toNat - 48) := by
  simp [digits_val, List.foldl_append]

theorem toDigitsCore_spec (fuel : Nat) : ∀ (n : Nat) (ds : CStr), n < fuel →
    ∃ l : CStr, Nat.toDigitsCore 10 fuel n ds = l ++ ds ∧ l ≠ [] ∧
      (∀ c ∈ l, isdigit c = true) ∧ digits_val l = n := by
  induction fuel with
  | zero => intro n ds h; omega
  | succ fuel ih =>
    intro n ds h
    obtain ⟨hd1, hd2⟩ := digitChar_facts (n % 10) (Nat.mod_lt _ (by omega))
    by_cases h0 : n / 10 = 0
    · refine ⟨[Nat.digitChar (n % 10)], ?_, by simp, ?_, ?_⟩
      · simp [Nat.toDigitsCore, h0]
      · intro c hc
        rw [List.mem_singleton.1 hc]
        exact hd1
      · have : digits_val [Nat.digitChar (n % 10)] = (Nat.digitChar (n % 10)).toNat - 48 := by
          simp [digits_val]
        rw [this, hd2]
        omega
    · have hlt : n / 10 < fuel := by omega
      obtain ⟨l, hl, _, hdig, hval⟩ := ih (n / 10) (Nat.digitChar (n % 10) :: ds) hlt
      refine ⟨l ++ [Nat.digitChar (n % 10)], ?_, by simp, ?_, ?_⟩
      · simp [Nat.toDigitsCore, h0, hl]
      · intro c hc
        rcases List.mem_append.1 hc with h1 | h1
        · exact hdig c h1
        · rw [List.mem_singleton.1 h1]
          exact hd1
      · rw [digits_val_append, hval, hd2]
        omega

theorem toDigits_spec (n : Nat) :
    Nat.toDigits 10 n ≠ [] ∧ (∀ c ∈ Nat.toDigits 10 n, isdigit c = true) ∧
    digits_val (Nat.toDigits 10 n) = n := by
  obtain ⟨l, hl, hne, hdig, hval⟩ := toDigitsCore_spec (n + 1) n [] (by omega)
  have : Nat.toDigits 10 n = l := by
    simp [Nat.toDigits, hl]
  rw [this]
  exact ⟨hne, hdig, hval⟩

theorem strtol_fmt_d (d : Int) (h1 : -(2 ^ 31) ≤ d) (h2 : d ≤ 2 ^ 31 - 1) :
    long_to_int (strtol (fmt_d d)).1 = d ∧ (strtol (fmt_d d)).2 = [] := by
  obtain ⟨hne, hdig, hval⟩ := toDigits_spec d.natAbs
  by_cases hneg : d < 0
  · have hform : fmt_d d = [] ++ (['-'] ++ (Nat.toDigits 10 d.natAbs ++ [])) := by
      simp [fmt_d, hneg]
    have hs := strtol_digits [] ['-'] (Nat.toDigits 10 d.natAbs) [] (by simp)
      (Or.inr (Or.inr rfl)) hne hdig (by simp)
    rw [hform, hs]
    simp only [if_true, hval]
    have hd : -((d.natAbs : Nat) : Int) = d := by omega
    rw [hd]
    exact ⟨long_to_int_fits d h1 h2, trivial⟩
  · have hform : fmt_d d = [] ++ ([] ++ (Nat.toDigits 10 d.natAbs ++ [])) := by
      simp [fmt_d, hneg]
    have hs := strtol_digits [] [] (Nat.toDigits 10 d.natAbs) [] (by simp)
      (Or.inl rfl) hne hdig (by simp)
    rw [hform, hs]
    have hsg : ¬ (([] : CStr) = ['-']) := by simp
    simp only [hsg, if_false, hval]
    have hd : ((d.natAbs : Nat) : Int) = d := by omega
    rw [hd]
    exact ⟨long_to_int_fits d h1 h2, trivial⟩

/-! ## Asking twice for the same name -/

theorem get_eeenum_fallback (inp : List t_inpfile) (name d0 : CStr) (ds : List CStr)
    (wi : Option warninp) (junk : t_inpfile) (i : Nat) (e : t_inpfile) (v : CStr)
    (h : search_loop name inp = some i) (he : inp[i]? = some e) (hv : e.value = some v)
    (hall : ∀ d ∈ d0 :: ds, gmx_strcasecmp_min d v ≠ 0) :
    get_eeenum inp name (d0 :: ds) wi junk =
      some { ret := 0,
             inp := upd (touch inp i) i (fun x => { x with value := some d0 }),
             wi := wi.map (fun w => warning_error w (enum_msg v name d0 (d0 :: ds))),
             err := match wi with
               | some _ => []
               | none => [enum_msg v name d0 (d0 :: ds) ++ "\n".toList] } := by
  have hloop := (enum_loop_none_iff v (d0 :: ds)).2 hall
  simp only [get_eeenum, get_einp_hit h, getElem?_touch, he, Option.map_some', touched,
    hv, hloop]

theorem miss_store_facts (inp : List t_inpfile) (name : CStr) (junk : t_inpfile)
    (w : Option CStr) (hs : search_loop name inp = none) :
    search_loop name (upd (touch (inp ++ [{ junk with name := name, bSet := true }]) inp.length)
      inp.length (fun e => { e with value := w })) = some inp.length ∧
    ∃ e, (upd (touch (inp ++ [{ junk with name := name, bSet := true }]) inp.length)
      inp.length (fun e => { e with value := w }))[inp.length]? = some e ∧ e.value = w ∧
      e.name = name ∧
      e.count = head_count (inp ++ [{ junk with name := name, bSet := true }]) := by
  constructor
  · rw [search_loop_congr name _ (inp ++ [{ junk with name := name, bSet := true }])]
    · exact search_append_self hs _ rfl
    · rw [map_upd (fun e => e.name) (fun e => { e with value := w }) (fun _ => rfl)]
      exact map_touch (fun e => e.name) (fun _ _ _ _ => rfl) _ _
  · rw [getElem?_upd, getElem?_touch, List.getElem?_concat_length]
    simp [touched]

theorem get_eint_miss {inp : List t_inpfile} {name : CStr} (hs : search_loop name inp = none)
    (dflt : Int) (wi : warninp) (junk : t_inpfile) :
    get_eint inp name dflt wi junk =
      some (dflt, upd (touch (inp ++ [{ junk with name := name, bSet := true }]) inp.length)
        inp.length (fun e => { e with value := some (fmt_d dflt) }), wi) := by
  simp [get_eint, get_einp_miss hs, length_touch]

theorem get_eeenum_miss {inp : List t_inpfile} {name : CStr} (hs : search_loop name inp = none)
    (d0 : CStr) (ds : List CStr) (wi : Option warninp) (junk : t_inpfile) :
    get_eeenum inp name (d0 :: ds) wi junk =
      some { ret := 0,
             inp := upd (touch (inp ++ [{ junk with name := name, bSet := true }]) inp.length)
               inp.length (fun e => { e with value := some d0 }),
             wi := wi, err := [] } := by
  simp [get_eeenum, get_einp_miss hs, length_touch]

theorem get_eeenum_first {inp : List t_inpfile} {name d0 : CStr} {i : Nat} {e : t_inpfile}
    (hs : search_loop name inp = some i) (he : inp[i]? = some e) (hv : e.value = some d0)
    (ds : List CStr) (wi : Option warninp) (junk : t_inpfile) :
    get_eeenum inp name (d0 :: ds) wi junk =
      some { ret := 0, inp := touch inp i, wi := wi, err := [] } := by
  have hloop : enum_loop d0 (d0 :: ds) = some 0 := by simp [enum_loop, cmp_refl]
  simp only [get_eeenum, get_einp_hit hs, getElem?_touch, he, Option.map_some', touched, hv,
    hloop]
  rfl

/-- C20: on a non-empty store without a match for the name and for a default in the
range of a 32-bit `int`, two calls of `get_eint` in a row both return the default; the
second call leaves the sink as it was and changes neither the number of entries nor
any name or value.  After `get_eeenum` has stored `defs[0]`, because the name was
absent or because the value matched no element, a second `get_eeenum` with the same
name and list returns 0, records nothing and changes no name and no value. -/
theorem C20_reread_default :
    (∀ (inp : List t_inpfile) (name : CStr) (dflt : Int) (wi : warninp)
        (junk junk2 : t_inpfile),
      inp ≠ [] → (∀ e ∈ inp, gmx_strcasecmp_min name e.name ≠ 0) →
      -(2 ^ 31) ≤ dflt → dflt ≤ 2 ^ 31 - 1 →
      ∃ inp1 inp2 : List t_inpfile,
        get_eint inp name dflt wi junk = some (dflt, inp1, wi) ∧
        get_eint inp1 name dflt wi junk2 = some (dflt, inp2, wi) ∧
        inp2.length = inp1.length ∧
        inp2.map (fun x => (x.name, x.value)) = inp1.map (fun x => (x.name, x.value))) ∧
    (∀ (inp : List t_inpfile) (name d0 : CStr) (ds : List CStr) (wi wi2 : Option warninp)
        (junk junk2 : t_inpfile),
      (search_loop name inp = none ∨
        ∃ (i : Nat) (e : t_inpfile) (v : CStr), search_loop name inp = some i ∧
          inp[i]? = some e ∧ e.value = some v ∧
          ∀ d ∈ d0 :: ds, gmx_strcasecmp_min d v ≠ 0) →
      ∃ r1 r2 : enum_result,
        get_eeenum inp name (d0 :: ds) wi junk = some r1 ∧ r1.ret = 0 ∧
        (lookup r1.inp name).map (fun x => x.value) = some (some d0) ∧
        get_eeenum r1.inp name (d0 :: ds) wi2 junk2 = some r2 ∧ r2.ret = 0 ∧
        r2.wi = wi2 ∧ r2.err = [] ∧
        r2.inp.map (fun x => (x.name, x.value)) = r1.inp.map (fun x => (x.name, x.value))) := by
  constructor
  · intro inp name dflt wi junk junk2 _ hmiss h1 h2
    have hs := (search_loop_none_iff name inp).2 hmiss
    obtain ⟨hs1, e, he, hv, _⟩ := miss_store_facts inp name junk (some (fmt_d dflt)) hs
    obtain ⟨hr1, hr2⟩ := strtol_fmt_d dflt h1 h2
    have hsecond := get_eint_hit hs1 he hv dflt wi junk2
    rw [hr1, hr2] at hsecond
    simp only [ne_eq, not_true_eq_false, if_false] at hsecond
    exact ⟨_, _, get_eint_miss hs dflt wi junk, hsecond, length_touch _ _,
      map_touch (fun x => (x.name, x.value)) (fun _ _ _ _ => rfl) _ _⟩
  · intro inp name d0 ds wi wi2 junk junk2 hcase
    rcases hcase with hs | ⟨i, e, v, hs, he, hv, hall⟩
    · obtain ⟨hs1, e1, he1, hv1, _⟩ := miss_store_facts inp name junk (some d0) hs
      refine ⟨_, _, get_eeenum_miss hs d0 ds wi junk, rfl, ?_,
        get_eeenum_first hs1 he1 hv1 ds wi2 junk2, rfl, rfl, rfl, ?_⟩
      · simp [lookup, hs1, he1, hv1]
      · exact map_touch (fun x => (x.name, x.value)) (fun _ _ _ _ => rfl) _ _
    · have hfirst := (get_eeenum_fallback inp name d0 ds wi junk i e v hs he hv hall)
      have hs1 : search_loop name (upd (touch inp i) i (fun x => { x with value := some d0 })) =
          some i := by
        rw [search_loop_congr name _ inp]
        · exact hs
        · rw [map_upd (fun e => e.name) (fun x => { x with value := some d0 }) (fun _ => rfl)]
          exact map_touch (fun e => e.name) (fun _ _ _ _ => rfl) _ _
      have he1 : (upd (touch inp i) i (fun x => { x with value := some d0 }))[i]? =
          some { touched (head_count inp) i i e with value := some d0 } := by
        rw [getElem?_upd, getElem?_touch, he]
        simp
      refine ⟨_, _, hfirst, rfl, ?_, get_eeenum_first hs1 he1 rfl ds wi2 junk2, rfl, rfl, rfl, ?_⟩
      · simp [lookup, hs1, he1]
      · exact map_touch (fun x => (x.name, x.value)) (fun _ _ _ _ => rfl) _ _

/-! ## The shape of the store after an operation -/

theorem get_eint64_miss {inp : List t_inpfile} {name : CStr} (hs : search_loop name inp = none)
    (dflt : Int) (wi : warninp) (junk : t_inpfile) :
    get_eint64 inp name dflt wi junk =
      some (dflt, upd (touch (inp ++ [{ junk with name := name, bSet := true }]) inp.length)
        inp.length (fun e => { e with value := some (fmt_d dflt) }), wi) := by
  simp [get_eint64, get_einp_miss hs, length_touch]

theorem get_estr_miss {inp : List t_inpfile} {name : CStr} (hs : search_loop name inp = none)
    (dflt : Option CStr) (junk : t_inpfile) :
    (get_estr inp name dflt junk).2 =
      upd (touch (inp ++ [{ junk with name := name, bSet := true }]) inp.length)
        inp.length (fun e => { e with value := dflt }) := by
  simp [get_estr, get_einp_miss hs, length_touch]

theorem get_estr_hit {inp : List t_inpfile} {name : CStr} {i : Nat}
    (hs : search_loop name inp = some i) (dflt : Option CStr) (junk : t_inpfile) :
    (get_estr inp name dflt junk).2 = touch inp i := by
  simp only [get_estr, get_einp_hit hs]
  cases (touch inp i)[i]? <;> rfl

theorem run_op_shape {s s2 : session} {op : store_op} {n : CStr} {junk : t_inpfile}
    {w : Option CStr} {fb : Bool} (h : run_op s op = some s2)
    (ht : op_touch op = some (n, junk, w, fb)) :
    (∃ i, search_loop n s.inp = some i ∧
      (s2.inp = touch s.inp i ∨
        (fb = true ∧ s2.inp = upd (touch s.inp i) i (fun e => { e with value := w })))) ∨
    (search_loop n s.inp = none ∧
      s2.inp = upd (touch (s.inp ++ [{ junk with name := n, bSet := true }]) s.inp.length)
        s.inp.length (fun e => { e with value := w })) := by
  cases op with
  | mark name => simp [op_touch] at ht
  | replace o nw => simp [op_touch] at ht
  | eint64 name dflt jk =>
    simp only [op_touch, Option.some.injEq, Prod.mk.injEq] at ht
    obtain ⟨rfl, rfl, rfl, rfl⟩ := ht
    cases hs : search_loop name s.inp with
    | none =>
      right
      simp only [run_op, get_eint64_miss hs, Option.map_some', Option.some.injEq] at h
      exact ⟨rfl, by rw [← h]⟩
    | some i =>
      left
      refine ⟨i, rfl, Or.inl ?_⟩
      simp only [run_op, get_eint64, get_einp_hit hs] at h
      cases he : (touch s.inp i)[i]? with
      | none => simp [he] at h
      | some e =>
        simp only [he] at h
        cases hv : e.value with
        | none => simp [hv] at h
        | some v =>
          simp only [hv] at h
          simp only [Option.map_some', Option.some.injEq] at h
          rw [← h]
  | call c =>
    cases c with
    | eint name dflt jk =>
      simp only [op_touch, Option.some.injEq, Prod.mk.injEq] at ht
      obtain ⟨rfl, rfl, rfl, rfl⟩ := ht
      cases hs : search_loop name s.inp with
      | none =>
        right
        simp only [run_op, run_call, get_eint_miss hs, Option.map_some',
          Option.some.injEq] at h
        exact ⟨rfl, by rw [← h]⟩
      | some i =>
        left
        refine ⟨i, rfl, Or.inl ?_⟩
        simp only [run_op, run_call, get_eint, get_einp_hit hs] at h
        cases he : (touch s.inp i)[i]? with
        | none => simp [he] at h
        | some e =>
          simp only [he] at h
          cases hv : e.value with
          | none => simp [hv] at h
          | some v =>
            simp only [hv] at h
            simp only [Option.map_some', Option.some.injEq] at h
            rw [← h]
    | estr name dflt jk =>
      simp only [op_touch, Option.some.injEq, Prod.mk.injEq] at ht
      obtain ⟨rfl, rfl, rfl, rfl⟩ := ht
      simp only [run_op, run_call, Option.some.injEq] at h
      cases hs : search_loop name s.inp with
      | none =>
        right
        exact ⟨rfl, by rw [← h]; exact get_estr_miss hs _ _⟩
      | some i =>
        left
        exact ⟨i, rfl, Or.inl (by rw [← h]; exact get_estr_hit hs _ _)⟩
    | eeenum name d0 ds with_sink jk =>
      simp only [op_touch, Option.some.injEq, Prod.mk.injEq] at ht
      obtain ⟨rfl, rfl, rfl, rfl⟩ := ht
      cases hs : search_loop name s.inp with
      | none =>
        right
        simp only [run_op, run_call, get_eeenum_miss hs, Option.map_some',
          Option.some.injEq] at h
        exact ⟨rfl, by rw [← h]⟩
      | some i =>
        left
        refine ⟨i, rfl, ?_⟩
        simp only [run_op, run_call, get_eeenum, get_einp_hit hs] at h
        cases he : (touch s.inp i)[i]? with
        | none => simp [he] at h
        | some e =>
          simp only [he] at h
          cases hv : e.value with
          | none => simp [hv] at h
          | some v =>
            simp only [hv] at h
            cases hl : enum_loop v (d0 :: ds) with
            | some k =>
              simp only [hl] at h
              simp only [Option.map_some', Option.some.injEq] at h
              exact Or.inl (by rw [← h])
            | none =>
              simp only [hl] at h
              simp only [Option.map_some', Option.some.injEq] at h
              exact Or.inr ⟨rfl, by rw [← h]⟩

/-! ## Uniqueness of the names -/

theorem shape_names {s s2 : session} {op : store_op} {n : CStr} {junk : t_inpfile}
    {w : Option CStr} {fb : Bool} (h : run_op s op = some s2)
    (ht : op_touch op = some (n, junk, w, fb)) :
    s2.inp.map (fun e => e.name) = s.inp.map (fun e => e.name) ∨
    (search_loop n s.inp = none ∧
      s2.inp.map (fun e => e.name) = s.inp.map (fun e => e.name) ++ [n]) := by
  rcases run_op_shape h ht with ⟨i, _, h1 | ⟨_, h1⟩⟩ | ⟨hs, h1⟩
  · left
    rw [h1]
    exact map_touch (fun e => e.name) (fun _ _ _ _ => rfl) _ _
  · left
    rw [h1, map_upd (fun e => e.name) (fun e => { e with value := w }) (fun _ => rfl)]
    exact map_touch (fun e => e.name) (fun _ _ _ _ => rfl) _ _
  · right
    refine ⟨hs, ?_⟩
    rw [h1, map_upd (fun e => e.name) (fun e => { e with value := w }) (fun _ => rfl),
      map_touch (fun e => e.name) (fun _ _ _ _ => rfl)]
    simp

theorem mark_names (inp : List t_inpfile) (n : CStr) :
    (mark_einp_set inp n).map (fun e => e.name) = inp.map (fun e => e.name) := by
  unfold mark_einp_set
  cases search_loop n inp with
  | none => rfl
  | some i => exact map_touch (fun e => e.name) (fun _ _ _ _ => rfl) _ _

theorem replace_none_names (inp : List t_inpfile) (o : CStr) :
    (replace_inp_entry inp o none).1.map (fun e => e.name) = inp.map (fun e => e.name) := by
  simp only [replace_inp_entry, List.map_map]
  apply List.map_congr_left
  intro e _
  by_cases hm : gmx_strcasecmp_min o e.name = 0 <;> simp [replace_step, hm]

theorem replace_some_unique {inp : List t_inpfile} (o nw : CStr)
    (hu : (inp.map (fun e => e.name)).Pairwise (fun a b => gmx_strcasecmp_min b a ≠ 0))
    (hok : ∀ e ∈ inp, gmx_strcasecmp_min o e.name ≠ 0 → gmx_strcasecmp_min nw e.name ≠ 0) :
    ((replace_inp_entry inp o (some nw)).1.map (fun e => e.name)).Pairwise
      (fun a b => gmx_strcasecmp_min b a ≠ 0) := by
  simp only [replace_inp_entry, List.map_map]
  rw [List.pairwise_map]
  have hu2 := List.pairwise_map.1 hu
  refine List.Pairwise.imp_of_mem ?_ hu2
  intro a b ha hb hab
  by_cases hma : gmx_strcasecmp_min o a.name = 0 <;>
    by_cases hmb : gmx_strcasecmp_min o b.name = 0 <;>
    simp only [Function.comp_apply, replace_step, hma, hmb, if_true, if_false]
  · exact absurd (cmp_trans (cmp_symm hmb) hma) hab
  · exact fun hc => hok b hb hmb (cmp_symm hc)
  · exact hok a ha hma
  · exact hab

theorem run_op_unique {s s2 : session} {op : store_op}
    (hu : (s.inp.map (fun e => e.name)).Pairwise (fun a b => gmx_strcasecmp_min b a ≠ 0))
    (hok : rename_ok s.inp op = true) (h : run_op s op = some s2) :
    (s2.inp.map (fun e => e.name)).Pairwise (fun a b => gmx_strcasecmp_min b a ≠ 0) := by
  have haccess : ∀ (n : CStr) (junk : t_inpfile) (w : Option CStr) (fb : Bool),
      op_touch op = some (n, junk, w, fb) →
      (s2.inp.map (fun e => e.name)).Pairwise (fun a b => gmx_strcasecmp_min b a ≠ 0) := by
    intro n junk w fb ht
    rcases shape_names h ht with h1 | ⟨hs, h1⟩
    · rw [h1]; exact hu
    · rw [h1, List.pairwise_append]
      refine ⟨hu, by simp, ?_⟩
      intro a ha b hb
      simp only [List.mem_singleton] at hb
      obtain ⟨e, he, rfl⟩ := List.mem_map.1 ha
      rw [hb]
      exact (search_loop_none_iff n s.inp).1 hs e he
  cases op with
  | call c =>
    cases c with
    | eint name dflt junk => exact haccess _ _ _ _ rfl
    | estr name dflt junk => exact haccess _ _ _ _ rfl
    | eeenum name d0 ds ws junk => exact haccess _ _ _ _ rfl
  | eint64 name dflt junk => exact haccess _ _ _ _ rfl
  | mark name =>
    simp only [run_op, Option.some.injEq] at h
    rw [← h]
    simp only [mark_names]
    exact hu
  | replace o nw =>
    simp only [run_op, Option.some.injEq] at h
    rw [← h]
    cases nw with
    | none =>
      simp only [replace_none_names]
      exact hu
    | some nw =>
      apply replace_some_unique o nw hu
      intro e he hne
      simp only [rename_ok, List.all_eq_true, Bool.or_eq_true, decide_eq_true_eq] at hok
      rcases hok e he with h1 | h1
      · exact absurd h1 hne
      · exact h1

theorem run_ops_unique (ops : List store_op) : ∀ (s s2 : session),
    (s.inp.map (fun e => e.name)).Pairwise (fun a b => gmx_strcasecmp_min b a ≠ 0) →
    renames_ok s ops = true → run_ops s ops = some s2 →
    (s2.inp.map (fun e => e.name)).Pairwise (fun a b => gmx_strcasecmp_min b a ≠ 0) := by
  induction ops with
  | nil =>
    intro s s2 hu _ h
    simp only [run_ops, Option.some.injEq] at h
    rw [← h]; exact hu
  | cons op ops ih =>
    intro s s2 hu hok h
    simp only [renames_ok, Bool.and_eq_true] at hok
    cases hr : run_op s op with
    | none => simp [run_ops, hr] at h
    | some s1 =>
      simp only [run_ops, hr, Option.some_bind] at h
      have hok2 := hok.2
      simp only [hr] at hok2
      exact ih s1 s2 (run_op_unique hu hok.1 hr) hok2 h

/-- In every store reached from the result of `read_inpfile` by a sequence of
`mark_einp_set`, `get_eint`, `get_eint64`, `get_estr`, `get_eeenum` and
`replace_inp_entry`, in which every replacement name matches no entry other than the
renamed ones, no two entries have matching names. -/
theorem names_unique_without_clash (lines : List CStr) (wi : warninp) (ops : List store_op)
    (s : session)
    (hrun : run_ops ⟨(read_inpfile lines wi).1, (read_inpfile lines wi).2, []⟩ ops = some s)
    (hok : renames_ok ⟨(read_inpfile lines wi).1, (read_inpfile lines wi).2, []⟩ ops = true) :
    (s.inp.map (fun e => e.name)).Pairwise
      (fun a b => gmx_strcasecmp_min a b ≠ 0 ∧ gmx_strcasecmp_min b a ≠ 0) := by
  have h0 : ((read_inpfile lines wi).1.map (fun e => e.name)).Pairwise
      (fun a b => gmx_strcasecmp_min b a ≠ 0) := read_fold_names lines _ (by simp)
  have h := run_ops_unique ops _ s h0 hok hrun
  exact List.Pairwise.imp (fun hab => ⟨fun hc => hab (cmp_symm hc), hab⟩) h

/-- C13, the code at the failing input: after reading `a = 1` and `b = 2`,
`replace_inp_entry` with the old name `a` and the replacement `b` leaves two entries
with the name `b`; when both entries were read out before the renaming,
`write_inpfile` writes two lines for `b`.  `read_inpfile` and `get_einp` look the name
up before they add an entry, the renaming does not. -/
theorem C13_rename_creates_duplicate :
    (run_ops ⟨(read_inpfile ["a = 1".toList, "b = 2".toList] wi0).1,
        (read_inpfile ["a = 1".toList, "b = 2".toList] wi0).2, []⟩
        [store_op.replace "a".toList (some "b".toList)]).map
        (fun s => s.inp.map (fun e => e.name)) = some ["b".toList, "b".toList] ∧
    gmx_strcasecmp_min "b".toList "b".toList = 0 ∧
    (run_ops ⟨(read_inpfile ["a = 1".toList, "b = 2".toList] wi0).1,
        (read_inpfile ["a = 1".toList, "b = 2".toList] wi0).2, []⟩
        [store_op.call (accessor_call.eint "a".toList 0 junk0),
          store_op.call (accessor_call.eint "b".toList 0 junk0),
          store_op.replace "a".toList (some "b".toList)]).map
        (fun s => (write_inpfile s.inp true s.wi).out) =
      some ["b                        = 1\n".toList, "b                        = 2\n".toList] := by
  decide

/-! ## The shared counter -/

theorem head_count_upd (inp : List t_inpfile) (i : Nat) (f : t_inpfile → t_inpfile)
    (hf : ∀ e, (f e).inp_count = e.inp_count) : head_count (upd inp i f) = head_count inp := by
  cases inp with
  | nil => simp [upd]
  | cons e r => cases i <;> simp [upd, head_count, hf]

theorem upd_ne_nil {inp : List t_inpfile} (h : inp ≠ []) (i : Nat) (f : t_inpfile → t_inpfile) :
    upd inp i f ≠ [] := by
  intro h0
  have := length_upd inp i f
  rw [h0] at this
  exact h (List.length_eq_zero.1 this.symm)

theorem touched_entry_count (inp : List t_inpfile) (i : Nat) (w : Option CStr) (e : t_inpfile)
    (he : inp[i]? = some e) :
    (∃ e2, (touch inp i)[i]? = some e2 ∧ e2.count = head_count inp) ∧
    (∃ e2, (upd (touch inp i) i (fun x => { x with value := w }))[i]? = some e2 ∧
      e2.count = head_count inp) := by
  constructor
  · exact ⟨_, by rw [getElem?_touch, he]; rfl, by simp [touched]⟩
  · refine ⟨{ touched (head_count inp) i i e with value := w }, ?_, by simp [touched]⟩
    rw [getElem?_upd, getElem?_touch, he]
    simp

theorem search_upd_value (n : CStr) (inp : List t_inpfile) (i : Nat) (w : Option CStr) :
    search_loop n (upd inp i (fun x => { x with value := w })) = search_loop n inp :=
  search_loop_congr n _ _ (map_upd (fun e => e.name) (fun x => { x with value := w })
    (fun _ => rfl) inp i)

theorem head_count_upd_value (inp : List t_inpfile) (i : Nat) (w : Option CStr) :
    head_count (upd inp i (fun x => { x with value := w })) = head_count inp :=
  head_count_upd inp i (fun x => { x with value := w }) (fun _ => rfl)

theorem op_touch_name {op : store_op} {n : CStr} {junk : t_inpfile} {w : Option CStr}
    {fb : Bool} (ht : op_touch op = some (n, junk, w, fb)) :
    op_name op = n ∧ op_is_touch [] op = true ∧ ∀ inp, op_is_touch inp op = true := by
  cases op with
  | mark name => simp [op_touch] at ht
  | replace o nw => simp [op_touch] at ht
  | eint64 name dflt jk =>
    simp only [op_touch, Option.some.injEq, Prod.mk.injEq] at ht
    exact ⟨ht.1, rfl, fun _ => rfl⟩
  | call c =>
    cases c with
    | eint name dflt jk =>
      simp only [op_touch, Option.some.injEq, Prod.mk.injEq] at ht
      exact ⟨ht.1, rfl, fun _ => rfl⟩
    | estr name dflt jk =>
      simp only [op_touch, Option.some.injEq, Prod.mk.injEq] at ht
      exact ⟨ht.1, rfl, fun _ => rfl⟩
    | eeenum name d0 ds ws jk =>
      simp only [op_touch, Option.some.injEq, Prod.mk.injEq] at ht
      exact ⟨ht.1, rfl, fun _ => rfl⟩

theorem access_counter {s s2 : session} {op : store_op} {n : CStr} {junk : t_inpfile}
    {w : Option CStr} {fb : Bool} (hne : s.inp ≠ []) (h : run_op s op = some s2)
    (ht : op_touch op = some (n, junk, w, fb)) :
    s2.inp ≠ [] ∧ head_count s2.inp = head_count s.inp + 1 ∧
    ∃ e, lookup s2.inp n = some e ∧ e.count = head_count s.inp := by
  rcases run_op_shape h ht with ⟨i, hs, h1 | ⟨_, h1⟩⟩ | ⟨hs, h1⟩
  · obtain ⟨e, he, _, _⟩ := search_loop_some hs
    obtain ⟨⟨e2, he2, hc2⟩, _⟩ := touched_entry_count s.inp i w e he
    rw [h1]
    refine ⟨touch_ne_nil hne i, head_count_touch _ _ hne, e2, ?_, hc2⟩
    exact lookup_of_search (by rw [search_touch]; exact hs) he2
  · obtain ⟨e, he, _, _⟩ := search_loop_some hs
    obtain ⟨_, ⟨e2, he2, hc2⟩⟩ := touched_entry_count s.inp i w e he
    rw [h1]
    refine ⟨upd_ne_nil (touch_ne_nil hne i) _ _, ?_, e2, ?_, hc2⟩
    · rw [head_count_upd_value]
      exact head_count_touch _ _ hne
    · refine lookup_of_search ?_ he2
      rw [search_upd_value, search_touch]
      exact hs
  · obtain ⟨hs1, e, he, _, _, hc⟩ := miss_store_facts s.inp n junk w hs
    rw [h1]
    refine ⟨upd_ne_nil (touch_ne_nil (by simp) _) _ _, ?_, e, lookup_of_search hs1 he, ?_⟩
    · rw [head_count_upd_value, head_count_touch _ _ (by simp), head_count_append hne]
    · rw [hc, head_count_append hne]

theorem step_counter {s s2 : session} {op : store_op} (hne : s.inp ≠ [])
    (h : run_op s op = some s2) :
    s2.inp ≠ [] ∧
    head_count s2.inp = head_count s.inp + (if op_is_touch s.inp op = true then 1 else 0) ∧
    (op_is_touch s.inp op = true →
      ∃ e, lookup s2.inp (op_name op) = some e ∧ e.count = head_count s.inp) := by
  have haccess : ∀ (n : CStr) (junk : t_inpfile) (w : Option CStr) (fb : Bool),
      op_touch op = some (n, junk, w, fb) →
      s2.inp ≠ [] ∧
      head_count s2.inp = head_count s.inp + (if op_is_touch s.inp op = true then 1 else 0) ∧
      (op_is_touch s.inp op = true →
        ∃ e, lookup s2.inp (op_name op) = some e ∧ e.count = head_count s.inp) := by
    intro n junk w fb ht
    obtain ⟨a1, a2, a3⟩ := access_counter hne h ht
    obtain ⟨b1, _, b3⟩ := op_touch_name ht
    rw [b1, b3 s.inp]
    exact ⟨a1, by simpa using a2, fun _ => a3⟩
  cases op with
  | call c =>
    cases c with
    | eint name dflt junk => exact haccess _ _ _ _ rfl
    | estr name dflt junk => exact haccess _ _ _ _ rfl
    | eeenum name d0 ds ws junk => exact haccess _ _ _ _ rfl
  | eint64 name dflt junk => exact haccess _ _ _ _ rfl
  | mark name =>
    clear haccess
    simp only [run_op, Option.some.injEq] at h
    rw [← h]
    cases hs : search_loop name s.inp with
    | none => simp [mark_einp_set, op_is_touch, hs, hne]
    | some i =>
      have hmark : mark_einp_set s.inp name = touch s.inp i := by simp [mark_einp_set, hs]
      obtain ⟨e, he, _, _⟩ := search_loop_some hs
      obtain ⟨⟨e2, he2, hc2⟩, _⟩ := touched_entry_count s.inp i none e he
      simp only [hmark, op_is_touch, op_name, hs, Option.isSome_some, if_true]
      refine ⟨touch_ne_nil hne i, head_count_touch _ _ hne, fun _ => ?_⟩
      exact ⟨e2, lookup_of_search (by rw [search_touch]; exact hs) he2, hc2⟩
  | replace o nw =>
    simp only [run_op, Option.some.injEq] at h
    rw [← h]
    simp only [op_is_touch]
    refine ⟨?_, ?_, fun hc => by cases hc⟩
    · simpa [replace_inp_entry] using hne
    · cases hl : s.inp with
      | nil => exact absurd hl hne
      | cons e r =>
        simp only [replace_inp_entry, List.map_cons, head_count]
        by_cases hm : gmx_strcasecmp_min o e.name = 0
        · cases nw <;> simp [replace_step, hm]
        · simp [replace_step, hm]

theorem run_ops_counter (ops : List store_op) : ∀ (s s2 : session) (k : Nat),
    s.inp ≠ [] → head_count s.inp = (k : Int) + 1 → run_ops s ops = some s2 →
    s2.inp ≠ [] ∧ head_count s2.inp = ((k + count_touches s ops : Nat) : Int) + 1 := by
  induction ops with
  | nil =>
    intro s s2 k hne hc h
    simp only [run_ops, Option.some.injEq] at h
    rw [← h]
    exact ⟨hne, by simpa [count_touches] using hc⟩
  | cons op ops ih =>
    intro s s2 k hne hc h
    cases hr : run_op s op with
    | none => simp [run_ops, hr] at h
    | some s1 =>
      simp only [run_ops, hr, Option.some_bind] at h
      obtain ⟨a1, a2, _⟩ := step_counter hne hr
      by_cases ht : op_is_touch s.inp op = true
      · have hc1 : head_count s1.inp = ((k + 1 : Nat) : Int) + 1 := by
          rw [a2, hc]; simp [ht]
        obtain ⟨b1, b2⟩ := ih s1 s2 (k + 1) a1 hc1 h
        refine ⟨b1, ?_⟩
        rw [b2]
        simp only [count_touches, ht, if_true, hr]
        congr 1
        omega
      · have hc1 : head_count s1.inp = ((k : Nat) : Int) + 1 := by
          rw [a2, hc]; simp [ht]
        obtain ⟨b1, b2⟩ := ih s1 s2 k a1 hc1 h
        refine ⟨b1, ?_⟩
        rw [b2]
        simp only [count_touches, ht, hr]
        congr 1
        simp

/-- C16: on a non-empty store returned by `read_inpfile`, after any run of accessor
calls, `mark_einp_set` and `replace_inp_entry` that contains `k` touches, the counter
`inp[0].inp_count` is `k + 1`, and the next touch gives the touched entry the access
order `k + 1` and advances the counter to `k + 2`; an operation that is not a touch
leaves the counter as it was. -/
theorem C16_shared_access_counter (lines : List CStr) (wi : warninp) (ops : List store_op)
    (s : session) (hne : (read_inpfile lines wi).1 ≠ [])
    (hrun : run_ops ⟨(read_inpfile lines wi).1, (read_inpfile lines wi).2, []⟩ ops = some s) :
    s.inp ≠ [] ∧
    head_count s.inp =
      ((count_touches ⟨(read_inpfile lines wi).1, (read_inpfile lines wi).2, []⟩ ops : Nat) :
        Int) + 1 ∧
    ∀ (op : store_op) (s2 : session), run_op s op = some s2 →
      (op_is_touch s.inp op = true →
        (∃ e, lookup s2.inp (op_name op) = some e ∧
          e.count = ((count_touches ⟨(read_inpfile lines wi).1, (read_inpfile lines wi).2, []⟩
            ops : Nat) : Int) + 1) ∧
        head_count s2.inp = ((count_touches
          ⟨(read_inpfile lines wi).1, (read_inpfile lines wi).2, []⟩ ops : Nat) : Int) + 2) ∧
      (op_is_touch s.inp op = false → head_count s2.inp = head_count s.inp) := by
  obtain ⟨h0, _⟩ := read_inv lines wi hne
  have hc0 : head_count (read_inpfile lines wi).1 = ((0 : Nat) : Int) + 1 := by
    simpa using h0.head.2
  obtain ⟨a1, a2⟩ := run_ops_counter ops
    ⟨(read_inpfile lines wi).1, (read_inpfile lines wi).2, []⟩ s 0 hne hc0 hrun
  simp only [Nat.zero_add] at a2
  refine ⟨a1, a2, ?_⟩
  intro op s2 hr
  obtain ⟨_, b2, b3⟩ := step_counter a1 hr
  constructor
  · intro ht
    obtain ⟨e, he, hc⟩ := b3 ht
    refine ⟨⟨e, he, by rw [hc, a2]⟩, ?_⟩
    rw [b2, a2]
    simp only [ht, if_true]
    omega
  · intro ht
    rw [b2]
    simp [ht]

/-! ## Presence of the values -/

theorem get_eint64_hit {inp : List t_inpfile} {name : CStr} {i : Nat} {e : t_inpfile} {v : CStr}
    (h : search_loop name inp = some i) (he : inp[i]? = some e) (hv : e.value = some v)
    (dflt : Int) (wi : warninp) (junk : t_inpfile) :
    get_eint64 inp name dflt wi junk =
      some ((str_to_int64_t v).1, touch inp i,
        if (str_to_int64_t v).2 ≠ [] then warning_error wi (not_int_msg v e.name) else wi) := by
  simp only [get_eint64, get_einp_hit h, getElem?_touch, he, Option.map_some', touched, hv]

theorem get_eeenum_match {inp : List t_inpfile} {name : CStr} {i k : Nat} {e : t_inpfile}
    {v : CStr} {defs : List CStr} (h : search_loop name inp = some i) (he : inp[i]? = some e)
    (hv : e.value = some v) (hl : enum_loop v defs = some k) (wi : Option warninp)
    (junk : t_inpfile) :
    get_eeenum inp name defs wi junk =
      some { ret := (k : Int), inp := touch inp i, wi := wi, err := [] } := by
  simp only [get_eeenum, get_einp_hit h, getElem?_touch, he, Option.map_some', touched, hv, hl]

theorem accessors_total {inp : List t_inpfile}
    (hV : ∀ (i : Nat) (e : t_inpfile), inp[i]? = some e → e.value ≠ none) (name : CStr) :
    (∀ (dflt : Int) (wi : warninp) (junk : t_inpfile),
      get_eint inp name dflt wi junk ≠ none ∧ get_eint64 inp name dflt wi junk ≠ none) ∧
    (∀ (d0 : CStr) (ds : List CStr) (wi : Option warninp) (junk : t_inpfile),
      get_eeenum inp name (d0 :: ds) wi junk ≠ none) := by
  cases hs : search_loop name inp with
  | none =>
    refine ⟨fun dflt wi junk => ⟨?_, ?_⟩, fun d0 ds wi junk => ?_⟩
    · rw [get_eint_miss hs]; simp
    · rw [get_eint64_miss hs]; simp
    · rw [get_eeenum_miss hs]; simp
  | some i =>
    obtain ⟨e, he, _, _⟩ := search_loop_some hs
    cases hv : e.value with
    | none => exact absurd hv (hV i e he)
    | some v =>
      refine ⟨fun dflt wi junk => ⟨?_, ?_⟩, fun d0 ds wi junk => ?_⟩
      · rw [get_eint_hit hs he hv]; simp
      · rw [get_eint64_hit hs he hv]; simp
      · cases hl : enum_loop v (d0 :: ds) with
        | some k => rw [get_eeenum_match hs he hv hl]; simp
        | none =>
          rw [get_eeenum_fallback inp name d0 ds wi junk i e v hs he hv
            ((enum_loop_none_iff v (d0 :: ds)).1 hl)]
          simp

theorem run_op_total {s : session}
    (hV : ∀ (i : Nat) (e : t_inpfile), s.inp[i]? = some e → e.value ≠ none) (op : store_op) :
    ∃ s2, run_op s op = some s2 := by
  cases op with
  | mark name => exact ⟨_, rfl⟩
  | replace o nw => exact ⟨_, rfl⟩
  | eint64 name dflt junk =>
    have h := ((accessors_total hV name).1 dflt s.wi junk).2
    cases hr : get_eint64 s.inp name dflt s.wi junk with
    | none => exact absurd hr h
    | some r => exact ⟨_, by simp only [run_op, hr, Option.map_some']; rfl⟩
  | call c =>
    cases c with
    | eint name dflt junk =>
      have h := ((accessors_total hV name).1 dflt s.wi junk).1
      cases hr : get_eint s.inp name dflt s.wi junk with
      | none => exact absurd hr h
      | some r => exact ⟨_, by simp only [run_op, run_call, hr, Option.map_some']; rfl⟩
    | estr name dflt junk => exact ⟨_, rfl⟩
    | eeenum name d0 ds ws junk =>
      have h := (accessors_total hV name).2 d0 ds (if ws = true then some s.wi else none) junk
      cases hr : get_eeenum s.inp name (d0 :: ds) (if ws = true then some s.wi else none) junk with
      | none => exact absurd hr h
      | some r => exact ⟨_, by simp only [run_op, run_call, hr, Option.map_some']; rfl⟩

theorem op_touch_value {op : store_op} {n : CStr} {junk : t_inpfile} {w : Option CStr}
    {fb : Bool} (ht : op_touch op = some (n, junk, w, fb)) :
    (default_present op = true → w ≠ none) ∧
    (enum_first_nonempty op = true → fb = true → ∃ d, w = some d ∧ d ≠ []) := by
  cases op with
  | mark name => simp [op_touch] at ht
  | replace o nw => simp [op_touch] at ht
  | eint64 name dflt jk =>
    simp only [op_touch, Option.some.injEq, Prod.mk.injEq] at ht
    obtain ⟨_, _, rfl, rfl⟩ := ht
    exact ⟨fun _ => by simp, fun _ h => by cases h⟩
  | call c =>
    cases c with
    | eint name dflt jk =>
      simp only [op_touch, Option.some.injEq, Prod.mk.injEq] at ht
      obtain ⟨_, _, rfl, rfl⟩ := ht
      exact ⟨fun _ => by simp, fun _ h => by cases h⟩
    | estr name dflt jk =>
      simp only [op_touch, Option.some.injEq, Prod.mk.injEq] at ht
      obtain ⟨_, _, rfl, rfl⟩ := ht
      refine ⟨fun hd => ?_, fun _ h => by cases h⟩
      cases dflt with
      | none => simp [default_present] at hd
      | some d => simp
    | eeenum name d0 ds ws jk =>
      simp only [op_touch, Option.some.injEq, Prod.mk.injEq] at ht
      obtain ⟨_, _, rfl, rfl⟩ := ht
      refine ⟨fun _ => by simp, fun hn _ => ⟨d0, rfl, ?_⟩⟩
      intro h0
      simp [enum_first_nonempty, h0] at hn

theorem step_values {s s2 : session} {op : store_op} (h : run_op s op = some s2) :
    ∃ (w : Option CStr) (fb : Bool),
      (∀ (j : Nat) (e2 : t_inpfile), s2.inp[j]? = some e2 →
        (∃ e, s.inp[j]? = some e ∧ e2.value = e.value) ∨ e2.value = w) ∧
      (∀ (j : Nat) (e : t_inpfile), s.inp[j]? = some e →
        ∃ e2, s2.inp[j]? = some e2 ∧ (e2.value = e.value ∨ (fb = true ∧ e2.value = w))) ∧
      (default_present op = true → w ≠ none) ∧
      (enum_first_nonempty op = true → fb = true → ∃ d, w = some d ∧ d ≠ []) := by
  have hsame : ∀ l : List t_inpfile, (∀ j : Nat, (l[j]?).map (fun e => e.value) =
      (s.inp[j]?).map (fun e => e.value)) →
      (∀ (j : Nat) (e2 : t_inpfile), l[j]? = some e2 →
        (∃ e, s.inp[j]? = some e ∧ e2.value = e.value)) ∧
      (∀ (j : Nat) (e : t_inpfile), s.inp[j]? = some e →
        ∃ e2, l[j]? = some e2 ∧ e2.value = e.value) := by
    intro l hl
    constructor
    · intro j e2 he2
      have := hl j
      rw [he2] at this
      cases hj : s.inp[j]? with
      | none => rw [hj] at this; cases this
      | some e =>
        rw [hj] at this
        exact ⟨e, rfl, by simpa using this⟩
    · intro j e he
      have := hl j
      rw [he] at this
      cases hj : l[j]? with
      | none => rw [hj] at this; cases this
      | some e2 =>
        rw [hj] at this
        exact ⟨e2, rfl, by simpa using this⟩
  have htouch : ∀ (i j : Nat), ((touch s.inp i)[j]?).map (fun e => e.value) =
      (s.inp[j]?).map (fun e => e.value) := by
    intro i j
    rw [← List.getElem?_map, ← List.getElem?_map,
      map_touch (fun e => e.value) (fun _ _ _ _ => rfl)]
  have hplain : ∀ l : List t_inpfile, (∀ j : Nat, (l[j]?).map (fun e => e.value) =
      (s.inp[j]?).map (fun e => e.value)) → s2.inp = l →
      ∃ (w : Option CStr) (fb : Bool),
      (∀ (j : Nat) (e2 : t_inpfile), s2.inp[j]? = some e2 →
        (∃ e, s.inp[j]? = some e ∧ e2.value = e.value) ∨ e2.value = w) ∧
      (∀ (j : Nat) (e : t_inpfile), s.inp[j]? = some e →
        ∃ e2, s2.inp[j]? = some e2 ∧ (e2.value = e.value ∨ (fb = true ∧ e2.value = w))) ∧
      (default_present op = true → w ≠ none) ∧
      (enum_first_nonempty op = true → fb = true → ∃ d, w = some d ∧ d ≠ []) := by
    intro l hl h2
    obtain ⟨a, b⟩ := hsame l hl
    rw [h2]
    refine ⟨some [], false, fun j e2 he2 => Or.inl (a j e2 he2), ?_, fun _ => by simp,
      fun _ hf => by cases hf⟩
    intro j e he
    obtain ⟨e2, h1, h3⟩ := b j e he
    exact ⟨e2, h1, Or.inl h3⟩
  have haccess : ∀ (n : CStr) (junk : t_inpfile) (w : Option CStr) (fb : Bool),
      op_touch op = some (n, junk, w, fb) →
      ∃ (w : Option CStr) (fb : Bool),
      (∀ (j : Nat) (e2 : t_inpfile), s2.inp[j]? = some e2 →
        (∃ e, s.inp[j]? = some e ∧ e2.value = e.value) ∨ e2.value = w) ∧
      (∀ (j : Nat) (e : t_inpfile), s.inp[j]? = some e →
        ∃ e2, s2.inp[j]? = some e2 ∧ (e2.value = e.value ∨ (fb = true ∧ e2.value = w))) ∧
      (default_present op = true → w ≠ none) ∧
      (enum_first_nonempty op = true → fb = true → ∃ d, w = some d ∧ d ≠ []) := by
    intro n junk w fb ht
    obtain ⟨c1, c2⟩ := op_touch_value ht
    rcases run_op_shape h ht with ⟨i, hs, h1 | ⟨hfb, h1⟩⟩ | ⟨hs, h1⟩
    · exact hplain _ (htouch i) h1
    · refine ⟨w, fb, ?_, ?_, c1, c2⟩
      · intro j e2 he2
        rw [h1, getElem?_upd] at he2
        by_cases hj : j = i
        · right
          simp only [hj, if_true] at he2
          cases ht2 : (touch s.inp i)[i]? with
          | none => rw [ht2] at he2; cases he2
          | some e1 =>
            rw [ht2] at he2
            simp only [Option.map_some', Option.some.injEq] at he2
            rw [← he2]
        · left
          simp only [hj, if_false] at he2
          exact (hsame _ (htouch i)).1 j e2 he2
      · intro j e he
        obtain ⟨e1, he1, hv1⟩ := (hsame _ (htouch i)).2 j e he
        by_cases hj : j = i
        · refine ⟨{ e1 with value := w }, ?_, Or.inr ⟨hfb, rfl⟩⟩
          rw [h1, getElem?_upd, he1]
          simp [hj]
        · refine ⟨e1, ?_, Or.inl hv1⟩
          rw [h1, getElem?_upd, he1]
          simp [hj]
    · refine ⟨w, fb, ?_, ?_, c1, c2⟩
      · intro j e2 he2
        rw [h1, getElem?_upd, getElem?_touch] at he2
        by_cases hj : j = s.inp.length
        · right
          simp only [hj, if_true, List.getElem?_concat_length, Option.map_some',
            Option.some.injEq] at he2
          rw [← he2]
        · left
          simp only [hj, if_false] at he2
          by_cases hlt : j < s.inp.length
          · rw [List.getElem?_append_left hlt] at he2
            cases hj2 : s.inp[j]? with
            | none => rw [hj2] at he2; cases he2
            | some e =>
              rw [hj2] at he2
              simp only [Option.map_some', Option.some.injEq] at he2
              exact ⟨e, rfl, by rw [← he2]; rfl⟩
          · rw [List.getElem?_eq_none (by simp; omega)] at he2
            cases he2
      · intro j e he
        have hlt : j < s.inp.length := (List.getElem?_eq_some.1 he).1
        have hj : j ≠ s.inp.length := by omega
        refine ⟨touched (head_count (s.inp ++ [{ junk with name := n, bSet := true }]))
          s.inp.length j e, ?_, Or.inl rfl⟩
        rw [h1, getElem?_upd, getElem?_touch, List.getElem?_append_left hlt, he]
        simp [hj]
  cases op with
  | call c =>
    cases c with
    | eint name dflt junk => exact haccess _ _ _ _ rfl
    | estr name dflt junk => exact haccess _ _ _ _ rfl
    | eeenum name d0 ds ws junk => exact haccess _ _ _ _ rfl
  | eint64 name dflt junk => exact haccess _ _ _ _ rfl
  | mark name =>
    simp only [run_op, Option.some.injEq] at h
    refine hplain (mark_einp_set s.inp name) ?_ (by rw [← h])
    intro j
    unfold mark_einp_set
    cases search_loop name s.inp with
    | none => rfl
    | some i => exact htouch i j
  | replace o nw =>
    simp only [run_op, Option.some.injEq] at h
    refine hplain (replace_inp_entry s.inp o nw).1 ?_ (by rw [← h])
    intro j
    rw [replace_getElem?, Option.map_map]
    cases s.inp[j]? with
    | none => rfl
    | some e =>
      simp only [Option.map_some', Function.comp_apply, Option.some.injEq]
      by_cases hm : gmx_strcasecmp_min o e.name = 0
      · cases nw <;> simp [replace_step, hm]
      · simp [replace_step, hm]

theorem run_ops_values (ops : List store_op) : ∀ (s : session) (n0 : Nat),
    (∀ (i : Nat) (e : t_inpfile), s.inp[i]? = some e → e.value ≠ none) →
    (∀ op ∈ ops, default_present op = true) →
    ∃ s2, run_ops s ops = some s2 ∧
      (∀ (i : Nat) (e : t_inpfile), s2.inp[i]? = some e → e.value ≠ none) ∧
      ((∀ op ∈ ops, enum_first_nonempty op = true) →
        (∀ i : Nat, i < n0 → ∃ (e : t_inpfile) (v : CStr),
          s.inp[i]? = some e ∧ e.value = some v ∧ v ≠ []) →
        ∀ i : Nat, i < n0 → ∃ (e : t_inpfile) (v : CStr),
          s2.inp[i]? = some e ∧ e.value = some v ∧ v ≠ []) := by
  induction ops with
  | nil =>
    intro s n0 hV _
    exact ⟨s, rfl, hV, fun _ hF => hF⟩
  | cons op ops ih =>
    intro s n0 hV hd
    obtain ⟨s1, hr⟩ := run_op_total hV op
    obtain ⟨w, fb, hA, hB, hw, hfb⟩ := step_values hr
    have hw2 := hw (hd op (List.mem_cons_self _ _))
    have hV1 : ∀ (i : Nat) (e : t_inpfile), s1.inp[i]? = some e → e.value ≠ none := by
      intro i e2 he2
      rcases hA i e2 he2 with ⟨e, he, hv⟩ | hv
      · rw [hv]; exact hV i e he
      · rw [hv]; exact hw2
    obtain ⟨s2, hr2, hV2, hF2⟩ := ih s1 n0 hV1 (fun o ho => hd o (List.mem_cons_of_mem _ ho))
    refine ⟨s2, by simp [run_ops, hr, hr2], hV2, ?_⟩
    intro hn hF
    apply hF2 (fun o ho => hn o (List.mem_cons_of_mem _ ho))
    intro i hi
    obtain ⟨e, v, he, hv, hne⟩ := hF i hi
    obtain ⟨e2, he2, h2⟩ := hB i e he
    rcases h2 with h2 | ⟨hfb1, h2⟩
    · exact ⟨e2, v, he2, by rw [h2, hv], hne⟩
    · obtain ⟨d, hd1, hd2⟩ := hfb (hn op (List.mem_cons_self _ _)) hfb1
      exact ⟨e2, d, he2, by rw [h2, hd1], hd2⟩

theorem split_line_nonempty {line l r : CStr} (h : split_line line = some (l, r)) :
    l ≠ [] ∧ r ≠ [] := by
  unfold split_line at h
  simp only at h
  split_ifs at h with h1 h2 h3
  simp only [Option.some.injEq, Prod.mk.injEq] at h
  rw [← h.1, ← h.2]
  exact ⟨h2, h3⟩

theorem read_values (lines : List CStr) (wi : warninp) :
    ∀ (i : Nat) (e : t_inpfile), (read_inpfile lines wi).1[i]? = some e →
      ∃ v, e.value = some v ∧ v ≠ [] := by
  intro i e he
  have hm := List.getElem?_mem he
  rw [(read_inpfile_spec lines wi).1] at hm
  obtain ⟨p, hp, rfl⟩ := List.mem_map.1 hm
  have hp2 := first_occ_subset _ _ p hp
  unfold valid_pairs at hp2
  obtain ⟨line, _, hl⟩ := List.mem_filterMap.1 hp2
  exact ⟨p.2, rfl, (@split_line_nonempty line p.1 p.2 hl).2⟩

/-- C19 (amended): every sequence of `get_eint`, `get_eint64`, `get_eeenum` with a
non-empty list, `get_estr` with a non-null default, `mark_einp_set` and
`replace_inp_entry` runs to the end on the store returned by `read_inpfile`; in the
store reached every entry has a value, so `get_eint`, `get_eint64` and `get_eeenum`
never meet a null value there.  When in addition the first allowed string of every
`get_eeenum` call is non-empty, every entry that came from the file has a non-empty
value. -/
theorem C19_values_present (lines : List CStr) (wi : warninp) (ops : List store_op)
    (hd : ∀ op ∈ ops, default_present op = true) :
    ∃ s, run_ops ⟨(read_inpfile lines wi).1, (read_inpfile lines wi).2, []⟩ ops = some s ∧
      (∀ e ∈ s.inp, e.value ≠ none) ∧
      (∀ (name : CStr) (dflt : Int) (w : warninp) (junk : t_inpfile),
        get_eint s.inp name dflt w junk ≠ none ∧ get_eint64 s.inp name dflt w junk ≠ none) ∧
      (∀ (name d0 : CStr) (ds : List CStr) (w : Option warninp) (junk : t_inpfile),
        get_eeenum s.inp name (d0 :: ds) w junk ≠ none) ∧
      ((∀ op ∈ ops, enum_first_nonempty op = true) →
        ∀ i : Nat, i < (read_inpfile lines wi).1.length →
          ∃ (e : t_inpfile) (v : CStr), s.inp[i]? = some e ∧ e.value = some v ∧ v ≠ []) := by
  have hV0 : ∀ (i : Nat) (e : t_inpfile), (read_inpfile lines wi).1[i]? = some e →
      e.value ≠ none := by
    intro i e he
    obtain ⟨v, hv, _⟩ := read_values lines wi i e he
    rw [hv]; simp
  obtain ⟨s, hr, hV, hF⟩ := run_ops_values ops
    ⟨(read_inpfile lines wi).1, (read_inpfile lines wi).2, []⟩
    (read_inpfile lines wi).1.length hV0 hd
  refine ⟨s, hr, ?_, ?_, ?_, ?_⟩
  · intro e he
    obtain ⟨i, hi⟩ := List.mem_iff_getElem?.1 he
    exact hV i e hi
  · intro name dflt w junk
    exact (accessors_total hV name).1 dflt w junk
  · intro name d0 ds w junk
    exact (accessors_total hV name).2 d0 ds w junk
  · intro hn i hi
    apply hF hn _ i hi
    intro k hk
    have hk2 : (read_inpfile lines wi).1[k]? = some ((read_inpfile lines wi).1[k]) :=
      List.getElem?_eq_getElem hk
    obtain ⟨v, hv, hne⟩ := read_values lines wi k _ hk2
    exact ⟨_, v, hk2, hv, hne⟩

/-- C19, the claim as stated fails: after reading `integrator = Foo`, `get_eeenum`
with a list whose first string is empty finds no match and stores that empty string,
so an entry that came from the file has an empty value. -/
theorem C19_counterexample :
    (read_inpfile ["integrator = Foo".toList] wi0).1.map (fun e => (e.name, e.value)) =
      [("integrator".toList, some "Foo".toList)] ∧
    (run_ops ⟨(read_inpfile ["integrator = Foo".toList] wi0).1,
        (read_inpfile ["integrator = Foo".toList] wi0).2, []⟩
        [store_op.call (accessor_call.eeenum "integrator".toList [] ["md".toList] true
          junk0)]).map (fun s => s.inp.map (fun e => (e.name, e.value))) =
      some [("integrator".toList, some [])] := by
  decide

/-! ## Touching an entry again -/

/-- C18 (amended): touching a present name, through `mark_einp_set`, `get_einp` or a
typed accessor, performs the touch of the entry found again: the entry gets the
current value of the counter `inp[0].inp_count` as its access order, whatever its
access order was, and keeps its name and value.  On a store in which every access
order is below the counter the touched entry thereby has a larger access order than
every other entry, so it is written after the entries touched in between. -/
theorem C18_retouch_reassigns :
    (∀ (inp : List t_inpfile) (name : CStr) (i : Nat) (e : t_inpfile),
      search_loop name inp = some i → inp[i]? = some e →
      mark_einp_set inp name = touch inp i ∧
      (∀ junk : t_inpfile, get_einp inp name junk = (some i, touch inp i)) ∧
      (∀ (dflt : Option CStr) (junk : t_inpfile), (get_estr inp name dflt junk).2 = touch inp i) ∧
      (∀ v : CStr, e.value = some v →
        (∀ (dflt : Int) (wi : warninp) (junk : t_inpfile), ∃ (r : Int) (w2 : warninp),
          get_eint inp name dflt wi junk = some (r, touch inp i, w2)) ∧
        (∀ (dflt : Int) (wi : warninp) (junk : t_inpfile), ∃ (r : Int) (w2 : warninp),
          get_eint64 inp name dflt wi junk = some (r, touch inp i, w2)) ∧
        (∀ (d0 : CStr) (ds : List CStr) (wi : Option warninp) (junk : t_inpfile),
          ∃ r : enum_result, get_eeenum inp name (d0 :: ds) wi junk = some r ∧
            r.inp.map (fun x => (x.name, x.count, x.bSet)) =
              (touch inp i).map (fun x => (x.name, x.count, x.bSet)))) ∧
      ∃ e2, (touch inp i)[i]? = some e2 ∧ e2.count = head_count inp ∧ e2.name = e.name ∧
        e2.value = e.value) ∧
    (∀ (inp : List t_inpfile) (i : Nat), (∀ e ∈ inp, e.count < head_count inp) →
      ∀ (j : Nat) (e1 e2 : t_inpfile), j ≠ i → (touch inp i)[j]? = some e1 →
        (touch inp i)[i]? = some e2 → e1.count < e2.count) := by
  constructor
  · intro inp name i e hs he
    refine ⟨by simp [mark_einp_set, hs], fun junk => get_einp_hit hs junk,
      fun dflt junk => get_estr_hit hs dflt junk, ?_, ?_⟩
    · intro v hv
      refine ⟨fun dflt wi junk => ⟨_, _, get_eint_hit hs he hv dflt wi junk⟩,
        fun dflt wi junk => ⟨_, _, get_eint64_hit hs he hv dflt wi junk⟩, ?_⟩
      intro d0 ds wi junk
      cases hl : enum_loop v (d0 :: ds) with
      | some k => exact ⟨_, get_eeenum_match hs he hv hl wi junk, rfl⟩
      | none =>
        refine ⟨_, get_eeenum_fallback inp name d0 ds wi junk i e v hs he hv
          ((enum_loop_none_iff v (d0 :: ds)).1 hl), ?_⟩
        exact map_upd (fun x => (x.name, x.count, x.bSet))
          (fun x => { x with value := some d0 }) (fun _ => rfl) (touch inp i) i
    · exact ⟨touched (head_count inp) i i e, by rw [getElem?_touch, he]; rfl,
        by simp [touched], rfl, rfl⟩
  · intro inp i hlt j e1 e2 hj h1 h2
    rw [getElem?_touch] at h1 h2
    cases hj1 : inp[j]? with
    | none => rw [hj1] at h1; cases h1
    | some a =>
      cases hi1 : inp[i]? with
      | none => rw [hi1] at h2; cases h2
      | some b =>
        rw [hj1] at h1
        rw [hi1] at h2
        simp only [Option.map_some', Option.some.injEq] at h1 h2
        rw [← h1, ← h2]
        simp only [touched, hj, if_false, if_true]
        exact hlt a (List.getElem?_mem hj1)

/-- C18, instance of the theorem: the entry `a`, touched before with access order 1,
is touched again when the counter is 3 and ends with a larger access order than
`b`. -/
theorem C18_retouch_reassigns_witness :
    search_loop "a".toList
      [{ new_item "a".toList "1".toList with bSet := true, count := 1, inp_count := 3 },
       { new_item "b".toList "2".toList with bSet := true, count := 2 }] = some 0 ∧
    (mark_einp_set
      [{ new_item "a".toList "1".toList with bSet := true, count := 1, inp_count := 3 },
       { new_item "b".toList "2".toList with bSet := true, count := 2 }] "a".toList).map
      (fun e => e.count) = [3, 2] ∧
    (∀ e ∈ [{ new_item "a".toList "1".toList with bSet := true, count := 1, inp_count := 3 },
        { new_item "b".toList "2".toList with bSet := true, count := 2 }],
      e.count < head_count
        [{ new_item "a".toList "1".toList with bSet := true, count := 1, inp_count := 3 },
         { new_item "b".toList "2".toList with bSet := true, count := 2 }]) ∧
    ({ new_item "b".toList "2".toList with bSet := true, count := 2 } : t_inpfile).count <
      ({ new_item "a".toList "1".toList with bSet := true, count := 3, inp_count := 4 } :
        t_inpfile).count :=
  ⟨by decide,
    (congrArg (List.map (fun e => e.count))
      (C18_retouch_reassigns.1
        [{ new_item "a".toList "1".toList with bSet := true, count := 1, inp_count := 3 },
         { new_item "b".toList "2".toList with bSet := true, count := 2 }] "a".toList 0
        { new_item "a".toList "1".toList with bSet := true, count := 1, inp_count := 3 }
        (by decide) (by decide)).1).trans (by decide),
    by decide,
    C18_retouch_reassigns.2
      [{ new_item "a".toList "1".toList with bSet := true, count := 1, inp_count := 3 },
       { new_item "b".toList "2".toList with bSet := true, count := 2 }] 0 (by decide) 1
      { new_item "b".toList "2".toList with bSet := true, count := 2 }
      { new_item "a".toList "1".toList with bSet := true, count := 3, inp_count := 4 }
      (by decide) (by decide) (by decide)⟩

/-- C18, the claim as stated fails: after reading `a = 1` and `b = 2`, the calls
`get_eint` for `a`, for `b` and for `a` again leave `a` with access order 3, not with
the 1 of its first touch, and `write_inpfile` writes `b` before `a`. -/
theorem C18_counterexample :
    (run_calls ⟨(read_inpfile ["a = 1".toList, "b = 2".toList] wi0).1, wi0, []⟩
        [accessor_call.eint "a".toList 0 junk0]).map
        (fun s => s.inp.map (fun e => (e.name, e.count))) =
      some [("a".toList, 1), ("b".toList, 0)] ∧
    (run_calls ⟨(read_inpfile ["a = 1".toList, "b = 2".toList] wi0).1, wi0, []⟩
        [accessor_call.eint "a".toList 0 junk0, accessor_call.eint "b".toList 0 junk0,
          accessor_call.eint "a".toList 0 junk0]).map
        (fun s => s.inp.map (fun e => (e.name, e.count))) =
      some [("a".toList, 3), ("b".toList, 2)] ∧
    (run_calls ⟨(read_inpfile ["a = 1".toList, "b = 2".toList] wi0).1, wi0, []⟩
        [accessor_call.eint "a".toList 0 junk0, accessor_call.eint "b".toList 0 junk0,
          accessor_call.eint "a".toList 0 junk0]).map
        (fun s => (write_inpfile s.inp false s.wi).out) =
      some ["b                        = 2\n".toList, "a                        = 1\n".toList] := by
  decide

/-! ## The counter on a store without file entries -/

/-- C17, the code at the failing input: a file without a valid line gives the empty
store; the first accessor call on it takes the access order from the memory that
`srenew` hands out, which nothing initialises.  With that memory holding 0, three
calls of `get_eint` for `a`, `b`, `c` assign the access orders 0, 1, 2, and
`write_inpfile` writes `b`, `a`, `c`. -/
theorem C17_counter_on_empty_store :
    (read_inpfile ["; no parameters".toList, "".toList] wi0).1 = [] ∧
    (∀ (name : CStr) (dflt : Int) (wi : warninp) (junk : t_inpfile),
      get_eint [] name dflt wi junk =
        some (dflt, [{ junk with name := name, bSet := true, count := junk.inp_count,
                                 inp_count := junk.inp_count + 1,
                                 value := some (fmt_d dflt) }], wi)) ∧
    (run_calls ⟨(read_inpfile ["; no parameters".toList, "".toList] wi0).1, wi0, []⟩
        [accessor_call.eint "a".toList 1 junk0, accessor_call.eint "b".toList 2 junk0,
          accessor_call.eint "c".toList 3 junk0]).map
        (fun s => s.inp.map (fun e => (e.name, e.count))) =
      some [("a".toList, 0), ("b".toList, 1), ("c".toList, 2)] ∧
    (run_calls ⟨(read_inpfile ["; no parameters".toList, "".toList] wi0).1, wi0, []⟩
        [accessor_call.eint "a".toList 1 junk0, accessor_call.eint "b".toList 2 junk0,
          accessor_call.eint "c".toList 3 junk0]).map
        (fun s => (write_inpfile s.inp false s.wi).out) =
      some ["b                        = 2\n".toList, "a                        = 1\n".toList,
        "c                        = 3\n".toList] := by
  refine ⟨by decide, ?_, by decide, by decide⟩
  intro name dflt wi junk
  simp [get_eint, get_einp, search_loop, touch, upd]

/-! ## Concrete runs of operation sequences -/

/-- An instance of `names_unique_without_clash`: after reading `a = 1` and `b = 2`, a
`get_eint` for the absent `c`, a mark of `a`, a renaming of `a` to `z` and the
obsoletion of `b`. -/
theorem names_unique_without_clash_example :
    renames_ok ⟨(read_inpfile ["a = 1".toList, "b = 2".toList] wi0).1,
        (read_inpfile ["a = 1".toList, "b = 2".toList] wi0).2, []⟩
      [store_op.call (accessor_call.eint "c".toList 3 junk0), store_op.mark "a".toList,
        store_op.replace "a".toList (some "z".toList), store_op.replace "b".toList none] = true ∧
    ∃ s, run_ops ⟨(read_inpfile ["a = 1".toList, "b = 2".toList] wi0).1,
        (read_inpfile ["a = 1".toList, "b = 2".toList] wi0).2, []⟩
      [store_op.call (accessor_call.eint "c".toList 3 junk0), store_op.mark "a".toList,
        store_op.replace "a".toList (some "z".toList), store_op.replace "b".toList none] =
        some s ∧
      (s.inp.map (fun e => e.name)).Pairwise
        (fun a b => gmx_strcasecmp_min a b ≠ 0 ∧ gmx_strcasecmp_min b a ≠ 0) := by
  refine ⟨by decide, ?_⟩
  obtain ⟨s, hs⟩ := Option.isSome_iff_exists.1 (show (run_ops
    ⟨(read_inpfile ["a = 1".toList, "b = 2".toList] wi0).1,
      (read_inpfile ["a = 1".toList, "b = 2".toList] wi0).2, []⟩
    [store_op.call (accessor_call.eint "c".toList 3 junk0), store_op.mark "a".toList,
      store_op.replace "a".toList (some "z".toList),
      store_op.replace "b".toList none]).isSome = true by decide)
  exact ⟨s, hs, names_unique_without_clash _ wi0 _ s hs (by decide)⟩

/-- C16, instance of the theorem: after reading `a = 1` and `b = 2`, a `get_estr` for
the absent `x`, a renaming of the first entry, a mark of the absent `q` and a
`get_eint` for `b` contain two touches. -/
theorem C16_shared_access_counter_witness :
    (read_inpfile ["a = 1".toList, "b = 2".toList] wi0).1 ≠ [] ∧
    count_touches ⟨(read_inpfile ["a = 1".toList, "b = 2".toList] wi0).1,
        (read_inpfile ["a = 1".toList, "b = 2".toList] wi0).2, []⟩
      [store_op.call (accessor_call.estr "x".toList none junk0),
        store_op.replace "a".toList (some "z".toList), store_op.mark "q".toList,
        store_op.call (accessor_call.eint "b".toList 0 junk0)] = 2 ∧
    ∃ s, run_ops ⟨(read_inpfile ["a = 1".toList, "b = 2".toList] wi0).1,
        (read_inpfile ["a = 1".toList, "b = 2".toList] wi0).2, []⟩
      [store_op.call (accessor_call.estr "x".toList none junk0),
        store_op.replace "a".toList (some "z".toList), store_op.mark "q".toList,
        store_op.call (accessor_call.eint "b".toList 0 junk0)] = some s ∧
      head_count s.inp = 3 := by
  refine ⟨by decide, by decide, ?_⟩
  obtain ⟨s, hs⟩ := Option.isSome_iff_exists.1 (show (run_ops
    ⟨(read_inpfile ["a = 1".toList, "b = 2".toList] wi0).1,
      (read_inpfile ["a = 1".toList, "b = 2".toList] wi0).2, []⟩
    [store_op.call (accessor_call.estr "x".toList none junk0),
      store_op.replace "a".toList (some "z".toList), store_op.mark "q".toList,
      store_op.call (accessor_call.eint "b".toList 0 junk0)]).isSome = true by decide)
  refine ⟨s, hs, ?_⟩
  have h := (C16_shared_access_counter _ wi0 _ s (by decide) hs).2.1
  rw [h]
  have hc : count_touches ⟨(read_inpfile ["a = 1".toList, "b = 2".toList] wi0).1,
      (read_inpfile ["a = 1".toList, "b = 2".toList] wi0).2, []⟩
    [store_op.call (accessor_call.estr "x".toList none junk0),
      store_op.replace "a".toList (some "z".toList), store_op.mark "q".toList,
      store_op.call (accessor_call.eint "b".toList 0 junk0)] = 2 := by decide
  rw [hc]
  rfl

/-- C19, instance of the theorem: after reading `a = 1`, a `get_estr` for the absent
`x` with the default `y`, a `get_eeenum` for `a` and a `get_eint64` for `x`. -/
theorem C19_values_present_witness :
    (∀ op ∈ [store_op.call (accessor_call.estr "x".toList (some "y".toList) junk0),
        store_op.call (accessor_call.eeenum "a".toList "no".toList ["yes".toList] true junk0),
        store_op.eint64 "x".toList 5 junk0], default_present op = true) ∧
    ∃ s, run_ops ⟨(read_inpfile ["a = 1".toList] wi0).1, (read_inpfile ["a = 1".toList] wi0).2, []⟩
      [store_op.call (accessor_call.estr "x".toList (some "y".toList) junk0),
        store_op.call (accessor_call.eeenum "a".toList "no".toList ["yes".toList] true junk0),
        store_op.eint64 "x".toList 5 junk0] = some s ∧
      ∀ e ∈ s.inp, e.value ≠ none := by
  refine ⟨by decide, ?_⟩
  obtain ⟨s, hs, hv, _⟩ := C19_values_present ["a = 1".toList] wi0
    [store_op.call (accessor_call.estr "x".toList (some "y".toList) junk0),
      store_op.call (accessor_call.eeenum "a".toList "no".toList ["yes".toList] true junk0),
      store_op.eint64 "x".toList 5 junk0] (by decide)
  exact ⟨s, hs, hv⟩

/-- C20, instance of the theorem: the absent name `nsteps` with the default -25 on
the store read from `dt = 1`, and the value `Foo` of `integrator` against the list
`md`, `sd` asked for twice. -/
theorem C20_reread_default_witness :
    [new_item "dt".toList "1".toList] ≠ [] ∧
    (∀ e ∈ [new_item "dt".toList "1".toList],
      gmx_strcasecmp_min "nsteps".toList e.name ≠ 0) ∧
    (∃ inp1 inp2 : List t_inpfile,
      get_eint [new_item "dt".toList "1".toList] "nsteps".toList (-25) wi0 junk0 =
        some (-25, inp1, wi0) ∧
      get_eint inp1 "nsteps".toList (-25) wi0 junk0 = some (-25, inp2, wi0) ∧
      inp2.length = inp1.length) ∧
    (∃ r1 r2 : enum_result,
      get_eeenum [new_item "integrator".toList "Foo".toList] "integrator".toList
        ["md".toList, "sd".toList] (some wi0) junk0 = some r1 ∧
      get_eeenum r1.inp "integrator".toList ["md".toList, "sd".toList] (some wi0) junk0 =
        some r2 ∧ r2.ret = 0 ∧ r2.wi = some wi0 ∧ r2.err = []) := by
  refine ⟨by decide, by decide, ?_, ?_⟩
  · obtain ⟨inp1, inp2, h1, h2, h3, _⟩ := C20_reread_default.1
      [new_item "dt".toList "1".toList] "nsteps".toList (-25) wi0 junk0 junk0
      (by decide) (by decide) (by decide) (by decide)
    exact ⟨inp1, inp2, h1, h2, h3⟩
  · obtain ⟨r1, r2, h1, _, _, h4, h5, h6, h7, _⟩ := C20_reread_default.2
      [new_item "integrator".toList "Foo".toList] "integrator".toList "md".toList
      ["sd".toList] (some wi0) (some wi0) junk0 junk0
      (Or.inr ⟨0, new_item "integrator".toList "Foo".toList, "Foo".toList,
        by decide, by decide, by decide, by decide⟩)
    exact ⟨r1, r2, h1, h4, h5, h6, h7⟩

end Readinp
